import Mathlib

/-!
# SmartList: a doubly linked list with an index cache

A shallow embedding of `src/src/smartlist.c` (declarations in
`src/include/smartlist.h`).

* A C pointer is `Option Nat`: `none` is `NULL`, `some a` is the address `a`.
* The heap of `chainItem` cells is a `List (Option chainItem)` indexed by
  address; `malloc` hands out the next unused address and is assumed to
  succeed, `free` empties the cell.  Reading or writing through `NULL`, through
  a freed or never allocated address, or outside the allocated `indexMap` is
  undefined behaviour in C and is a `Fault` here.
* `int` is `Int`; the model is the C program on lists whose length and
  capacity stay representable (beyond that the C arithmetic is undefined).
* `exit(EXIT_FAILURE)` is the fault `exitFailure`, which records the memory at
  the moment the process is terminated.
* `while` loops that follow `next` links take a fuel argument and report
  `outOfFuel` when it is exhausted.
-/

namespace SmartList

/-- A C pointer: `none` is `NULL`. -/
abbrev Ptr := Option Nat

/-- Item container of list (`struct chainItem`). -/
structure chainItem where
  data : Ptr
  previous : Ptr
  next : Ptr
  deriving DecidableEq

/-- The heap of chain items, indexed by address. -/
abbrev Heap := List (Option chainItem)

/-- The C type `int (*)(void *data1, void *data2)`. -/
abbrev compareTwoPointersFunction := Ptr → Ptr → Int

/-- List object (the anonymous `struct` typedef `list`).  `indexMap` is the
array the C field points to; its Lean length is the allocated size. -/
structure list where
  length : Int
  memLength : Int
  indexMap : List Ptr
  first : Ptr
  last : Ptr
  comparator : Option compareTwoPointersFunction

/-- Abnormal outcomes of a call. -/
inductive Fault where
  | exitFailure (h : Heap) (l : list)
  | nullDeref
  | invalidDeref
  | outOfBounds
  | outOfFuel

/-- The default comparator: `return !(data1 == data2);`. -/
def COMPARE_PTR (data1 data2 : Ptr) : Int :=
  if data1 = data2 then 0 else 1

/-- Read the cell `*p`. -/
def load (h : Heap) (p : Ptr) : Except Fault chainItem :=
  match p with
  | none => .error .nullDeref
  | some a =>
    match h[a]? with
    | some (some c) => .ok c
    | _ => .error .invalidDeref

/-- Overwrite the cell `*p`. -/
def store (h : Heap) (p : Ptr) (c : chainItem) : Except Fault Heap :=
  match p with
  | none => .error .nullDeref
  | some a =>
    match h[a]? with
    | some (some _) => .ok (h.set a (some c))
    | _ => .error .invalidDeref

/-- The assignment `p->previous = v`. -/
def setPrevious (h : Heap) (p : Ptr) (v : Ptr) : Except Fault Heap := do
  let c ← load h p
  store h p { c with previous := v }

/-- The assignment `p->next = v`. -/
def setNext (h : Heap) (p : Ptr) (v : Ptr) : Except Fault Heap := do
  let c ← load h p
  store h p { c with next := v }

/-- The call `free(p)`; `free(NULL)` does nothing. -/
def free (h : Heap) (p : Ptr) : Except Fault Heap :=
  match p with
  | none => .ok h
  | some a =>
    match h[a]? with
    | some (some _) => .ok (h.set a none)
    | _ => .error .invalidDeref

/-- Calling through a function pointer; a `NULL` function pointer faults. -/
def call (f : Option compareTwoPointersFunction) (a b : Ptr) : Except Fault Int :=
  match f with
  | none => .error .nullDeref
  | some g => .ok (g a b)

/-- The read `list->indexMap[i]`. -/
def readIndexMap (l : list) (i : Int) : Except Fault Ptr :=
  if 0 ≤ i then
    match l.indexMap[i.toNat]? with
    | some p => .ok p
    | none => .error .outOfBounds
  else .error .outOfBounds

/-- The write `list->indexMap[i] = p`. -/
def writeIndexMap (l : list) (i : Int) (p : Ptr) : Except Fault list :=
  if 0 ≤ i ∧ i.toNat < l.indexMap.length then
    .ok { l with indexMap := l.indexMap.set i.toNat p }
  else .error .outOfBounds

/-- The call `realloc(m, n * sizeof(chainItem *))`: the first entries are kept,
new entries are not initialised (modelled as `NULL`). -/
def realloc (m : List Ptr) (n : Nat) : List Ptr :=
  m.take n ++ List.replicate (n - m.length) none

/-- The C function `static chainItem *newChainItem(void *data)`. -/
def newChainItem (h : Heap) (data : Ptr) : Heap × Ptr :=
  (h ++ [some { data := data, previous := none, next := none }], some h.length)

/-- The C function `list *newList(compareTwoPointersFunction comparatorFunction)`. -/
def newList (comparatorFunction : Option compareTwoPointersFunction) : list :=
  { length := 0
    memLength := 2
    indexMap := [none, none]
    first := none
    last := none
    comparator := comparatorFunction }

/-- The `for` loop of `updateIndexMap`, started at `i`. -/
def updateIndexMapLoop (h : Heap) : Nat → list → Int → Except Fault list
  | 0, _, _ => .error .outOfFuel
  | fuel + 1, l, i =>
    if i < l.length then do
      let l1 ←
        (if i = 0 then writeIndexMap l i l.first
         else do
          let p ← readIndexMap l (i - 1)
          let c ← load h p
          writeIndexMap l i c.next)
      updateIndexMapLoop h fuel l1 (i + 1)
    else .ok l

/-- The C function `static void updateIndexMap(list *list, int indexOfChange)`.
The loop body runs `length - indexOfChange` times, so the fuel given to it suffices. -/
def updateIndexMap (h : Heap) (l : list) (indexOfChange : Int) : Except Fault list :=
  let indexOfChange := if indexOfChange < 0 then 0 else indexOfChange
  let l :=
    if l.length > l.memLength then
      { l with
        memLength := l.memLength * 2
        indexMap := realloc l.indexMap (l.memLength * 2).toNat }
    else l
  updateIndexMapLoop h ((l.length - indexOfChange).toNat + 1) l indexOfChange

/-- The C function `static chainItem *getItemAtIndex(list list, int index)`. -/
def getItemAtIndex (l : list) (index : Int) : Except Fault Ptr :=
  if index < 0 ∨ index > l.length - 1 then .ok none
  else readIndexMap l index

/-- The C function `void *getDataAtIndex(list list, int index)`. -/
def getDataAtIndex (h : Heap) (l : list) (index : Int) : Except Fault Ptr :=
  if index < 0 then .ok none
  else do
    let item ← getItemAtIndex l index
    if item ≠ none then do
      let item2 ← getItemAtIndex l index
      let c ← load h item2
      pure c.data
    else pure none

/-- The C function `void putItemAtIndex(list *list, chainItem *item, int index)`. -/
def putItemAtIndex (h : Heap) (l : list) (item : Ptr) (index : Int) :
    Except Fault (Heap × list) :=
  if index < 0 then .error (.exitFailure h l)
  else if item = none ∨ l.length < index then .ok (h, l)
  else do
    let p ← getItemAtIndex l (index - 1)
    let h ← setPrevious h item p
    let n ← getItemAtIndex l index
    let h ← setNext h item n
    let c ← load h item
    let h ← (if c.previous ≠ none then setNext h c.previous item else pure h)
    let c ← load h item
    let h ← (if c.next ≠ none then setPrevious h c.next item else pure h)
    let l := if index = 0 then { l with first := item } else l
    let l := if index = l.length - 1 then { l with last := item } else l
    let l := { l with length := l.length + 1 }
    let l ← updateIndexMap h l (index - 1)
    pure (h, l)

/-- The C function `void deleteItemAtIndex(list *list, int index)`.  Each
`if` reads `item` once for its condition and its assignment; `item->next` and
`item->previous` for the updates of `first` and `last` are read once, after the
writes to the neighbours. -/
def deleteItemAtIndex (h : Heap) (l : list) (index : Int) :
    Except Fault (Heap × list) :=
  if index < 0 then .error (.exitFailure h l)
  else if l.length < index then .ok (h, l)
  else do
    let item ← getItemAtIndex l index
    let c ← load h item
    let h ← (if c.previous ≠ none then setNext h c.previous c.next else pure h)
    let c ← load h item
    let h ← (if c.next ≠ none then setPrevious h c.next c.previous else pure h)
    let c ← load h item
    let l := if index = 0 then { l with first := c.next } else l
    let l := if index = l.length - 1 then { l with last := c.previous } else l
    let l := { l with length := l.length - 1 }
    let h ← free h item
    let l ← updateIndexMap h l index
    pure (h, l)

/-- The C function `void pushInList(list *list, void *data)`. -/
def pushInList (h : Heap) (l : list) (data : Ptr) : Except Fault (Heap × list) :=
  let (h, newItem) := newChainItem h data
  putItemAtIndex h l newItem 0

/-- The C function `void appendInList(list *list, void *data)`. -/
def appendInList (h : Heap) (l : list) (data : Ptr) : Except Fault (Heap × list) :=
  let (h, newItem) := newChainItem h data
  putItemAtIndex h l newItem l.length

/-- The C function `void appendAtInList(list *list, void *data, int index)`. -/
def appendAtInList (h : Heap) (l : list) (data : Ptr) (index : Int) :
    Except Fault (Heap × list) :=
  let (h, newItem) := newChainItem h data
  putItemAtIndex h l newItem index

/-- The `while` loop of `searchItemInList`. -/
def searchItemLoop (h : Heap) (l : list) (data : Ptr) : Nat → Ptr → Except Fault Ptr
  | 0, _ => .error .outOfFuel
  | fuel + 1, item =>
    if item ≠ none then do
      let c ← load h item
      let r ← call l.comparator c.data data
      if r = 0 then pure item
      else do
        let c ← load h item
        searchItemLoop h l data fuel c.next
    else pure none

/-- The C function `static chainItem *searchItemInList(list list, void *data)`. -/
def searchItemInList (fuel : Nat) (h : Heap) (l : list) (data : Ptr) : Except Fault Ptr :=
  searchItemLoop h l data fuel l.first

/-- The `while` loop of `searchIndexInList`. -/
def searchIndexLoop (h : Heap) (l : list) (data : Ptr) : Nat → Ptr → Int → Except Fault Int
  | 0, _, _ => .error .outOfFuel
  | fuel + 1, item, index =>
    if item ≠ none then do
      let c ← load h item
      let r ← call l.comparator c.data data
      if r = 0 then pure index
      else do
        let c ← load h item
        searchIndexLoop h l data fuel c.next (index + 1)
    else pure (-1)

/-- The C function `int searchIndexInList(list list, void *data)`. -/
def searchIndexInList (fuel : Nat) (h : Heap) (l : list) (data : Ptr) : Except Fault Int :=
  searchIndexLoop h l data fuel l.first 0

/-- The C function `void *searchDataInList(list list, void *data)`. -/
def searchDataInList (fuel : Nat) (h : Heap) (l : list) (data : Ptr) : Except Fault Ptr := do
  let result ← searchItemInList fuel h l data
  if result = none then pure none
  else do
    let c ← load h result
    pure c.data

/-- The C function `void deleteInList(list *list, void *data)`. -/
def deleteInList (fuel : Nat) (h : Heap) (l : list) (data : Ptr) :
    Except Fault (Heap × list) := do
  let index ← searchIndexInList fuel h l data
  if index ≠ -1 then deleteItemAtIndex h l index
  else .error (.exitFailure h l)

/-- The C function `void emptyList(list *list)`. -/
def emptyList : Nat → Heap → list → Except Fault (Heap × list)
  | 0, _, _ => .error .outOfFuel
  | fuel + 1, h, l =>
    if l.length > 0 then do
      let (h, l) ← deleteItemAtIndex h l 0
      emptyList fuel h l
    else pure (h, l)

/-- The inner `while` loop of `sortList`: the position at which `item` goes. -/
def sortListScan (h : Heap) (comparatorFunction : Option compareTwoPointersFunction)
    (ascending : Bool) (item : Ptr) : Nat → Ptr → Int → Except Fault Int
  | 0, _, _ => .error .outOfFuel
  | fuel + 1, sortItem, indexFound =>
    if sortItem ≠ none then do
      let s ← load h sortItem
      let c ← load h item
      let r ← call comparatorFunction s.data c.data
      let stop ←
        (if r > 0 ∧ ascending = true then pure true
         else do
          let s ← load h sortItem
          let c ← load h item
          let r ← call comparatorFunction s.data c.data
          pure (decide (r < 0 ∧ ascending = false)))
      if stop then pure indexFound
      else do
        let s ← load h sortItem
        sortListScan h comparatorFunction ascending item fuel s.next (indexFound + 1)
    else pure indexFound

/-- The outer `while` loop of `sortList`. -/
def sortListLoop (comparatorFunction : Option compareTwoPointersFunction)
    (ascending : Bool) (scanFuel : Nat) :
    Nat → Heap → list → Ptr → Except Fault (Heap × list)
  | 0, _, _, _ => .error .outOfFuel
  | fuel + 1, h, sortedList, item =>
    if item ≠ none then do
      let indexFound ←
        sortListScan h comparatorFunction ascending item scanFuel sortedList.first 0
      let c ← load h item
      let (h, newSortedItem) := newChainItem h c.data
      let (h, sortedList) ← putItemAtIndex h sortedList newSortedItem indexFound
      let c ← load h item
      sortListLoop comparatorFunction ascending scanFuel fuel h sortedList c.next
    else pure (h, sortedList)

/-- The C function `void sortList(list *listToSort, compareTwoPointersFunction
comparatorFunction, bool ascending)`.  The result is the heap and the new
contents of `*listToSort`, which the assignment `*listToSort = *sortedList`
takes whole from the destination list. -/
def sortList (fuel : Nat) (h : Heap) (listToSort : list)
    (comparatorFunction : Option compareTwoPointersFunction) (ascending : Bool) :
    Except Fault (Heap × list) := do
  let comparatorFunction :=
    if comparatorFunction.isNone then listToSort.comparator else comparatorFunction
  let sortedList := newList listToSort.comparator
  let (h, sortedList) ←
    sortListLoop comparatorFunction ascending fuel fuel h sortedList listToSort.first
  let sortedList ← updateIndexMap h sortedList 0
  let (h, _) ← emptyList fuel h listToSort
  pure (h, sortedList)

/-- The element sequence as read by `getDataAtIndex` at positions
`0 .. length - 1`. -/
def elements (h : Heap) (l : list) : List (Except Fault Ptr) :=
  (List.range l.length.toNat).map (fun (i : Nat) => getDataAtIndex h l (i : Int))

/-! ## Representation of a list in the heap

A list is represented by the sequence `ns` of its nodes, front to back, each
given as (address, stored data). -/

/-- Address of the first node of `ns`, or `dflt` when there is none. -/
def headAddr (ns : List (Nat × Ptr)) (dflt : Ptr) : Ptr :=
  match ns with
  | [] => dflt
  | n :: _ => some n.1

/-- Address of the last node of `ns`, or `dflt` when there is none. -/
def lastAddr : List (Nat × Ptr) → Ptr → Ptr
  | [], dflt => dflt
  | n :: rest, _ => lastAddr rest (some n.1)

/-- The nodes `ns` are allocated in `h` and doubly linked in this order; the
`previous` link of the first is `prev`, the `next` link of the last is `nxt`. -/
def Seg (h : Heap) : Ptr → List (Nat × Ptr) → Ptr → Prop
  | _, [], _ => True
  | prev, n :: rest, nxt =>
    h[n.1]? = some (some { data := n.2, previous := prev, next := headAddr rest nxt })
      ∧ Seg h (some n.1) rest nxt

/-- The representation invariant: `l` in heap `h` holds exactly the nodes
`ns`: the chain from `first` is `ns`, `length` counts it, the capacity covers
it and the index cache lists the node addresses in order. -/
structure Rep (h : Heap) (l : list) (ns : List (Nat × Ptr)) : Prop where
  chain : Seg h none ns none
  nodup : (ns.map Prod.fst).Nodup
  first : l.first = headAddr ns none
  len : l.length = (ns.length : Int)
  cap : l.length ≤ l.memLength
  capPos : 2 ≤ l.memLength
  mem : l.memLength = (l.indexMap.length : Int)
  cache : ∀ (j : Nat) (n : Nat × Ptr), ns[j]? = some n → l.indexMap[j]? = some (some n.1)

/-- The states reachable from `newList` through successfully completed public
mutating calls. -/
inductive Reachable : Heap → list → Prop
  | newList (h : Heap) (cmp : Option compareTwoPointersFunction) :
      Reachable h (newList cmp)
  | appendAtInList {h : Heap} {l : list} (data : Ptr) (index : Int) {h' : Heap} {l' : list} :
      Reachable h l → appendAtInList h l data index = .ok (h', l') → Reachable h' l'
  | pushInList {h : Heap} {l : list} (data : Ptr) {h' : Heap} {l' : list} :
      Reachable h l → pushInList h l data = .ok (h', l') → Reachable h' l'
  | appendInList {h : Heap} {l : list} (data : Ptr) {h' : Heap} {l' : list} :
      Reachable h l → appendInList h l data = .ok (h', l') → Reachable h' l'
  | deleteItemAtIndex {h : Heap} {l : list} (index : Int) {h' : Heap} {l' : list} :
      Reachable h l → deleteItemAtIndex h l index = .ok (h', l') → Reachable h' l'
  | deleteInList {h : Heap} {l : list} (fuel : Nat) (data : Ptr) {h' : Heap} {l' : list} :
      Reachable h l → deleteInList fuel h l data = .ok (h', l') → Reachable h' l'
  | sortList {h : Heap} {l : list} (fuel : Nat)
      (cmp : Option compareTwoPointersFunction) (ascending : Bool) {h' : Heap} {l' : list} :
      Reachable h l → sortList fuel h l cmp ascending = .ok (h', l') → Reachable h' l'
  | emptyList {h : Heap} {l : list} (fuel : Nat) {h' : Heap} {l' : list} :
      Reachable h l → emptyList fuel h l = .ok (h', l') → Reachable h' l'

/-- Index of the first element of a list that satisfies `p`. -/
def firstIndex {β : Type} (p : β → Bool) : List β → Option Nat
  | [] => none
  | x :: xs => if p x then some 0 else (firstIndex p xs).map (· + 1)

/-- Number of leading elements that do not satisfy `stop`: the position at
which the scan of `sortList` stops. -/
def insertPos {β : Type} (stop : β → Bool) : List β → Nat
  | [] => 0
  | x :: xs => if stop x then 0 else insertPos stop xs + 1

/-- One step of the insertion sort: `e` is put where the scan stops. -/
def insertSorted {β : Type} (stop : β → β → Bool) (ys : List β) (e : β) : List β :=
  ys.take (insertPos (fun s => stop s e) ys) ++ e :: ys.drop (insertPos (fun s => stop s e) ys)

/-- The `break` condition of the scan of `sortList`, for the occupant `s` and
the element `e` being placed. -/
def sortStop (f : compareTwoPointersFunction) (ascending : Bool) (s e : Ptr) : Bool :=
  decide ((f s e > 0 ∧ ascending = true) ∨ (f s e < 0 ∧ ascending = false))

/-- The nodes allocated for the data `xs` at consecutive addresses from `a`. -/
def nodesFrom : Nat → List Ptr → List (Nat × Ptr)
  | _, [] => []
  | a, x :: xs => (a, x) :: nodesFrom (a + 1) xs

/-- A comparator that is a total preorder by the sign of its result. -/
structure TotalPreorder (cmp : compareTwoPointersFunction) : Prop where
  antisymm : ∀ a b, cmp a b < 0 ↔ cmp b a > 0
  trans : ∀ a b c, cmp a b ≤ 0 → cmp b c ≤ 0 → cmp a c ≤ 0

/-- The node reached from `p` by following `next` links `k` times. -/
def walk (h : Heap) : Nat → Ptr → Except Fault Ptr
  | 0, p => .ok p
  | k + 1, p => do
    let c ← load h p
    walk h k c.next

/-- The comparator read in the direction of the sort: `cmp` itself when
ascending, its negation when descending. -/
def dirCmp (cmp : compareTwoPointersFunction) (ascending : Bool) : compareTwoPointersFunction :=
  fun a b => if ascending = true then cmp a b else - cmp a b

/-! ## Concrete states used to instantiate the theorems -/

/-- A comparator on data references: the difference of the addresses, `NULL`
counting as address 0. -/
def cmpAddr : compareTwoPointersFunction :=
  fun a b => (a.getD 0 : Int) - (b.getD 0 : Int)

/-- The heap after `appendInList` of the data `3`, `1`, `2` to a new list. -/
def demoHeap : Heap :=
  [some { data := some 3, previous := none, next := some 1 },
   some { data := some 1, previous := some 0, next := some 2 },
   some { data := some 2, previous := some 1, next := none }]

/-- The list after `appendInList` of the data `3`, `1`, `2` to a new list with
comparator `cmpAddr`. -/
def demoList : list :=
  { length := 3
    memLength := 4
    indexMap := [some 0, some 1, some 2, none]
    first := some 0
    last := none
    comparator := some cmpAddr }

/-- The heap after `appendInList` of the `NULL` reference to a new list. -/
def nullHeap : Heap :=
  [some { data := none, previous := none, next := none }]

/-- The list after `appendInList` of the `NULL` reference to a new list with
the default comparator `COMPARE_PTR`. -/
def nullList : list :=
  { length := 1
    memLength := 2
    indexMap := [some 0, none]
    first := some 0
    last := none
    comparator := some COMPARE_PTR }

/-- The calls `appendInList(list, x)` for the data `xs`, in this order. -/
def appendAll : Heap → list → List Ptr → Except Fault (Heap × list)
  | h, l, [] => .ok (h, l)
  | h, l, x :: xs => do
    let (h, l) ← appendInList h l x
    appendAll h l xs

/-- The capacity after a call against the capacity before: not smaller, and
exactly doubled when it is not the same. -/
def capacityStep (l l' : list) : Prop :=
  l.memLength ≤ l'.memLength ∧ (l'.memLength ≠ l.memLength → l'.memLength = l.memLength * 2)

/-- The heap after `deleteItemAtIndex(list, 0)` on `demoList`. -/
def pairHeap : Heap :=
  [none,
   some { data := some 1, previous := none, next := some 2 },
   some { data := some 2, previous := some 1, next := none }]

/-- The list after `deleteItemAtIndex(list, 0)` on `demoList`: it holds `1`,
`2` and keeps the capacity 4. -/
def pairList : list :=
  { length := 2
    memLength := 4
    indexMap := [some 1, some 2, some 2, none]
    first := some 1
    last := none
    comparator := some cmpAddr }

/-- The list after `appendInList` of the data `3`, `1`, `2` to a new list with
the default comparator `COMPARE_PTR`; its heap is `demoHeap`. -/
def ptrList : list :=
  { length := 3
    memLength := 4
    indexMap := [some 0, some 1, some 2, none]
    first := some 0
    last := none
    comparator := some COMPARE_PTR }

/-- A comparator with ties: it compares the addresses by their tens, `NULL`
counting as address 0. -/
def cmpTens : compareTwoPointersFunction :=
  fun a b => ((a.getD 0 / 10 : Nat) : Int) - ((b.getD 0 / 10 : Nat) : Int)

/-- The heap after `appendInList` of the data `21`, `10`, `25` to a new list. -/
def tieHeap : Heap :=
  [some { data := some 21, previous := none, next := some 1 },
   some { data := some 10, previous := some 0, next := some 2 },
   some { data := some 25, previous := some 1, next := none }]

/-- The list after `appendInList` of the data `21`, `10`, `25` to a new list
with comparator `cmpTens`, under which `21` and `25` compare equal. -/
def tieList : list :=
  { length := 3
    memLength := 4
    indexMap := [some 0, some 1, some 2, none]
    first := some 0
    last := none
    comparator := some cmpTens }

/-! ## Heap and chain lemmas -/

theorem load_of_cell {h : Heap} {a : Nat} {c : chainItem} (hc : h[a]? = some (some c)) :
    load h (some a) = .ok c := by
  simp [load, hc]

theorem setNext_of_cell {h : Heap} {a : Nat} {c : chainItem} (hc : h[a]? = some (some c))
    (v : Ptr) : setNext h (some a) v = .ok (h.set a (some { c with next := v })) := by
  simp [setNext, store, load, hc, bind, Except.bind]

theorem setPrevious_of_cell {h : Heap} {a : Nat} {c : chainItem}
    (hc : h[a]? = some (some c)) (v : Ptr) :
    setPrevious h (some a) v = .ok (h.set a (some { c with previous := v })) := by
  simp [setPrevious, store, load, hc, bind, Except.bind]

theorem free_of_cell {h : Heap} {a : Nat} {c : chainItem} (hc : h[a]? = some (some c)) :
    free h (some a) = .ok (h.set a none) := by
  simp [free, hc]

theorem cell_lt {h : Heap} {a : Nat} {c : Option chainItem} (hc : h[a]? = some c) :
    a < h.length := by
  by_contra hlt
  rw [List.getElem?_eq_none (by omega)] at hc
  cases hc

theorem cell_set_self {h : Heap} {a : Nat} (hlt : a < h.length) (v : Option chainItem) :
    (h.set a v)[a]? = some v := by
  simp [List.getElem?_set, hlt]

theorem cell_set_ne {h : Heap} {a b : Nat} (hne : a ≠ b) (v : Option chainItem) :
    (h.set a v)[b]? = h[b]? := by
  simp [List.getElem?_set, hne]

theorem headAddr_append (xs ys : List (Nat × Ptr)) (d : Ptr) :
    headAddr (xs ++ ys) d = headAddr xs (headAddr ys d) := by
  cases xs <;> rfl

theorem lastAddr_append (xs ys : List (Nat × Ptr)) (d : Ptr) :
    lastAddr (xs ++ ys) d = lastAddr ys (lastAddr xs d) := by
  induction xs generalizing d with
  | nil => rfl
  | cons x xs ih => simp [lastAddr, ih]

theorem seg_append {h : Heap} {xs ys : List (Nat × Ptr)} {prev nxt : Ptr} :
    Seg h prev (xs ++ ys) nxt ↔
      Seg h prev xs (headAddr ys nxt) ∧ Seg h (lastAddr xs prev) ys nxt := by
  induction xs generalizing prev with
  | nil => simp [Seg, lastAddr]
  | cons x xs ih =>
    rw [List.cons_append]
    simp only [Seg, lastAddr]
    rw [ih, headAddr_append, and_assoc]

theorem seg_frame {h h' : Heap} {ns : List (Nat × Ptr)} {prev nxt : Ptr}
    (hf : ∀ n ∈ ns, h'[n.1]? = h[n.1]?) (hs : Seg h prev ns nxt) : Seg h' prev ns nxt := by
  induction ns generalizing prev with
  | nil => trivial
  | cons n rest ih =>
    refine ⟨?_, ih (fun m hm => hf m (List.mem_cons_of_mem _ hm)) hs.2⟩
    rw [hf n (List.mem_cons_self _ _)]
    exact hs.1

theorem seg_addr_lt {h : Heap} {ns : List (Nat × Ptr)} {prev nxt : Ptr}
    (hs : Seg h prev ns nxt) : ∀ n ∈ ns, n.1 < h.length := by
  induction ns generalizing prev with
  | nil => intro n hn; cases hn
  | cons m rest ih =>
    intro n hn
    rcases List.mem_cons.1 hn with rfl | hn
    · exact cell_lt hs.1
    · exact ih hs.2 n hn

/-! ## Reading through the cache -/

theorem split_at {α : Type} {ns : List α} {j : Nat} {n : α} (hj : ns[j]? = some n) :
    ns = ns.take j ++ n :: ns.drop (j + 1) := by
  obtain ⟨hlt, rfl⟩ := List.getElem?_eq_some_iff.1 hj
  rw [← List.drop_eq_getElem_cons hlt, List.take_append_drop]

theorem seg_get {h : Heap} {ns : List (Nat × Ptr)} {prev nxt : Ptr}
    (hs : Seg h prev ns nxt) {j : Nat} {n : Nat × Ptr} (hj : ns[j]? = some n) :
    h[n.1]? = some (some { data := n.2, previous := lastAddr (ns.take j) prev,
                           next := headAddr (ns.drop (j + 1)) nxt }) := by
  have hsplit := split_at hj
  rw [hsplit, seg_append] at hs
  exact hs.2.1

theorem headAddr_drop {ns : List (Nat × Ptr)} {j : Nat} {n : Nat × Ptr}
    (hj : ns[j]? = some n) (d : Ptr) : headAddr (ns.drop j) d = some n.1 := by
  obtain ⟨hlt, rfl⟩ := List.getElem?_eq_some_iff.1 hj
  rw [List.drop_eq_getElem_cons hlt]
  rfl

theorem headAddr_drop_none {ns : List (Nat × Ptr)} {j : Nat} (hj : ns.length ≤ j) (d : Ptr) :
    headAddr (ns.drop j) d = d := by
  rw [List.drop_of_length_le hj]
  rfl

theorem lastAddr_take_succ {ns : List (Nat × Ptr)} {j : Nat} {n : Nat × Ptr}
    (hj : ns[j]? = some n) (d : Ptr) : lastAddr (ns.take (j + 1)) d = some n.1 := by
  obtain ⟨hlt, rfl⟩ := List.getElem?_eq_some_iff.1 hj
  rw [List.take_succ, lastAddr_append, List.getElem?_eq_getElem hlt]
  rfl

theorem readIndexMap_of_get {l : list} {j : Nat} {p : Ptr} (hp : l.indexMap[j]? = some p) :
    readIndexMap l (j : Int) = .ok p := by
  simp [readIndexMap, hp]

theorem getItemAtIndex_neg {l : list} {index : Int} (hi : index < 0) :
    getItemAtIndex l index = .ok none := by
  simp [getItemAtIndex, hi]

theorem getItemAtIndex_ge {l : list} {index : Int} (hi : l.length ≤ index) :
    getItemAtIndex l index = .ok none := by
  have : index > l.length - 1 := by omega
  simp [getItemAtIndex, this]

theorem getItemAtIndex_rep {h : Heap} {l : list} {ns : List (Nat × Ptr)} (hr : Rep h l ns)
    (j : Nat) : getItemAtIndex l (j : Int) = .ok (headAddr (ns.drop j) none) := by
  by_cases hj : j < ns.length
  · have hget : ns[j]? = some ns[j] := List.getElem?_eq_getElem hj
    rw [headAddr_drop hget]
    have h1 : ¬ ((j : Int) < 0 ∨ (j : Int) > l.length - 1) := by
      rw [hr.len]; omega
    simp only [getItemAtIndex, h1, if_false]
    exact readIndexMap_of_get (hr.cache j _ hget)
  · rw [headAddr_drop_none (by omega)]
    apply getItemAtIndex_ge
    rw [hr.len]; omega

theorem getItemAtIndex_pred {h : Heap} {l : list} {ns : List (Nat × Ptr)} (hr : Rep h l ns)
    (j : Nat) (hj : j ≤ ns.length) :
    getItemAtIndex l ((j : Int) - 1) = .ok (lastAddr (ns.take j) none) := by
  cases j with
  | zero => simp [getItemAtIndex, lastAddr]
  | succ k =>
    have hget : ns[k]? = some ns[k] := List.getElem?_eq_getElem (by omega)
    rw [lastAddr_take_succ hget]
    have : ((k + 1 : Nat) : Int) - 1 = (k : Int) := by push_cast; ring
    rw [this, getItemAtIndex_rep hr k, headAddr_drop hget]

theorem getDataAtIndex_rep {h : Heap} {l : list} {ns : List (Nat × Ptr)} (hr : Rep h l ns)
    {j : Nat} {n : Nat × Ptr} (hj : ns[j]? = some n) :
    getDataAtIndex h l (j : Int) = .ok n.2 := by
  have h0 : ¬ ((j : Int) < 0) := by omega
  simp only [getDataAtIndex, h0, if_false, getItemAtIndex_rep hr j, headAddr_drop hj,
    bind, Except.bind, ne_eq, not_false_eq_true, if_true, load_of_cell (seg_get hr.chain hj)]
  simp [pure, Except.pure]

theorem getDataAtIndex_neg (h : Heap) (l : list) {index : Int} (hi : index < 0) :
    getDataAtIndex h l index = .ok none := by
  simp [getDataAtIndex, hi]

theorem getDataAtIndex_ge (h : Heap) (l : list) {index : Int} (hi : l.length ≤ index) :
    getDataAtIndex h l index = .ok none := by
  by_cases h0 : index < 0
  · exact getDataAtIndex_neg h l h0
  · simp [getDataAtIndex, h0, getItemAtIndex_ge hi, bind, Except.bind, pure, Except.pure]

theorem elements_rep {h : Heap} {l : list} {ns : List (Nat × Ptr)} (hr : Rep h l ns) :
    elements h l = (ns.map Prod.snd).map Except.ok := by
  apply List.ext_getElem?
  intro j
  simp only [elements, hr.len, Int.toNat_ofNat, List.getElem?_map]
  by_cases hj : j < ns.length
  · have hget : ns[j]? = some ns[j] := List.getElem?_eq_getElem hj
    rw [List.getElem?_range hj]
    simp [hget, getDataAtIndex_rep hr hget]
  · rw [List.getElem?_eq_none (by simpa using hj), List.getElem?_eq_none (by simpa using hj)]
    rfl

/-! ## Rebuilding the cache -/

theorem writeIndexMap_ok {l : list} {i : Nat} (hi : i < l.indexMap.length) (p : Ptr) :
    writeIndexMap l (i : Int) p = .ok { l with indexMap := l.indexMap.set i p } := by
  simp [writeIndexMap, hi]

theorem updateIndexMapLoop_spec {h : Heap} {ns : List (Nat × Ptr)}
    (hs : Seg h none ns none) :
    ∀ (k fuel : Nat) (l : list) (i : Nat),
      ns.length = i + k → k < fuel → l.length = (ns.length : Int) →
      l.first = headAddr ns none → ns.length ≤ l.indexMap.length →
      (∀ (j : Nat) (n : Nat × Ptr), j < i → ns[j]? = some n →
        l.indexMap[j]? = some (some n.1)) →
      ∃ m, updateIndexMapLoop h fuel l (i : Int) = .ok { l with indexMap := m } ∧
        m.length = l.indexMap.length ∧
        ∀ (j : Nat) (n : Nat × Ptr), ns[j]? = some n → m[j]? = some (some n.1) := by
  intro k
  induction k with
  | zero =>
    intro fuel l i hlen hfuel hl _ _ hpre
    obtain ⟨f, rfl⟩ : ∃ f, fuel = f + 1 := ⟨fuel - 1, by omega⟩
    refine ⟨l.indexMap, ?_, rfl, ?_⟩
    · have : ¬ ((i : Int) < l.length) := by rw [hl]; omega
      simp [updateIndexMapLoop, this]
    · intro j n hj
      have hjlt := (List.getElem?_eq_some_iff.1 hj).1
      exact hpre j n (by omega) hj
  | succ k ih =>
    intro fuel l i hlen hfuel hl hfirst hcap hpre
    obtain ⟨f, rfl⟩ : ∃ f, fuel = f + 1 := ⟨fuel - 1, by omega⟩
    have hilt : i < ns.length := by omega
    have hget : ns[i]? = some ns[i] := List.getElem?_eq_getElem hilt
    have hcond : (i : Int) < l.length := by rw [hl]; omega
    obtain ⟨m, hm, hmlen, hmall⟩ := ih f { l with indexMap := l.indexMap.set i (some ns[i].1) }
      (i + 1) (by omega) (by omega) hl hfirst (by simpa using hcap) (by
        intro j n hj hjn
        by_cases hji : j = i
        · subst hji
          rw [hget] at hjn
          cases hjn
          simp [List.getElem?_set]
          omega
        · have := hpre j n (by omega) hjn
          simp only [List.getElem?_set]
          rw [if_neg (by omega)]
          exact this)
    refine ⟨m, ?_, by simpa using hmlen, hmall⟩
    have hc : ((i : Int) + 1) = ((i + 1 : Nat) : Int) := by push_cast; ring
    rw [updateIndexMapLoop]
    simp only [hcond, if_true, hc]
    cases i with
    | zero =>
      have hh : headAddr ns none = some ns[0].1 := by
        have := headAddr_drop hget none
        simpa using this
      have hw : writeIndexMap l ((0 : Nat) : Int) l.first =
          .ok { l with indexMap := l.indexMap.set 0 (some ns[0].1) } := by
        rw [writeIndexMap_ok (by omega), hfirst.trans hh]
      simp only [Nat.cast_zero] at hw
      simp only [Nat.cast_zero, if_true, hw, bind, Except.bind]
      exact hm
    | succ i0 =>
      have hne : ¬ (((i0 + 1 : Nat) : Int) = 0) := by omega
      have hsub : ((i0 + 1 : Nat) : Int) - 1 = (i0 : Int) := by push_cast; ring
      have hget0 : ns[i0]? = some ns[i0] := List.getElem?_eq_getElem (by omega)
      have hcell := seg_get hs hget0
      rw [headAddr_drop hget] at hcell
      simp only [hne, if_false, hsub, readIndexMap_of_get (hpre i0 _ (by omega) hget0),
        bind, Except.bind, load_of_cell hcell, writeIndexMap_ok (show i0 + 1 < l.indexMap.length by omega)]
      exact hm

theorem realloc_length (m : List Ptr) (n : Nat) : (realloc m n).length = n := by
  simp [realloc]
  omega

theorem realloc_get {m : List Ptr} {n j : Nat} (hj : j < n) (hm : j < m.length) :
    (realloc m n)[j]? = m[j]? := by
  simp only [realloc]
  rw [List.getElem?_append_left (by simp; omega), List.getElem?_take_of_lt hj]

/-- The cache rebuild from `start`, when the chain is `ns`, the fields
`first` and `length` are already those of `ns`, and the cache is right below
`start`. -/
theorem updateIndexMap_spec {h : Heap} {ns : List (Nat × Ptr)} {l : list}
    (hs : Seg h none ns none) (hnd : (ns.map Prod.fst).Nodup)
    (hl : l.length = (ns.length : Int)) (hfirst : l.first = headAddr ns none)
    (hmem : l.memLength = (l.indexMap.length : Int)) (hpos : 2 ≤ l.memLength)
    (hcap : l.length ≤ l.memLength + 1)
    (start : Int) (s : Nat) (hstart : (if start < 0 then 0 else start) = (s : Int))
    (hs_le : s ≤ ns.length)
    (hpre : ∀ (j : Nat) (n : Nat × Ptr), j < s → ns[j]? = some n →
      l.indexMap[j]? = some (some n.1)) :
    ∃ l', updateIndexMap h l start = .ok l' ∧ Rep h l' ns ∧
      l'.first = l.first ∧ l'.last = l.last ∧ l'.comparator = l.comparator ∧
      l'.length = l.length ∧
      l'.memLength = (if l.length > l.memLength then l.memLength * 2 else l.memLength) := by
  simp only [updateIndexMap, hstart]
  by_cases hgrow : l.length > l.memLength
  · simp only [hgrow, if_true]
    have hlen2 : (realloc l.indexMap (l.memLength * 2).toNat).length = (l.memLength * 2).toNat :=
      realloc_length _ _
    obtain ⟨m, hm, hmlen, hmall⟩ := updateIndexMapLoop_spec hs (ns.length - s)
      ((l.length - (s : Int)).toNat + 1)
      { l with memLength := l.memLength * 2,
               indexMap := realloc l.indexMap (l.memLength * 2).toNat } s
      (by omega) (by rw [hl]; omega) hl hfirst (by rw [hlen2]; omega) (by
        intro j n hj hjn
        have := hpre j n hj hjn
        have hjlt := (List.getElem?_eq_some_iff.1 this).1
        show (realloc l.indexMap (l.memLength * 2).toNat)[j]? = _
        rw [realloc_get (by omega) hjlt]
        exact this)
    refine ⟨_, hm, ⟨hs, hnd, hfirst, hl, ?_, ?_, ?_, hmall⟩, rfl, rfl, rfl, rfl, rfl⟩
    · show l.length ≤ l.memLength * 2
      omega
    · show 2 ≤ l.memLength * 2
      omega
    · show l.memLength * 2 = (m.length : Int)
      rw [hmlen]
      show l.memLength * 2 = ((realloc l.indexMap (l.memLength * 2).toNat).length : Int)
      rw [hlen2]
      omega
  · simp only [hgrow, if_false]
    obtain ⟨m, hm, hmlen, hmall⟩ := updateIndexMapLoop_spec hs (ns.length - s)
      ((l.length - (s : Int)).toNat + 1) l s
      (by omega) (by rw [hl]; omega) hl hfirst (by omega) hpre
    refine ⟨_, hm, ⟨hs, hnd, hfirst, hl, ?_, hpos, ?_, hmall⟩, rfl, rfl, rfl, rfl, rfl⟩
    · show l.length ≤ l.memLength
      omega
    · show l.memLength = (m.length : Int)
      rw [hmlen]
      exact hmem

/-! ## Splicing -/

theorem lastAddr_concat (xs : List (Nat × Ptr)) (m : Nat × Ptr) (d : Ptr) :
    lastAddr (xs ++ [m]) d = some m.1 := by
  rw [lastAddr_append]
  rfl

/-- The statement `if (x) x->next = v;` where `x` is the last node of a
segment: the segment now leaves to `v`. -/
theorem seg_retarget_next {h : Heap} {xs : List (Nat × Ptr)} {prev nxt : Ptr}
    (hs : Seg h prev xs nxt) (hnd : (xs.map Prod.fst).Nodup) (v : Ptr) :
    ∃ h', (if lastAddr xs none ≠ none then setNext h (lastAddr xs none) v else pure h)
        = .ok h' ∧ Seg h' prev xs v ∧ h'.length = h.length ∧
      ∀ b : Nat, some b ≠ lastAddr xs none → h'[b]? = h[b]? := by
  rcases List.eq_nil_or_concat' xs with rfl | ⟨xs0, m, rfl⟩
  · exact ⟨h, by simp [lastAddr, pure, Except.pure], trivial, rfl, fun _ _ => rfl⟩
  · rw [seg_append] at hs
    obtain ⟨hs0, hm, -⟩ := hs
    have hm' : h[m.1]? = some (some { data := m.2, previous := lastAddr xs0 prev, next := nxt }) := hm
    have hnotin : m.1 ∉ xs0.map Prod.fst := by
      rw [List.map_append, List.nodup_append] at hnd
      intro hmem
      exact hnd.2.2 hmem (by simp)
    refine ⟨h.set m.1 (some { data := m.2, previous := lastAddr xs0 prev, next := v }), ?_, ?_,
      by simp, ?_⟩
    · rw [lastAddr_concat, if_pos (by simp), setNext_of_cell hm']
    · rw [seg_append]
      refine ⟨seg_frame ?_ hs0, ?_, trivial⟩
      · intro n hn
        apply cell_set_ne
        intro heq
        exact hnotin (heq ▸ List.mem_map_of_mem _ hn)
      · exact cell_set_self (cell_lt hm') _
    · intro b hb
      rw [lastAddr_concat] at hb
      apply cell_set_ne
      intro heq
      exact hb (by rw [heq])

/-- The statement `if (y) y->previous = v;` where `y` is the first node of a
segment: the segment is now entered from `v`. -/
theorem seg_retarget_prev {h : Heap} {ys : List (Nat × Ptr)} {prev nxt : Ptr}
    (hs : Seg h prev ys nxt) (hnd : (ys.map Prod.fst).Nodup) (v : Ptr) :
    ∃ h', (if headAddr ys none ≠ none then setPrevious h (headAddr ys none) v else pure h)
        = .ok h' ∧ Seg h' v ys nxt ∧ h'.length = h.length ∧
      ∀ b : Nat, some b ≠ headAddr ys none → h'[b]? = h[b]? := by
  cases ys with
  | nil => exact ⟨h, by simp [headAddr, pure, Except.pure], trivial, rfl, fun _ _ => rfl⟩
  | cons n ys0 =>
    obtain ⟨hn, hs0⟩ := hs
    have hnotin : n.1 ∉ ys0.map Prod.fst := by
      rw [List.map_cons, List.nodup_cons] at hnd
      exact hnd.1
    refine ⟨h.set n.1 (some { data := n.2, previous := v, next := headAddr ys0 nxt }), ?_, ?_,
      by simp, ?_⟩
    · show (if (some n.1 : Ptr) ≠ none then setPrevious h (some n.1) v else pure h) = _
      rw [if_pos (by simp), setPrevious_of_cell hn]
    · refine ⟨cell_set_self (cell_lt hn) _, seg_frame ?_ hs0⟩
      intro m hm
      apply cell_set_ne
      intro heq
      exact hnotin (heq ▸ List.mem_map_of_mem _ hm)
    · intro b hb
      apply cell_set_ne
      intro heq
      exact hb (by simp [headAddr, heq])

theorem lastAddr_mem {xs : List (Nat × Ptr)} {b : Nat} (hb : lastAddr xs none = some b) :
    b ∈ xs.map Prod.fst := by
  rcases List.eq_nil_or_concat' xs with rfl | ⟨xs0, m, rfl⟩
  · cases hb
  · rw [lastAddr_concat] at hb
    cases hb
    simp

theorem headAddr_mem {ys : List (Nat × Ptr)} {b : Nat} (hb : headAddr ys none = some b) :
    b ∈ ys.map Prod.fst := by
  cases ys with
  | nil => cases hb
  | cons n ys0 =>
    cases hb
    simp

theorem headAddr_take_pos {ns : List (Nat × Ptr)} {p : Nat} (hp : 0 < p) (d e : Ptr)
    (hne : ns ≠ []) : headAddr (ns.take p) d = headAddr ns e := by
  cases ns with
  | nil => exact absurd rfl hne
  | cons n rest =>
    cases p with
    | zero => omega
    | succ q => rfl

/-- Inserting an allocated node that is not in the list at position `p`, for
`0 ≤ p ≤ length`: the nodes of the list are now `ns` with the new node at
position `p`, and no cell outside the list and the new node is touched. -/
theorem putItemAtIndex_spec {h : Heap} {l : list} {ns : List (Nat × Ptr)} (hr : Rep h l ns)
    {a : Nat} {c0 : chainItem} (ha : h[a]? = some (some c0)) (hfresh : a ∉ ns.map Prod.fst)
    (p : Nat) (hp : p ≤ ns.length) :
    ∃ h' l', putItemAtIndex h l (some a) (p : Int) = .ok (h', l') ∧
      Rep h' l' (ns.take p ++ (a, c0.data) :: ns.drop p) ∧
      h'.length = h.length ∧
      (∀ b : Nat, b ∉ ns.map Prod.fst → b ≠ a → h'[b]? = h[b]?) ∧
      l'.comparator = l.comparator ∧ l'.length = l.length + 1 ∧
      l'.memLength = (if l.length + 1 > l.memLength then l.memLength * 2 else l.memLength) ∧
      l'.last = (if (p : Int) = l.length - 1 then some a else l.last) := by
  have hsplit : ns.take p ++ ns.drop p = ns := List.take_append_drop p ns
  have hseg := hr.chain
  rw [← hsplit, seg_append] at hseg
  obtain ⟨hxs, hys⟩ := hseg
  have hnd := hr.nodup
  rw [← hsplit, List.map_append, List.nodup_append] at hnd
  obtain ⟨hndx, hndy, hdisj⟩ := hnd
  have hax : a ∉ (ns.take p).map Prod.fst := fun hm =>
    hfresh (by rw [← hsplit, List.map_append]; exact List.mem_append_left _ hm)
  have hay : a ∉ (ns.drop p).map Prod.fst := fun hm =>
    hfresh (by rw [← hsplit, List.map_append]; exact List.mem_append_right _ hm)
  have halt : a < h.length := cell_lt ha
  -- the two writes to the new node
  have hc1 : (h.set a (some { c0 with previous := lastAddr (ns.take p) none }))[a]? =
      some (some { c0 with previous := lastAddr (ns.take p) none }) := cell_set_self halt _
  have hc2 : ((h.set a (some { c0 with previous := lastAddr (ns.take p) none })).set a
      (some { data := c0.data, previous := lastAddr (ns.take p) none,
              next := headAddr (ns.drop p) none }))[a]? =
      some (some { data := c0.data, previous := lastAddr (ns.take p) none,
                   next := headAddr (ns.drop p) none }) :=
    cell_set_self (by simpa using halt) _
  have hf2 : ∀ b : Nat, b ≠ a →
      ((h.set a (some { c0 with previous := lastAddr (ns.take p) none })).set a
      (some { data := c0.data, previous := lastAddr (ns.take p) none,
              next := headAddr (ns.drop p) none }))[b]? = h[b]? := by
    intro b hb
    rw [cell_set_ne (Ne.symm hb), cell_set_ne (Ne.symm hb)]
  have hxs2 := seg_frame (fun n hn => hf2 n.1 (fun heq =>
    hax (heq ▸ List.mem_map_of_mem _ hn))) hxs
  have hys2 := seg_frame (fun n hn => hf2 n.1 (fun heq =>
    hay (heq ▸ List.mem_map_of_mem _ hn))) hys
  -- the write to the predecessor
  obtain ⟨h3, e3, s3, len3, f3⟩ := seg_retarget_next hxs2 hndx (some a)
  have ha3 : h3[a]? = some (some
      { data := c0.data, previous := lastAddr (ns.take p) none,
        next := headAddr (ns.drop p) none }) := by
    rw [f3 a (fun heq => hax (lastAddr_mem heq.symm)), hc2]
  have hys3 : Seg h3 (lastAddr (ns.take p) none) (ns.drop p) none :=
    seg_frame (fun n hn => f3 n.1 (fun heq =>
      hdisj (lastAddr_mem heq.symm) (List.mem_map_of_mem _ hn))) hys2
  -- the write to the successor
  obtain ⟨h4, e4, s4, len4, f4⟩ := seg_retarget_prev hys3 hndy (some a)
  have ha4 : h4[a]? = some (some
      { data := c0.data, previous := lastAddr (ns.take p) none,
        next := headAddr (ns.drop p) none }) := by
    rw [f4 a (fun heq => hay (headAddr_mem heq.symm)), ha3]
  have hxs4 : Seg h4 none (ns.take p) (some a) :=
    seg_frame (fun n hn => f4 n.1 (fun heq =>
      hdisj (List.mem_map_of_mem _ hn) (headAddr_mem heq.symm))) s3
  have hchain : Seg h4 none (ns.take p ++ (a, c0.data) :: ns.drop p) none := by
    rw [seg_append]
    exact ⟨hxs4, ha4, s4⟩
  have hnodup : ((ns.take p ++ (a, c0.data) :: ns.drop p).map Prod.fst).Nodup := by
    rw [List.map_append, List.map_cons, List.nodup_middle, List.nodup_cons, ← List.map_append,
      hsplit]
    exact ⟨hfresh, hr.nodup⟩
  have hlen' : (ns.take p ++ (a, c0.data) :: ns.drop p).length = ns.length + 1 := by
    simp only [List.length_append, List.length_cons, List.length_take, List.length_drop]
    omega
  -- the fields of the list before the cache is rebuilt
  obtain ⟨l3, hl3⟩ : ∃ l3 : list, l3 =
      { (if (p : Int) = (if (p : Int) = 0 then { l with first := some a } else l).length - 1
            then { (if (p : Int) = 0 then { l with first := some a } else l) with last := some a }
            else (if (p : Int) = 0 then { l with first := some a } else l)) with
          length := (if (p : Int) = (if (p : Int) = 0 then { l with first := some a } else l).length - 1
            then { (if (p : Int) = 0 then { l with first := some a } else l) with last := some a }
            else (if (p : Int) = 0 then { l with first := some a } else l)).length + 1 } := ⟨_, rfl⟩
  have g_len : l3.length = l.length + 1 := by
    rw [hl3]; show _ + 1 = _; split_ifs <;> rfl
  have g_mem : l3.memLength = l.memLength := by
    rw [hl3]; show list.memLength _ = _; split_ifs <;> rfl
  have g_map : l3.indexMap = l.indexMap := by
    rw [hl3]; show list.indexMap _ = _; split_ifs <;> rfl
  have g_cmp : l3.comparator = l.comparator := by
    rw [hl3]; show list.comparator _ = _; split_ifs <;> rfl
  have g_first : l3.first = if p = 0 then some a else l.first := by
    rw [hl3]; show list.first _ = _
    by_cases hp0 : p = 0
    · subst hp0; simp only [Nat.cast_zero, if_true]; split_ifs <;> rfl
    · have : ¬ ((p : Int) = 0) := by omega
      simp only [this, hp0, if_false]; split_ifs <;> rfl
  have g_last : l3.last = if (p : Int) = l.length - 1 then some a else l.last := by
    rw [hl3]; show list.last _ = _
    have e0 : (if (p : Int) = 0 then { l with first := some a } else l).length = l.length := by
      split_ifs <;> rfl
    rw [e0]
    by_cases hc : (p : Int) = l.length - 1
    · simp only [hc, if_true]
    · simp only [hc, if_false]; split_ifs <;> rfl
  have hupd := updateIndexMap_spec (l := l3) hchain hnodup
    (by rw [g_len, hlen', hr.len]; push_cast; ring)
    (by
      rw [g_first, headAddr_append]
      by_cases hp0 : p = 0
      · subst hp0
        simp [headAddr]
      · have hne : ns ≠ [] := by
          intro hnil
          rw [hnil] at hp
          simp at hp
          exact hp0 hp
        rw [headAddr_take_pos (by omega) _ none hne, ← hr.first]
        simp only [hp0, if_false])
    (by rw [g_mem, g_map]; exact hr.mem)
    (by rw [g_mem]; exact hr.capPos)
    (by rw [g_len, g_mem]; have := hr.cap; omega)
    ((p : Int) - 1) (p - 1) (by split_ifs <;> omega) (by rw [hlen']; omega)
    (by
      intro j n hj hjn
      have hjp : j < (ns.take p).length := by
        rw [List.length_take]; omega
      rw [List.getElem?_append_left hjp, List.getElem?_take_of_lt (by omega)] at hjn
      rw [g_map]
      exact hr.cache j n hjn)
  obtain ⟨l', hl', hrep', -, hlast', hcmp', hlenl', hmem'⟩ := hupd
  rw [g_len, g_mem] at hmem'
  rw [g_last] at hlast'
  rw [g_cmp] at hcmp'
  rw [g_len] at hlenl'
  subst hl3
  refine ⟨h4, l', ?_, hrep', ?_, ?_, hcmp', hlenl', hmem', hlast'⟩
  · have hneg : ¬ ((p : Int) < 0) := by omega
    have hskip : ¬ ((some a : Ptr) = none ∨ l.length < (p : Int)) := by
      rw [hr.len]; simp; omega
    rw [putItemAtIndex]
    simp only [hneg, hskip, if_false, getItemAtIndex_pred hr p hp, getItemAtIndex_rep hr p,
      bind, Except.bind, setPrevious_of_cell ha, setNext_of_cell hc1, load_of_cell hc2]
    rw [e3]
    simp only [load_of_cell ha3]
    rw [e4]
    simp only [hl']
    rfl
  · rw [len4, len3]; simp
  · intro b hb hba
    have hbx : b ∉ (ns.take p).map Prod.fst := fun hm =>
      hb (by rw [← hsplit, List.map_append]; exact List.mem_append_left _ hm)
    have hby : b ∉ (ns.drop p).map Prod.fst := fun hm =>
      hb (by rw [← hsplit, List.map_append]; exact List.mem_append_right _ hm)
    rw [f4 b (fun heq => hby (headAddr_mem heq.symm)),
      f3 b (fun heq => hbx (lastAddr_mem heq.symm)), hf2 b hba]

theorem rep_frame {h h' : Heap} {l : list} {ns : List (Nat × Ptr)} (hr : Rep h l ns)
    (hf : ∀ b : Nat, b ∈ ns.map Prod.fst → h'[b]? = h[b]?) : Rep h' l ns :=
  ⟨seg_frame (fun n hn => hf n.1 (List.mem_map_of_mem _ hn)) hr.chain, hr.nodup, hr.first,
    hr.len, hr.cap, hr.capPos, hr.mem, hr.cache⟩

theorem rep_addr_lt {h : Heap} {l : list} {ns : List (Nat × Ptr)} (hr : Rep h l ns) :
    ∀ b : Nat, b ∈ ns.map Prod.fst → b < h.length := by
  intro b hb
  obtain ⟨n, hn, rfl⟩ := List.mem_map.1 hb
  exact seg_addr_lt hr.chain n hn

theorem heap_append_get {h : Heap} (c : Option chainItem) {b : Nat} (hb : b < h.length) :
    (h ++ [c])[b]? = h[b]? :=
  List.getElem?_append_left hb

/-- The call `appendAtInList` at a position `0 ≤ p ≤ length`: the new node, allocated
at address `h.length`, is linked at position `p`. -/
theorem appendAtInList_spec {h : Heap} {l : list} {ns : List (Nat × Ptr)} (hr : Rep h l ns)
    (d : Ptr) (p : Nat) (hp : p ≤ ns.length) :
    ∃ h' l', appendAtInList h l d (p : Int) = .ok (h', l') ∧
      Rep h' l' (ns.take p ++ (h.length, d) :: ns.drop p) ∧
      h'.length = h.length + 1 ∧
      (∀ b : Nat, b ∉ ns.map Prod.fst → b < h.length → h'[b]? = h[b]?) ∧
      l'.comparator = l.comparator ∧ l'.length = l.length + 1 ∧
      l'.memLength = (if l.length + 1 > l.memLength then l.memLength * 2 else l.memLength) ∧
      l'.last = (if (p : Int) = l.length - 1 then some h.length else l.last) := by
  have hfr : Rep (h ++ [some { data := d, previous := none, next := none }]) l ns :=
    rep_frame hr (fun b hb => heap_append_get _ (rep_addr_lt hr b hb))
  have hcell : (h ++ [some { data := d, previous := none, next := none }])[h.length]? =
      some (some { data := d, previous := none, next := none }) := by
    simp
  have hfresh : h.length ∉ ns.map Prod.fst := fun hm =>
    absurd (rep_addr_lt hr _ hm) (lt_irrefl _)
  obtain ⟨h', l', e, hrep, hlen, hframe, rest⟩ := putItemAtIndex_spec hfr hcell hfresh p hp
  refine ⟨h', l', e, hrep, by simpa using hlen, ?_, rest⟩
  intro b hb hblt
  rw [hframe b hb (by omega), heap_append_get _ hblt]

/-- The call `deleteItemAtIndex` at a position `0 ≤ p < length`: the node at position
`p` is unlinked and freed, and no cell outside the list is touched. -/
theorem deleteItemAtIndex_spec {h : Heap} {l : list} {ns : List (Nat × Ptr)} (hr : Rep h l ns)
    (p : Nat) (hp : p < ns.length) :
    ∃ h' l', deleteItemAtIndex h l (p : Int) = .ok (h', l') ∧
      Rep h' l' (ns.take p ++ ns.drop (p + 1)) ∧
      h'.length = h.length ∧
      (∀ b : Nat, b ∉ ns.map Prod.fst → h'[b]? = h[b]?) ∧
      l'.comparator = l.comparator ∧ l'.length = l.length - 1 ∧
      l'.memLength = l.memLength ∧
      l'.last = (if (p : Int) = l.length - 1 then lastAddr (ns.take p) none else l.last) := by
  have hget : ns[p]? = some ns[p] := List.getElem?_eq_getElem hp
  have hsplit := split_at hget
  have hseg := hr.chain
  rw [hsplit, seg_append] at hseg
  obtain ⟨hxs, hcell, hys⟩ := hseg
  have hcell' : h[ns[p].1]? = some (some
      { data := ns[p].2, previous := lastAddr (ns.take p) none,
        next := headAddr (ns.drop (p + 1)) none }) := hcell
  have hnd := hr.nodup
  rw [hsplit, List.map_append, List.map_cons, List.nodup_middle, List.nodup_cons,
    List.nodup_append] at hnd
  obtain ⟨hnotin, hndx, hndy, hdisj⟩ := hnd
  have hnx : ns[p].1 ∉ (ns.take p).map Prod.fst := fun hm =>
    hnotin (List.mem_append_left _ hm)
  have hny : ns[p].1 ∉ (ns.drop (p + 1)).map Prod.fst := fun hm =>
    hnotin (List.mem_append_right _ hm)
  -- the write to the predecessor
  obtain ⟨h1, e1, s1, len1, f1⟩ := seg_retarget_next hxs hndx (headAddr (ns.drop (p + 1)) none)
  have hc1 : h1[ns[p].1]? = some (some
      { data := ns[p].2, previous := lastAddr (ns.take p) none,
        next := headAddr (ns.drop (p + 1)) none }) := by
    rw [f1 _ (fun heq => hnx (lastAddr_mem heq.symm)), hcell']
  have hys1 : Seg h1 (some ns[p].1) (ns.drop (p + 1)) none :=
    seg_frame (fun n hn => f1 n.1 (fun heq =>
      hdisj (lastAddr_mem heq.symm) (List.mem_map_of_mem _ hn))) hys
  -- the write to the successor
  obtain ⟨h2, e2, s2, len2, f2⟩ := seg_retarget_prev hys1 hndy (lastAddr (ns.take p) none)
  have hc2 : h2[ns[p].1]? = some (some
      { data := ns[p].2, previous := lastAddr (ns.take p) none,
        next := headAddr (ns.drop (p + 1)) none }) := by
    rw [f2 _ (fun heq => hny (headAddr_mem heq.symm)), hc1]
  have hxs2 : Seg h2 none (ns.take p) (headAddr (ns.drop (p + 1)) none) :=
    seg_frame (fun n hn => f2 n.1 (fun heq =>
      hdisj (List.mem_map_of_mem _ hn) (headAddr_mem heq.symm))) s1
  -- the node is released
  have hchain : Seg (h2.set ns[p].1 none) none (ns.take p ++ ns.drop (p + 1)) none := by
    rw [seg_append]
    refine ⟨seg_frame (fun n hn => cell_set_ne (fun heq => hnx (by
        rw [heq]; exact List.mem_map_of_mem _ hn)) _) hxs2,
      seg_frame (fun n hn => cell_set_ne (fun heq => hny (by
        rw [heq]; exact List.mem_map_of_mem _ hn)) _) s2⟩
  have hnodup : ((ns.take p ++ ns.drop (p + 1)).map Prod.fst).Nodup := by
    rw [List.map_append, List.nodup_append]
    exact ⟨hndx, hndy, hdisj⟩
  have hlen' : ((ns.take p ++ ns.drop (p + 1)).length : Int) = (ns.length : Int) - 1 := by
    simp only [List.length_append, List.length_take, List.length_drop]
    omega
  obtain ⟨l3, hl3⟩ : ∃ l3 : list, l3 =
      { (if (p : Int) = (if (p : Int) = 0 then
              { l with first := headAddr (ns.drop (p + 1)) none } else l).length - 1
            then { (if (p : Int) = 0 then
              { l with first := headAddr (ns.drop (p + 1)) none } else l) with
                last := lastAddr (ns.take p) none }
            else (if (p : Int) = 0 then
              { l with first := headAddr (ns.drop (p + 1)) none } else l)) with
          length := (if (p : Int) = (if (p : Int) = 0 then
              { l with first := headAddr (ns.drop (p + 1)) none } else l).length - 1
            then { (if (p : Int) = 0 then
              { l with first := headAddr (ns.drop (p + 1)) none } else l) with
                last := lastAddr (ns.take p) none }
            else (if (p : Int) = 0 then
              { l with first := headAddr (ns.drop (p + 1)) none } else l)).length - 1 } :=
    ⟨_, rfl⟩
  have g_len : l3.length = l.length - 1 := by
    rw [hl3]; show _ - 1 = _; split_ifs <;> rfl
  have g_mem : l3.memLength = l.memLength := by
    rw [hl3]; show list.memLength _ = _; split_ifs <;> rfl
  have g_map : l3.indexMap = l.indexMap := by
    rw [hl3]; show list.indexMap _ = _; split_ifs <;> rfl
  have g_cmp : l3.comparator = l.comparator := by
    rw [hl3]; show list.comparator _ = _; split_ifs <;> rfl
  have g_first : l3.first = if p = 0 then headAddr (ns.drop (p + 1)) none else l.first := by
    rw [hl3]; show list.first _ = _
    by_cases hp0 : p = 0
    · subst hp0; simp only [Nat.cast_zero, if_true]; split_ifs <;> rfl
    · have : ¬ ((p : Int) = 0) := by omega
      simp only [this, hp0, if_false]; split_ifs <;> rfl
  have g_last : l3.last =
      if (p : Int) = l.length - 1 then lastAddr (ns.take p) none else l.last := by
    rw [hl3]; show list.last _ = _
    have e0 : (if (p : Int) = 0 then
        { l with first := headAddr (ns.drop (p + 1)) none } else l).length = l.length := by
      split_ifs <;> rfl
    rw [e0]
    by_cases hc : (p : Int) = l.length - 1
    · simp only [hc, if_true]
    · simp only [hc, if_false]; split_ifs <;> rfl
  have hupd := updateIndexMap_spec (l := l3) hchain hnodup
    (by rw [g_len, hlen', hr.len])
    (by
      rw [g_first, headAddr_append]
      by_cases hp0 : p = 0
      · subst hp0
        simp [headAddr]
      · have hne : ns ≠ [] := by
          intro hnil
          rw [hnil] at hp
          simp at hp
        rw [headAddr_take_pos (by omega) _ none hne, ← hr.first]
        simp only [hp0, if_false])
    (by rw [g_mem, g_map]; exact hr.mem)
    (by rw [g_mem]; exact hr.capPos)
    (by rw [g_len, g_mem]; have := hr.cap; omega)
    (p : Int) p (by split_ifs <;> omega)
    (by simp only [List.length_append, List.length_take, List.length_drop]; omega)
    (by
      intro j n hj hjn
      have hjp : j < (ns.take p).length := by
        rw [List.length_take]; omega
      rw [List.getElem?_append_left hjp, List.getElem?_take_of_lt (by omega)] at hjn
      rw [g_map]
      exact hr.cache j n hjn)
  obtain ⟨l', hl', hrep', -, hlast', hcmp', hlenl', hmem'⟩ := hupd
  have hnogrow : ¬ (l3.length > l3.memLength) := by
    rw [g_len, g_mem]; have := hr.cap; omega
  rw [if_neg hnogrow, g_mem] at hmem'
  rw [g_last] at hlast'
  rw [g_cmp] at hcmp'
  rw [g_len] at hlenl'
  subst hl3
  refine ⟨h2.set ns[p].1 none, l', ?_, hrep', ?_, ?_, hcmp', hlenl', hmem', hlast'⟩
  · have hneg : ¬ ((p : Int) < 0) := by omega
    have hskip : ¬ (l.length < (p : Int)) := by
      rw [hr.len]; omega
    rw [deleteItemAtIndex]
    simp only [hneg, hskip, if_false, getItemAtIndex_rep hr p, headAddr_drop hget,
      bind, Except.bind, load_of_cell hcell']
    rw [e1]
    simp only [load_of_cell hc1]
    rw [e2]
    simp only [load_of_cell hc2, free_of_cell hc2, hl']
    rfl
  · rw [List.length_set, len2, len1]
  · intro b hb
    have hbn : b ≠ ns[p].1 := fun heq =>
      hb (heq ▸ List.mem_map_of_mem _ (List.getElem_mem hp))
    have hbx : b ∉ (ns.take p).map Prod.fst := fun hm =>
      hb (List.mem_map.2 (by
        obtain ⟨n, hn, rfl⟩ := List.mem_map.1 hm
        exact ⟨n, List.mem_of_mem_take hn, rfl⟩))
    have hby : b ∉ (ns.drop (p + 1)).map Prod.fst := fun hm =>
      hb (List.mem_map.2 (by
        obtain ⟨n, hn, rfl⟩ := List.mem_map.1 hm
        exact ⟨n, List.mem_of_mem_drop hn, rfl⟩))
    rw [cell_set_ne (Ne.symm hbn), f2 b (fun heq => hby (headAddr_mem heq.symm)),
      f1 b (fun heq => hbx (lastAddr_mem heq.symm))]

theorem pushInList_eq (h : Heap) (l : list) (d : Ptr) :
    pushInList h l d = appendAtInList h l d 0 := rfl

theorem appendInList_eq (h : Heap) (l : list) (d : Ptr) :
    appendInList h l d = appendAtInList h l d l.length := rfl

/-- The call `appendAtInList` beyond the end: the node is allocated but never linked,
the list is left as it is. -/
theorem appendAtInList_beyond {h : Heap} {l : list} (d : Ptr) {index : Int}
    (hi : l.length < index) (h0 : 0 ≤ l.length) :
    appendAtInList h l d index =
      .ok (h ++ [some { data := d, previous := none, next := none }], l) := by
  have hneg : ¬ (index < 0) := by omega
  simp [appendAtInList, newChainItem, putItemAtIndex, hneg, hi]

theorem appendAtInList_neg (h : Heap) (l : list) (d : Ptr) {index : Int} (hi : index < 0) :
    appendAtInList h l d index =
      .error (.exitFailure (h ++ [some { data := d, previous := none, next := none }]) l) := by
  simp [appendAtInList, newChainItem, putItemAtIndex, hi]

theorem deleteItemAtIndex_neg (h : Heap) (l : list) {index : Int} (hi : index < 0) :
    deleteItemAtIndex h l index = .error (.exitFailure h l) := by
  simp [deleteItemAtIndex, hi]

theorem deleteItemAtIndex_beyond (h : Heap) (l : list) {index : Int}
    (hi : l.length < index) (h0 : 0 ≤ l.length) :
    deleteItemAtIndex h l index = .ok (h, l) := by
  have hneg : ¬ (index < 0) := by omega
  simp [deleteItemAtIndex, hneg, hi]

/-- The call `deleteItemAtIndex` at `index == length` dereferences `NULL`. -/
theorem deleteItemAtIndex_at_length (h : Heap) (l : list) (h0 : 0 ≤ l.length) :
    deleteItemAtIndex h l l.length = .error .nullDeref := by
  have hneg : ¬ (l.length < 0) := by omega
  simp [deleteItemAtIndex, hneg, getItemAtIndex_ge (le_refl l.length), bind, Except.bind, load]

/-- Any successful `appendAtInList` keeps the representation invariant. -/
theorem appendAtInList_rep {h : Heap} {l : list} {ns : List (Nat × Ptr)} (hr : Rep h l ns)
    {d : Ptr} {index : Int} {h' : Heap} {l' : list}
    (e : appendAtInList h l d index = .ok (h', l')) : ∃ ns', Rep h' l' ns' := by
  by_cases hneg : index < 0
  · rw [appendAtInList_neg h l d hneg] at e
    cases e
  · by_cases hbig : l.length < index
    · rw [appendAtInList_beyond d hbig (by rw [hr.len]; omega)] at e
      cases e
      exact ⟨ns, rep_frame hr (fun b hb => heap_append_get _ (rep_addr_lt hr b hb))⟩
    · obtain ⟨p, rfl⟩ := Int.eq_ofNat_of_zero_le (not_lt.1 hneg)
      have hp : p ≤ ns.length := by
        have := hr.len
        omega
      obtain ⟨h2, l2, e2, hrep, -⟩ := appendAtInList_spec hr d p hp
      rw [e2] at e
      cases e
      exact ⟨_, hrep⟩

/-- Any successful `deleteItemAtIndex` keeps the representation invariant. -/
theorem deleteItemAtIndex_rep {h : Heap} {l : list} {ns : List (Nat × Ptr)} (hr : Rep h l ns)
    {index : Int} {h' : Heap} {l' : list}
    (e : deleteItemAtIndex h l index = .ok (h', l')) : ∃ ns', Rep h' l' ns' := by
  by_cases hneg : index < 0
  · rw [deleteItemAtIndex_neg h l hneg] at e
    cases e
  · by_cases hbig : l.length < index
    · rw [deleteItemAtIndex_beyond h l hbig (by rw [hr.len]; omega)] at e
      cases e
      exact ⟨ns, hr⟩
    · by_cases heq : index = l.length
      · rw [heq, deleteItemAtIndex_at_length h l (by rw [hr.len]; omega)] at e
        cases e
      · obtain ⟨p, rfl⟩ := Int.eq_ofNat_of_zero_le (not_lt.1 hneg)
        have hp : p < ns.length := by
          have := hr.len
          omega
        obtain ⟨h2, l2, e2, hrep, -⟩ := deleteItemAtIndex_spec hr p hp
        rw [e2] at e
        cases e
        exact ⟨_, hrep⟩

/-- The call `emptyList` removes every node; cells outside the list are not touched. -/
theorem emptyList_spec (fuel : Nat) {h : Heap} {l : list} {ns : List (Nat × Ptr)}
    (hr : Rep h l ns) (hfuel : ns.length < fuel) :
    ∃ h' l', emptyList fuel h l = .ok (h', l') ∧ Rep h' l' [] ∧ h'.length = h.length ∧
      (∀ b : Nat, b ∉ ns.map Prod.fst → h'[b]? = h[b]?) ∧
      l'.comparator = l.comparator ∧ l'.memLength = l.memLength := by
  induction ns generalizing fuel h l with
  | nil =>
    obtain ⟨f, rfl⟩ : ∃ f, fuel = f + 1 := ⟨fuel - 1, by simp at hfuel; omega⟩
    have hlen : ¬ (l.length > 0) := by rw [hr.len]; simp
    exact ⟨h, l, by simp [emptyList, hlen, pure, Except.pure], hr, rfl, fun _ _ => rfl, rfl, rfl⟩
  | cons n rest ih =>
    obtain ⟨f, rfl⟩ : ∃ f, fuel = f + 1 := ⟨fuel - 1, by simp at hfuel; omega⟩
    have hlen : l.length > 0 := by rw [hr.len]; simp only [List.length_cons]; omega
    obtain ⟨h1, l1, e1, hrep1, hl1, hf1, hc1, -, hm1, -⟩ :=
      deleteItemAtIndex_spec hr 0 (by simp)
    simp only [List.take_zero, List.nil_append, zero_add, List.drop_succ_cons, List.drop_zero]
      at hrep1
    obtain ⟨h2, l2, e2, hrep2, hl2, hf2, hc2, hm2⟩ :=
      ih f hrep1 (by simp only [List.length_cons] at hfuel; omega)
    refine ⟨h2, l2, ?_, hrep2, by rw [hl2, hl1], ?_, by rw [hc2, hc1], by rw [hm2, hm1]⟩
    · rw [emptyList]
      simp only [hlen, if_true, bind, Except.bind]
      have e1' : deleteItemAtIndex h l 0 = .ok (h1, l1) := by simpa using e1
      rw [e1']
      exact e2
    · intro b hb
      have hb' : b ∉ rest.map Prod.fst := fun hm => hb (by simp at hm ⊢; right; exact hm)
      rw [hf2 b hb', hf1 b hb]

/-! ## Searching -/

theorem firstIndex_some {β : Type} {p : β → Bool} {xs : List β} {k : Nat}
    (hk : firstIndex p xs = some k) :
    (∃ x, xs[k]? = some x ∧ p x = true) ∧
      ∀ (j : Nat) (y : β), j < k → xs[j]? = some y → p y = false := by
  induction xs generalizing k with
  | nil => cases hk
  | cons x xs ih =>
    simp only [firstIndex] at hk
    by_cases hx : p x = true
    · rw [if_pos hx] at hk
      cases hk
      exact ⟨⟨x, by simp, hx⟩, fun j y hj _ => absurd hj (Nat.not_lt_zero j)⟩
    · rw [if_neg hx] at hk
      cases hrec : firstIndex p xs with
      | none => rw [hrec] at hk; cases hk
      | some k0 =>
        rw [hrec] at hk
        simp only [Option.map_some', Option.some.injEq] at hk
        subst hk
        obtain ⟨⟨x0, hx0, hp0⟩, hbefore⟩ := ih hrec
        refine ⟨⟨x0, by simpa using hx0, hp0⟩, ?_⟩
        intro j y hj hy
        cases j with
        | zero =>
          simp only [List.getElem?_cons_zero, Option.some.injEq] at hy
          subst hy
          simpa using hx
        | succ j0 =>
          exact hbefore j0 y (by omega) (by simpa using hy)

theorem firstIndex_none {β : Type} {p : β → Bool} {xs : List β}
    (hk : firstIndex p xs = none) : ∀ x ∈ xs, p x = false := by
  induction xs with
  | nil => intro x hx; cases hx
  | cons x xs ih =>
    simp only [firstIndex] at hk
    by_cases hx : p x = true
    · rw [if_pos hx] at hk
      cases hk
    · rw [if_neg hx] at hk
      have hrec : firstIndex p xs = none := by
        cases hr : firstIndex p xs with
        | none => rfl
        | some k => rw [hr] at hk; cases hk
      intro y hy
      rcases List.mem_cons.1 hy with rfl | hy
      · simpa using hx
      · exact ih hrec y hy

theorem firstIndex_lt {β : Type} {p : β → Bool} {xs : List β} {k : Nat}
    (hk : firstIndex p xs = some k) : k < xs.length := by
  obtain ⟨⟨x, hx, -⟩, -⟩ := firstIndex_some hk
  exact (List.getElem?_eq_some_iff.1 hx).1

/-- The scan of `searchIndexInList` along a chain. -/
theorem searchIndexLoop_spec {h : Heap} {l : list} {f : compareTwoPointersFunction}
    (hc : l.comparator = some f) (q : Ptr) :
    ∀ (rest : List (Nat × Ptr)) (prev : Ptr) (fuel : Nat) (idx : Int),
      Seg h prev rest none → rest.length < fuel →
      searchIndexLoop h l q fuel (headAddr rest none) idx =
        .ok (match firstIndex (fun n => decide (f n.2 q = 0)) rest with
             | some k => idx + (k : Int)
             | none => -1) := by
  intro rest
  induction rest with
  | nil =>
    intro prev fuel idx _ hfuel
    obtain ⟨g, rfl⟩ : ∃ g, fuel = g + 1 := ⟨fuel - 1, by simp at hfuel; omega⟩
    simp [searchIndexLoop, headAddr, firstIndex, pure, Except.pure]
  | cons n rest ih =>
    intro prev fuel idx hs hfuel
    obtain ⟨g, rfl⟩ : ∃ g, fuel = g + 1 := ⟨fuel - 1, by simp at hfuel; omega⟩
    obtain ⟨hn, hrest⟩ := hs
    have hne : (some n.1 : Ptr) ≠ none := by simp
    show searchIndexLoop h l q (g + 1) (some n.1) idx = _
    rw [searchIndexLoop, if_pos hne]
    simp only [bind, Except.bind, load_of_cell hn, call, hc, firstIndex]
    by_cases hz : f n.2 q = 0
    · simp [hz, pure, Except.pure]
    · simp only [hz, if_false, decide_False, Bool.false_eq_true]
      rw [ih (some n.1) g (idx + 1) hrest (by simp only [List.length_cons] at hfuel; omega)]
      cases firstIndex (fun n => decide (f n.2 q = 0)) rest with
      | none => rfl
      | some k =>
        simp only [Option.map_some']
        congr 1
        push_cast
        ring

/-- The scan of `searchItemInList` along a chain. -/
theorem searchItemLoop_spec {h : Heap} {l : list} {f : compareTwoPointersFunction}
    (hc : l.comparator = some f) (q : Ptr) :
    ∀ (rest : List (Nat × Ptr)) (prev : Ptr) (fuel : Nat),
      Seg h prev rest none → rest.length < fuel →
      searchItemLoop h l q fuel (headAddr rest none) =
        .ok (match firstIndex (fun n => decide (f n.2 q = 0)) rest with
             | some k => headAddr (rest.drop k) none
             | none => none) := by
  intro rest
  induction rest with
  | nil =>
    intro prev fuel _ hfuel
    obtain ⟨g, rfl⟩ : ∃ g, fuel = g + 1 := ⟨fuel - 1, by simp at hfuel; omega⟩
    simp [searchItemLoop, headAddr, firstIndex, pure, Except.pure]
  | cons n rest ih =>
    intro prev fuel hs hfuel
    obtain ⟨g, rfl⟩ : ∃ g, fuel = g + 1 := ⟨fuel - 1, by simp at hfuel; omega⟩
    obtain ⟨hn, hrest⟩ := hs
    have hne : (some n.1 : Ptr) ≠ none := by simp
    show searchItemLoop h l q (g + 1) (some n.1) = _
    rw [searchItemLoop, if_pos hne]
    simp only [bind, Except.bind, load_of_cell hn, call, hc, firstIndex]
    by_cases hz : f n.2 q = 0
    · simp [hz, pure, Except.pure, headAddr]
    · simp only [hz, if_false, decide_False, Bool.false_eq_true]
      rw [ih (some n.1) g hrest (by simp only [List.length_cons] at hfuel; omega)]
      cases firstIndex (fun n => decide (f n.2 q = 0)) rest with
      | none => rfl
      | some k => rfl

/-! ## The insertion sort on lists -/

theorem insertPos_le {β : Type} (stop : β → Bool) (ys : List β) :
    insertPos stop ys ≤ ys.length := by
  induction ys with
  | nil => simp [insertPos]
  | cons y ys ih =>
    simp only [insertPos]
    split_ifs
    · omega
    · simp only [List.length_cons]; omega

theorem insertPos_before {β : Type} {stop : β → Bool} {ys : List β} :
    ∀ y ∈ ys.take (insertPos stop ys), stop y = false := by
  induction ys with
  | nil => intro y hy; simp at hy
  | cons z ys ih =>
    intro y hy
    simp only [insertPos] at hy
    by_cases hz : stop z = true
    · rw [if_pos hz] at hy
      simp at hy
    · rw [if_neg hz, List.take_succ_cons] at hy
      rcases List.mem_cons.1 hy with rfl | hy
      · simpa using hz
      · exact ih y hy

theorem insertPos_at {β : Type} {stop : β → Bool} {ys : List β} :
    ∀ y, (ys.drop (insertPos stop ys)).head? = some y → stop y = true := by
  induction ys with
  | nil => intro y hy; simp [insertPos] at hy
  | cons z ys ih =>
    intro y hy
    simp only [insertPos] at hy
    by_cases hz : stop z = true
    · rw [if_pos hz] at hy
      simp only [List.drop_zero, List.head?_cons, Option.some.injEq] at hy
      rw [← hy]; exact hz
    · rw [if_neg hz, List.drop_succ_cons] at hy
      exact ih y hy

theorem insertSorted_perm {β : Type} (stop : β → β → Bool) (ys : List β) (e : β) :
    (insertSorted stop ys e).Perm (e :: ys) := by
  unfold insertSorted
  refine List.perm_middle.trans ?_
  rw [List.take_append_drop]

theorem foldl_insertSorted_perm {β : Type} (stop : β → β → Bool) (es ys : List β) :
    (es.foldl (insertSorted stop) ys).Perm (ys ++ es) := by
  induction es generalizing ys with
  | nil => simp
  | cons e es ih =>
    rw [List.foldl_cons]
    refine (ih _).trans ?_
    refine ((insertSorted_perm stop ys e).append_right es).trans ?_
    simp only [List.cons_append]
    exact List.perm_middle.symm

theorem insertSorted_map {β γ : Type} (g : β → γ) (stopb : β → β → Bool)
    (stopc : γ → γ → Bool) (hg : ∀ a b, stopb a b = stopc (g a) (g b)) (ys : List β) (e : β) :
    (insertSorted stopb ys e).map g = insertSorted stopc (ys.map g) (g e) := by
  have hpos : insertPos (fun s => stopb s e) ys = insertPos (fun s => stopc s (g e)) (ys.map g) := by
    induction ys with
    | nil => rfl
    | cons y ys ih =>
      simp only [insertPos, List.map_cons]
      rw [ih]
      simp only [hg]
  unfold insertSorted
  rw [List.map_append, List.map_cons, List.map_take, List.map_drop, hpos]

theorem foldl_insertSorted_map {β γ : Type} (g : β → γ) (stopb : β → β → Bool)
    (stopc : γ → γ → Bool) (hg : ∀ a b, stopb a b = stopc (g a) (g b)) (es ys : List β) :
    (es.foldl (insertSorted stopb) ys).map g =
      (es.map g).foldl (insertSorted stopc) (ys.map g) := by
  induction es generalizing ys with
  | nil => rfl
  | cons e es ih =>
    rw [List.foldl_cons, List.map_cons, List.foldl_cons, ih, insertSorted_map g stopb stopc hg]

theorem nodesFrom_map_snd (a : Nat) (xs : List Ptr) : (nodesFrom a xs).map Prod.snd = xs := by
  induction xs generalizing a with
  | nil => rfl
  | cons x xs ih => simp [nodesFrom, ih]

theorem nodesFrom_map_fst (a : Nat) (xs : List Ptr) :
    (nodesFrom a xs).map Prod.fst = List.range' a xs.length := by
  induction xs generalizing a with
  | nil => rfl
  | cons x xs ih => simp [nodesFrom, ih, List.range']

theorem nodesFrom_ge {a : Nat} {xs : List Ptr} {n : Nat × Ptr} (hn : n ∈ nodesFrom a xs) :
    a ≤ n.1 := by
  have : n.1 ∈ (nodesFrom a xs).map Prod.fst := List.mem_map_of_mem _ hn
  rw [nodesFrom_map_fst, List.mem_range'] at this
  obtain ⟨i, -, hi⟩ := this
  omega

/-! ## `sortList` on the heap -/

/-- The scan of `sortList` along the chain of the destination list. -/
theorem sortListScan_spec {h : Heap} (f : compareTwoPointersFunction) (ascending : Bool)
    {ia : Nat} {ci : chainItem} (hi : h[ia]? = some (some ci)) :
    ∀ (rest : List (Nat × Ptr)) (prev : Ptr) (fuel : Nat) (idx : Int),
      Seg h prev rest none → rest.length < fuel →
      sortListScan h (some f) ascending (some ia) fuel (headAddr rest none) idx =
        .ok (idx + (insertPos (fun n => sortStop f ascending n.2 ci.data) rest : Nat)) := by
  intro rest
  induction rest with
  | nil =>
    intro prev fuel idx _ hfuel
    obtain ⟨g, rfl⟩ : ∃ g, fuel = g + 1 := ⟨fuel - 1, by simp at hfuel; omega⟩
    simp [sortListScan, headAddr, insertPos, pure, Except.pure]
  | cons n rest ih =>
    intro prev fuel idx hs hfuel
    obtain ⟨g, rfl⟩ : ∃ g, fuel = g + 1 := ⟨fuel - 1, by simp at hfuel; omega⟩
    obtain ⟨hn, hrest⟩ := hs
    have hne : (some n.1 : Ptr) ≠ none := by simp
    show sortListScan h (some f) ascending (some ia) (g + 1) (some n.1) idx = _
    rw [sortListScan, if_pos hne]
    simp only [bind, Except.bind, load_of_cell hn, load_of_cell hi, call, insertPos]
    by_cases hstop : sortStop f ascending n.2 ci.data = true
    · rw [if_pos hstop]
      simp only [sortStop, decide_eq_true_eq] at hstop
      by_cases h1 : f n.2 ci.data > 0 ∧ ascending = true
      · simp [h1, pure, Except.pure]
      · have h2 : f n.2 ci.data < 0 ∧ ascending = false := by tauto
        simp [h1, h2, pure, Except.pure]
    · rw [if_neg hstop]
      simp only [sortStop, decide_eq_true_eq, not_or] at hstop
      obtain ⟨h1, h2⟩ := hstop
      simp only [h1, h2, if_false, pure, Except.pure, decide_False, Bool.false_eq_true]
      rw [ih (some n.1) g (idx + 1) hrest (by simp only [List.length_cons] at hfuel; omega)]
      congr 1
      push_cast
      ring

/-- The comparison of nodes by their data. -/
theorem sortStop_nodes (f : compareTwoPointersFunction) (ascending : Bool)
    (a b : Nat × Ptr) :
    (fun (s e : Nat × Ptr) => sortStop f ascending s.2 e.2) a b =
      sortStop f ascending (Prod.snd a) (Prod.snd b) := rfl

/-- The outer loop of `sortList`: each remaining source node, front to back, is
given a new node in the destination list at the position the scan finds.  The
source chain and every other cell allocated before are not touched. -/
theorem sortListLoop_spec (f : compareTwoPointersFunction) (ascending : Bool)
    (scanFuel : Nat) :
    ∀ (rest : List (Nat × Ptr)) (prev : Ptr) (fuel : Nat) (h : Heap) (sl : list)
      (ys : List (Nat × Ptr)),
      Seg h prev rest none → Rep h sl ys →
      (∀ b : Nat, b ∈ ys.map Prod.fst → b ∉ rest.map Prod.fst) →
      rest.length < fuel → ys.length + rest.length ≤ scanFuel →
      ∃ h' sl', sortListLoop (some f) ascending scanFuel fuel h sl (headAddr rest none)
          = .ok (h', sl') ∧
        Rep h' sl' ((nodesFrom h.length (rest.map Prod.snd)).foldl
          (insertSorted (fun s e => sortStop f ascending s.2 e.2)) ys) ∧
        h'.length = h.length + rest.length ∧
        (∀ b : Nat, b < h.length → b ∉ ys.map Prod.fst → h'[b]? = h[b]?) ∧
        sl'.comparator = sl.comparator := by
  intro rest
  induction rest with
  | nil =>
    intro prev fuel h sl ys _ hr _ hfuel _
    obtain ⟨g, rfl⟩ : ∃ g, fuel = g + 1 := ⟨fuel - 1, by simp at hfuel; omega⟩
    exact ⟨h, sl, by simp [sortListLoop, headAddr, pure, Except.pure], hr, rfl,
      fun _ _ _ => rfl, rfl⟩
  | cons n rest ih =>
    intro prev fuel h sl ys hs hr hdisj hfuel hscan
    obtain ⟨g, rfl⟩ : ∃ g, fuel = g + 1 := ⟨fuel - 1, by simp at hfuel; omega⟩
    obtain ⟨hn, hrest⟩ := hs
    have hne : (some n.1 : Ptr) ≠ none := by simp
    have hnlt : n.1 < h.length := cell_lt hn
    have hn_notin : n.1 ∉ ys.map Prod.fst := fun hm => hdisj _ hm (by simp)
    -- the scan
    have hscan' := sortListScan_spec f ascending hn ys none scanFuel 0 hr.chain
      (by simp only [List.length_cons] at hscan; omega)
    rw [← hr.first] at hscan'
    -- the insertion
    obtain ⟨h1, sl1, e1, hrep1, hlen1, hf1, hcmp1, -⟩ := appendAtInList_spec hr n.2
      (insertPos (fun m => sortStop f ascending m.2 n.2) ys) (insertPos_le _ _)
    have hn1 : h1[n.1]? = some (some
        { data := n.2, previous := prev, next := headAddr rest none }) := by
      rw [hf1 _ hn_notin hnlt]; exact hn
    have hrest1 : Seg h1 (some n.1) rest none :=
      seg_frame (fun m hm => hf1 m.1 (fun hmem => hdisj _ hmem
        (List.mem_cons_of_mem _ (List.mem_map_of_mem _ hm))) (seg_addr_lt hrest m hm)) hrest
    have hdisj1 : ∀ b : Nat, b ∈ (ys.take (insertPos (fun m => sortStop f ascending m.2 n.2) ys) ++
        (h.length, n.2) :: ys.drop (insertPos (fun m => sortStop f ascending m.2 n.2) ys)).map
        Prod.fst → b ∉ rest.map Prod.fst := by
      intro b hb hbr
      simp only [List.map_append, List.map_cons, List.mem_append, List.mem_cons] at hb
      have hblt : b < h.length := by
        obtain ⟨m, hm, rfl⟩ := List.mem_map.1 hbr
        exact seg_addr_lt hrest m hm
      rcases hb with hb | hb | hb
      · obtain ⟨m, hm, rfl⟩ := List.mem_map.1 hb
        exact hdisj _ (List.mem_map_of_mem _ (List.mem_of_mem_take hm))
          (List.mem_cons_of_mem _ hbr)
      · omega
      · obtain ⟨m, hm, rfl⟩ := List.mem_map.1 hb
        exact hdisj _ (List.mem_map_of_mem _ (List.mem_of_mem_drop hm))
          (List.mem_cons_of_mem _ hbr)
    obtain ⟨h2, sl2, e2, hrep2, hlen2, hf2, hcmp2⟩ := ih (some n.1) g h1 sl1 _ hrest1 hrep1
      hdisj1 (by simp only [List.length_cons] at hfuel; omega) (by
        simp only [List.length_append, List.length_cons, List.length_take, List.length_drop]
        simp only [List.length_cons] at hscan
        have := insertPos_le (fun m => sortStop f ascending m.2 n.2) ys
        omega)
    refine ⟨h2, sl2, ?_, ?_, ?_, ?_, by rw [hcmp2, hcmp1]⟩
    · show sortListLoop (some f) ascending scanFuel (g + 1) h sl (some n.1) = _
      rw [sortListLoop, if_pos hne]
      simp only [bind, Except.bind, hscan', load_of_cell hn, zero_add, newChainItem]
      have e1' : putItemAtIndex (h ++ [some { data := n.2, previous := none, next := none }]) sl
          (some h.length) ((insertPos (fun m => sortStop f ascending m.2 n.2) ys : Nat) : Int)
          = .ok (h1, sl1) := e1
      rw [e1']
      simp only [load_of_cell hn1]
      exact e2
    · rw [hlen1] at hrep2
      exact hrep2
    · rw [hlen2, hlen1]
      simp only [List.length_cons]
      omega
    · intro b hb hby
      rw [hf2 b (by omega) (by
        intro hmem
        simp only [List.map_append, List.map_cons, List.mem_append, List.mem_cons] at hmem
        rcases hmem with hm | hm | hm
        · obtain ⟨m, hm', hmb⟩ := List.mem_map.1 hm
          exact hby (hmb ▸ List.mem_map_of_mem _ (List.mem_of_mem_take hm'))
        · omega
        · obtain ⟨m, hm', hmb⟩ := List.mem_map.1 hm
          exact hby (hmb ▸ List.mem_map_of_mem _ (List.mem_of_mem_drop hm'))), hf1 b hby hb]

theorem rep_newList (h : Heap) (cmp : Option compareTwoPointersFunction) :
    Rep h (newList cmp) [] :=
  ⟨trivial, List.nodup_nil, rfl, rfl, by simp [newList], by simp [newList], rfl,
    fun j n hj => by simp at hj⟩

/-- Rebuilding the whole cache of a well-formed list changes nothing that the
invariant sees. -/
theorem updateIndexMap_rep {h : Heap} {l : list} {ns : List (Nat × Ptr)} (hr : Rep h l ns) :
    ∃ l', updateIndexMap h l 0 = .ok l' ∧ Rep h l' ns ∧ l'.comparator = l.comparator ∧
      l'.memLength = l.memLength ∧ l'.length = l.length ∧ l'.first = l.first ∧
      l'.last = l.last := by
  obtain ⟨l', e, hrep, hfirst, hlast, hcmp, hlen, hmem⟩ :=
    updateIndexMap_spec hr.chain hr.nodup hr.len hr.first hr.mem hr.capPos
      (by have := hr.cap; omega) 0 0 (by simp) (Nat.zero_le _)
      (fun j n hj _ => absurd hj (Nat.not_lt_zero j))
  have hnogrow : ¬ (l.length > l.memLength) := by have := hr.cap; omega
  rw [if_neg hnogrow] at hmem
  exact ⟨l', e, hrep, hcmp, hmem, hlen, hfirst, hlast⟩

/-- The effect of `sortList` when a comparator is available: the list now
holds new nodes, allocated from address `h.length` on in the order of the old
elements, arranged by insertion sort. -/
theorem sortList_spec {h : Heap} {l : list} {ns : List (Nat × Ptr)} (hr : Rep h l ns)
    (cmp : Option compareTwoPointersFunction) (f : compareTwoPointersFunction)
    (heff : (if cmp.isNone then l.comparator else cmp) = some f) (ascending : Bool)
    (fuel : Nat) (hfuel : ns.length < fuel) :
    ∃ h' l', sortList fuel h l cmp ascending = .ok (h', l') ∧
      Rep h' l' ((nodesFrom h.length (ns.map Prod.snd)).foldl
        (insertSorted (fun s e => sortStop f ascending s.2 e.2)) []) ∧
      l'.comparator = l.comparator ∧ h'.length = h.length + ns.length := by
  obtain ⟨h1, sl1, e1, hrep1, hlen1, hf1, hcmp1⟩ :=
    sortListLoop_spec f ascending fuel ns none fuel h (newList l.comparator) [] hr.chain
      (rep_newList h _) (fun b hb => by simp at hb) hfuel (by simp; omega)
  rw [← hr.first] at e1
  obtain ⟨sl2, e2, hrep2, hcmp2, -⟩ := updateIndexMap_rep hrep1
  have hsrc : Rep h1 l ns :=
    rep_frame hr (fun b hb => hf1 b (rep_addr_lt hr b hb) (by simp))
  obtain ⟨h3, l3, e3, -, hlen3, hf3, -⟩ := emptyList_spec fuel hsrc hfuel
  refine ⟨h3, sl2, ?_, ?_, by rw [hcmp2, hcmp1]; rfl, by rw [hlen3, hlen1]⟩
  · simp only [sortList, heff, bind, Except.bind, e1, e2, e3]
    rfl
  · refine rep_frame hrep2 (fun b hb => hf3 b (fun hbs => ?_))
    obtain ⟨n, hn, rfl⟩ := List.mem_map.1 hb
    have hperm := foldl_insertSorted_perm (fun s e => sortStop f ascending s.2 e.2)
      (nodesFrom h.length (ns.map Prod.snd)) []
    have hn' : n ∈ nodesFrom h.length (ns.map Prod.snd) := by
      simpa using hperm.mem_iff.1 hn
    have := nodesFrom_ge hn'
    have := rep_addr_lt hr _ hbs
    omega

/-- Any successful `appendAtInList` keeps the invariant and touches no cell
outside the list. -/
theorem appendAtInList_frame {h : Heap} {l : list} {ns : List (Nat × Ptr)} (hr : Rep h l ns)
    {d : Ptr} {index : Int} {h' : Heap} {l' : list}
    (e : appendAtInList h l d index = .ok (h', l')) :
    ∃ ns', Rep h' l' ns' ∧ h'.length = h.length + 1 ∧
      (∀ b : Nat, b ∉ ns.map Prod.fst → b < h.length → h'[b]? = h[b]?) ∧
      (∀ b : Nat, b ∈ ns'.map Prod.fst → b ∈ ns.map Prod.fst ∨ b = h.length) ∧
      l'.comparator = l.comparator := by
  by_cases hneg : index < 0
  · rw [appendAtInList_neg h l d hneg] at e
    cases e
  · by_cases hbig : l.length < index
    · rw [appendAtInList_beyond d hbig (by rw [hr.len]; omega)] at e
      cases e
      exact ⟨ns, rep_frame hr (fun b hb => heap_append_get _ (rep_addr_lt hr b hb)),
        by simp, fun b _ hb => heap_append_get _ hb, fun b hb => Or.inl hb, rfl⟩
    · obtain ⟨p, rfl⟩ := Int.eq_ofNat_of_zero_le (not_lt.1 hneg)
      have hp : p ≤ ns.length := by
        have := hr.len
        omega
      obtain ⟨h2, l2, e2, hrep, hlen, hf, hcmp, -⟩ := appendAtInList_spec hr d p hp
      rw [e2] at e
      cases e
      refine ⟨_, hrep, hlen, hf, ?_, hcmp⟩
      intro b hb
      simp only [List.map_append, List.map_cons, List.mem_append, List.mem_cons] at hb
      rcases hb with hb | hb | hb
      · obtain ⟨m, hm, hmb⟩ := List.mem_map.1 hb
        exact Or.inl (hmb ▸ List.mem_map_of_mem _ (List.mem_of_mem_take hm))
      · exact Or.inr hb
      · obtain ⟨m, hm, hmb⟩ := List.mem_map.1 hb
        exact Or.inl (hmb ▸ List.mem_map_of_mem _ (List.mem_of_mem_drop hm))

/-- Any successful run of the outer loop of `sortList`, with any comparator,
keeps the invariant of the destination list and touches no cell of a set `S`
of addresses disjoint from it. -/
theorem sortListLoop_rep (cmp : Option compareTwoPointersFunction) (ascending : Bool)
    (scanFuel : Nat) (S : List Nat) :
    ∀ (fuel : Nat) (h : Heap) (sl : list) (item : Ptr) (ys : List (Nat × Ptr))
      (h' : Heap) (sl' : list),
      Rep h sl ys → (∀ b ∈ S, b < h.length) → (∀ b ∈ ys.map Prod.fst, b ∉ S) →
      sortListLoop cmp ascending scanFuel fuel h sl item = .ok (h', sl') →
      ∃ ys', Rep h' sl' ys' ∧ (∀ b ∈ ys'.map Prod.fst, b ∉ S) ∧
        (∀ b ∈ S, h'[b]? = h[b]?) ∧ sl'.comparator = sl.comparator := by
  intro fuel
  induction fuel with
  | zero =>
    intro h sl item ys h' sl' _ _ _ e
    simp [sortListLoop] at e
  | succ g ih =>
    intro h sl item ys h' sl' hr hS hdisj e
    rw [sortListLoop] at e
    by_cases hitem : item ≠ none
    · rw [if_pos hitem] at e
      simp only [bind, Except.bind] at e
      cases hscan : sortListScan h cmp ascending item scanFuel sl.first 0 with
      | error err => rw [hscan] at e; cases e
      | ok k =>
        rw [hscan] at e
        simp only at e
        cases hload : load h item with
        | error err => rw [hload] at e; cases e
        | ok c =>
          rw [hload] at e
          simp only at e
          cases hput : appendAtInList h sl c.data k with
          | error err =>
            have hput' : putItemAtIndex (newChainItem h c.data).1 sl (newChainItem h c.data).2 k
                = .error err := hput
            rw [hput'] at e; cases e
          | ok r =>
            obtain ⟨h1, sl1⟩ := r
            have hput' : putItemAtIndex (newChainItem h c.data).1 sl (newChainItem h c.data).2 k
                = .ok (h1, sl1) := hput
            rw [hput'] at e
            simp only at e
            obtain ⟨ys1, hrep1, hlen1, hf1, hsub1, hcmp1⟩ := appendAtInList_frame hr hput
            cases hload1 : load h1 item with
            | error err => rw [hload1] at e; cases e
            | ok c1 =>
              rw [hload1] at e
              simp only at e
              obtain ⟨ys', hrep', hdisj', hf', hcmp'⟩ := ih h1 sl1 c1.next ys1 h' sl' hrep1
                (fun b hb => by have := hS b hb; omega)
                (fun b hb hbS => by
                  rcases hsub1 b hb with hb1 | hb1
                  · exact hdisj b hb1 hbS
                  · have := hS b hbS; omega) e
              refine ⟨ys', hrep', hdisj', ?_, by rw [hcmp', hcmp1]⟩
              intro b hb
              rw [hf' b hb, hf1 b (fun hm => hdisj b hm hb) (hS b hb)]
    · rw [if_neg hitem] at e
      cases e
      exact ⟨ys, hr, hdisj, fun _ _ => rfl, rfl⟩

/-- Any successful `emptyList` leaves an empty well-formed list and touches no
cell outside the list. -/
theorem emptyList_rep :
    ∀ (fuel : Nat) (h : Heap) (l : list) (ns : List (Nat × Ptr)) (h' : Heap) (l' : list),
      Rep h l ns → emptyList fuel h l = .ok (h', l') →
      Rep h' l' [] ∧ (∀ b : Nat, b ∉ ns.map Prod.fst → h'[b]? = h[b]?) ∧
        l'.comparator = l.comparator ∧ l'.memLength = l.memLength := by
  intro fuel
  induction fuel with
  | zero =>
    intro h l ns h' l' _ e
    simp [emptyList] at e
  | succ g ih =>
    intro h l ns h' l' hr e
    rw [emptyList] at e
    cases ns with
    | nil =>
      have hlen : ¬ (l.length > 0) := by rw [hr.len]; simp
      rw [if_neg hlen] at e
      cases e
      exact ⟨hr, fun _ _ => rfl, rfl, rfl⟩
    | cons n rest =>
      have hlen : l.length > 0 := by rw [hr.len]; simp only [List.length_cons]; omega
      obtain ⟨h1, l1, e1, hrep1, -, hf1, hc1, -, hm1, -⟩ :=
        deleteItemAtIndex_spec hr 0 (by simp)
      simp only [List.take_zero, List.nil_append, zero_add, List.drop_succ_cons, List.drop_zero]
        at hrep1
      have e1' : deleteItemAtIndex h l 0 = .ok (h1, l1) := by simpa using e1
      rw [if_pos hlen] at e
      simp only [bind, Except.bind, e1'] at e
      obtain ⟨hrep2, hf2, hc2, hm2⟩ := ih h1 l1 rest h' l' hrep1 e
      refine ⟨hrep2, ?_, by rw [hc2, hc1], by rw [hm2, hm1]⟩
      intro b hb
      have hb' : b ∉ rest.map Prod.fst := fun hm => hb (by simp at hm ⊢; right; exact hm)
      rw [hf2 b hb', hf1 b hb]

/-- Any successful `sortList`, with or without a comparator, keeps the
representation invariant. -/
theorem sortList_rep {fuel : Nat} {h : Heap} {l : list} {ns : List (Nat × Ptr)}
    (hr : Rep h l ns) {cmp : Option compareTwoPointersFunction} {ascending : Bool}
    {h' : Heap} {l' : list} (e : sortList fuel h l cmp ascending = .ok (h', l')) :
    ∃ ns', Rep h' l' ns' := by
  simp only [sortList, bind, Except.bind] at e
  cases hloop : sortListLoop (if cmp.isNone = true then l.comparator else cmp) ascending fuel
      fuel h (newList l.comparator) l.first with
  | error err => rw [hloop] at e; cases e
  | ok r =>
    obtain ⟨h1, sl1⟩ := r
    rw [hloop] at e
    simp only at e
    obtain ⟨ys1, hrep1, hdisj1, hf1, -⟩ := sortListLoop_rep _ ascending fuel (ns.map Prod.fst)
      fuel h (newList l.comparator) l.first [] h1 sl1 (rep_newList h _) (rep_addr_lt hr)
      (fun b hb => by simp at hb) hloop
    obtain ⟨sl2, e2, hrep2, -⟩ := updateIndexMap_rep hrep1
    rw [e2] at e
    simp only at e
    cases hempty : emptyList fuel h1 l with
    | error err => rw [hempty] at e; cases e
    | ok r2 =>
      obtain ⟨h2, l2⟩ := r2
      rw [hempty] at e
      cases e
      obtain ⟨-, hf2, -⟩ := emptyList_rep fuel h1 l ns h2 l2 (rep_frame hr hf1) hempty
      exact ⟨ys1, rep_frame hrep2 (fun b hb => hf2 b (hdisj1 b hb))⟩

/-- The representation invariant holds in every reachable state. -/
theorem reachable_rep {h : Heap} {l : list} (hreach : Reachable h l) : ∃ ns, Rep h l ns := by
  induction hreach with
  | newList h cmp => exact ⟨[], rep_newList h cmp⟩
  | appendAtInList d i _ e ih =>
    obtain ⟨ns, hr⟩ := ih
    exact appendAtInList_rep hr e
  | pushInList d _ e ih =>
    obtain ⟨ns, hr⟩ := ih
    exact appendAtInList_rep hr e
  | appendInList d _ e ih =>
    obtain ⟨ns, hr⟩ := ih
    exact appendAtInList_rep hr e
  | deleteItemAtIndex i _ e ih =>
    obtain ⟨ns, hr⟩ := ih
    exact deleteItemAtIndex_rep hr e
  | @deleteInList h0 l0 fuel d h1 l1 _ e ih =>
    obtain ⟨ns, hr⟩ := ih
    simp only [deleteInList, bind, Except.bind] at e
    cases hs : searchIndexInList fuel h0 l0 d with
    | error err => rw [hs] at e; cases e
    | ok k =>
      rw [hs] at e
      simp only at e
      by_cases hk : k ≠ -1
      · rw [if_pos hk] at e
        exact deleteItemAtIndex_rep hr e
      · rw [if_neg hk] at e
        cases e
  | sortList fuel cmp asc _ e ih =>
    obtain ⟨ns, hr⟩ := ih
    exact sortList_rep hr e
  | @emptyList h0 l0 fuel h1 l1 _ e ih =>
    obtain ⟨ns, hr⟩ := ih
    exact ⟨[], (emptyList_rep fuel h0 l0 ns h1 l1 hr e).1⟩

/-! ## Order and stability of the insertion sort -/

theorem sortStop_eq (f : compareTwoPointersFunction) (ascending : Bool) (s e : Ptr) :
    sortStop f ascending s e = decide (dirCmp f ascending s e > 0) := by
  cases ascending <;> simp [sortStop, dirCmp]

theorem TotalPreorder.ge_iff {c : compareTwoPointersFunction} (hc : TotalPreorder c)
    (a b : Ptr) : 0 ≤ c a b ↔ c b a ≤ 0 := by
  have := hc.antisymm a b
  constructor
  · intro h1
    by_contra h2
    have : c a b < 0 := this.2 (by omega)
    omega
  · intro h1
    by_contra h2
    have : c b a > 0 := this.1 (by omega)
    omega

theorem TotalPreorder.zero_symm {c : compareTwoPointersFunction} (hc : TotalPreorder c)
    {a b : Ptr} (h0 : c a b = 0) : c b a = 0 := by
  have h1 := (hc.ge_iff a b).1 (by omega)
  have h2 := hc.antisymm b a
  by_contra hne
  have : c b a < 0 := by omega
  have := h2.1 this
  omega

theorem TotalPreorder.dir {c : compareTwoPointersFunction} (hc : TotalPreorder c)
    (ascending : Bool) : TotalPreorder (dirCmp c ascending) := by
  cases ascending with
  | true => exact ⟨fun a b => by simpa [dirCmp] using hc.antisymm a b,
      fun a b d => by simpa [dirCmp] using hc.trans a b d⟩
  | false =>
    refine ⟨fun a b => ?_, fun a b d => ?_⟩
    · have := hc.antisymm b a
      simp only [dirCmp, Bool.false_eq_true, if_false]
      constructor <;> intro h1 <;> omega
    · simp only [dirCmp, Bool.false_eq_true, if_false]
      intro h1 h2
      have h1' := (hc.ge_iff a b).1 (by omega)
      have h2' := (hc.ge_iff b d).1 (by omega)
      have := hc.trans d b a h2' h1'
      have := (hc.ge_iff a d).2 this
      omega

/-- One insertion keeps the list ordered, with elements that compare equal in
the order of their tags, when the new element carries the largest tag. -/
theorem insertSorted_pairwise {c : compareTwoPointersFunction} (hc : TotalPreorder c)
    {T : List (Nat × Ptr)} {e : Nat × Ptr}
    (hT : T.Pairwise (fun s t => c s.2 t.2 ≤ 0 ∧ (c s.2 t.2 = 0 → s.1 < t.1)))
    (htag : ∀ s ∈ T, s.1 < e.1) :
    (insertSorted (fun s e => decide (c s.2 e.2 > 0)) T e).Pairwise
      (fun s t => c s.2 t.2 ≤ 0 ∧ (c s.2 t.2 = 0 → s.1 < t.1)) := by
  have hsplit := List.take_append_drop
    (insertPos (fun s => decide (c s.2 e.2 > 0)) T) T
  have hT' := hT
  rw [← hsplit, List.pairwise_append] at hT'
  obtain ⟨P1, P2, P3⟩ := hT'
  have hbefore := @insertPos_before _ (fun s => decide (c s.2 e.2 > 0)) T
  have hat := @insertPos_at _ (fun s => decide (c s.2 e.2 > 0)) T
  have hafter : ∀ b ∈ T.drop (insertPos (fun s => decide (c s.2 e.2 > 0)) T),
      c e.2 b.2 < 0 := by
    intro b hb
    cases hd : T.drop (insertPos (fun s => decide (c s.2 e.2 > 0)) T) with
    | nil => rw [hd] at hb; cases hb
    | cons t0 tl =>
      rw [hd] at hb hat P2
      have h0 : c t0.2 e.2 > 0 := by
        have := hat t0 rfl
        simpa using this
      rcases List.mem_cons.1 hb with rfl | hb
      · exact (hc.antisymm _ _).2 h0
      · have hq := (List.pairwise_cons.1 P2).1 b hb
        by_contra hge
        have h1 := (hc.ge_iff e.2 b.2).1 (by omega)
        have := hc.trans _ _ _ hq.1 h1
        omega
  unfold insertSorted
  rw [List.pairwise_append]
  refine ⟨P1, List.pairwise_cons.2 ⟨fun b hb => ?_, P2⟩, fun a ha b hb => ?_⟩
  · have := hafter b hb
    exact ⟨by omega, fun h0 => by omega⟩
  · rcases List.mem_cons.1 hb with rfl | hb
    · have h1 := hbefore a ha
      simp only [decide_eq_false_iff_not, not_lt] at h1
      exact ⟨h1, fun _ => htag a (List.mem_of_mem_take ha)⟩
    · exact P3 a ha b hb

theorem foldl_insertSorted_pairwise {c : compareTwoPointersFunction} (hc : TotalPreorder c)
    (es : List (Nat × Ptr)) :
    ∀ T : List (Nat × Ptr),
      T.Pairwise (fun s t => c s.2 t.2 ≤ 0 ∧ (c s.2 t.2 = 0 → s.1 < t.1)) →
      (∀ s ∈ T, ∀ e ∈ es, s.1 < e.1) → es.Pairwise (fun s t => s.1 < t.1) →
      (es.foldl (insertSorted (fun s e => decide (c s.2 e.2 > 0))) T).Pairwise
        (fun s t => c s.2 t.2 ≤ 0 ∧ (c s.2 t.2 = 0 → s.1 < t.1)) := by
  induction es with
  | nil => intro T hT _ _; exact hT
  | cons e es ih =>
    intro T hT htag hes
    rw [List.foldl_cons]
    obtain ⟨he, hes'⟩ := List.pairwise_cons.1 hes
    refine ih _ (insertSorted_pairwise hc hT (fun s hs => htag s hs e (List.mem_cons_self _ _)))
      ?_ hes'
    intro s hs e' he'
    have hs' := (insertSorted_perm (fun s e => decide (c s.2 e.2 > 0)) T e).mem_iff.1 hs
    rcases List.mem_cons.1 hs' with rfl | hs'
    · exact he e' he'
    · exact htag s hs' e' (List.mem_cons_of_mem _ he')

theorem nodesFrom_mem {a : Nat} {xs : List Ptr} {n : Nat × Ptr} :
    n ∈ nodesFrom a xs ↔ ∃ m, xs[m]? = some n.2 ∧ n.1 = a + m := by
  induction xs generalizing a with
  | nil => simp [nodesFrom]
  | cons x xs ih =>
    simp only [nodesFrom, List.mem_cons, ih]
    constructor
    · rintro (rfl | ⟨m, hm, hn⟩)
      · exact ⟨0, by simp, rfl⟩
      · exact ⟨m + 1, by simpa using hm, by omega⟩
    · rintro ⟨m, hm, hn⟩
      cases m with
      | zero =>
        left
        simp only [List.getElem?_cons_zero, Option.some.injEq] at hm
        exact Prod.ext (by simpa using hn) hm.symm
      | succ m0 =>
        right
        exact ⟨m0, by simpa using hm, by omega⟩

theorem nodesFrom_pairwise (a : Nat) (xs : List Ptr) :
    (nodesFrom a xs).Pairwise (fun s t => s.1 < t.1) := by
  induction xs generalizing a with
  | nil => exact List.Pairwise.nil
  | cons x xs ih =>
    refine List.pairwise_cons.2 ⟨fun b hb => ?_, ih (a + 1)⟩
    have := nodesFrom_ge hb
    show a < b.1
    omega

theorem nodesFrom_length (a : Nat) (xs : List Ptr) : (nodesFrom a xs).length = xs.length := by
  induction xs generalizing a with
  | nil => rfl
  | cons x xs ih => simp [nodesFrom, ih]

/-- The nodes of the sorted list: ordered by the comparator in the direction of
the sort, elements that compare equal in the order of their addresses. -/
theorem sorted_nodes_pairwise {f : compareTwoPointersFunction} (hf : TotalPreorder f)
    (ascending : Bool) (a : Nat) (xs : List Ptr) :
    ((nodesFrom a xs).foldl (insertSorted (fun s e => sortStop f ascending s.2 e.2)) []).Pairwise
      (fun s t => dirCmp f ascending s.2 t.2 ≤ 0 ∧
        (dirCmp f ascending s.2 t.2 = 0 → s.1 < t.1)) := by
  have heq : (fun (s e : Nat × Ptr) => sortStop f ascending s.2 e.2) =
      (fun s e => decide (dirCmp f ascending s.2 e.2 > 0)) := by
    funext s e
    exact sortStop_eq f ascending s.2 e.2
  rw [heq]
  exact foldl_insertSorted_pairwise (hf.dir ascending) _ [] List.Pairwise.nil
    (fun s hs => by cases hs) (nodesFrom_pairwise a xs)

theorem walk_seg {h : Heap} :
    ∀ (rest : List (Nat × Ptr)) (prev nxt : Ptr) (k : Nat) (n : Nat × Ptr),
      Seg h prev rest nxt → rest[k]? = some n →
      walk h k (headAddr rest nxt) = .ok (some n.1) := by
  intro rest
  induction rest with
  | nil => intro prev nxt k n _ hk; simp at hk
  | cons m rest ih =>
    intro prev nxt k n hs hk
    cases k with
    | zero =>
      simp only [List.getElem?_cons_zero, Option.some.injEq] at hk
      subst hk
      rfl
    | succ k0 =>
      simp only [List.getElem?_cons_succ] at hk
      show walk h (k0 + 1) (some m.1) = _
      rw [walk]
      simp only [bind, Except.bind, load_of_cell hs.1]
      exact ih (some m.1) nxt k0 n hs.2 hk

/-! ## The claims -/

/-- C1: on every list reachable from `newList`, `appendAtInList` at a position
`0 ≤ p ≤ length` succeeds; the element sequence read by `getDataAtIndex`
becomes the first `p` old elements, then the new data, then the remaining old
elements, and `length` grows by one. -/
theorem appendAtInList_inserts {h : Heap} {l : list} (hreach : Reachable h l) (d : Ptr)
    (p : Int) (hp0 : 0 ≤ p) (hp : p ≤ l.length) :
    ∃ (h' : Heap) (l' : list) (xs : List Ptr), appendAtInList h l d p = .ok (h', l') ∧
      elements h l = xs.map Except.ok ∧
      elements h' l' = (xs.take p.toNat ++ [d] ++ xs.drop p.toNat).map Except.ok ∧
      l'.length = l.length + 1 := by
  obtain ⟨ns, hr⟩ := reachable_rep hreach
  obtain ⟨k, rfl⟩ := Int.eq_ofNat_of_zero_le hp0
  have hk : k ≤ ns.length := by
    have := hr.len
    omega
  obtain ⟨h', l', e, hrep, -, -, -, hlen, -⟩ := appendAtInList_spec hr d k hk
  refine ⟨h', l', ns.map Prod.snd, e, elements_rep hr, ?_, hlen⟩
  rw [elements_rep hrep]
  simp [List.map_take, List.map_drop]

/-- C2: on every list reachable from `newList`, `deleteItemAtIndex` at a
position `0 ≤ p < length` succeeds; the element sequence read by
`getDataAtIndex` loses exactly the element at position `p` (the elements before
keep their positions, the elements after move one position to the front), and
`length` shrinks by one. -/
theorem deleteItemAtIndex_removes {h : Heap} {l : list} (hreach : Reachable h l)
    (p : Int) (hp0 : 0 ≤ p) (hp : p < l.length) :
    ∃ (h' : Heap) (l' : list) (xs : List Ptr), deleteItemAtIndex h l p = .ok (h', l') ∧
      elements h l = xs.map Except.ok ∧
      elements h' l' = (xs.take p.toNat ++ xs.drop (p.toNat + 1)).map Except.ok ∧
      l'.length = l.length - 1 := by
  obtain ⟨ns, hr⟩ := reachable_rep hreach
  obtain ⟨k, rfl⟩ := Int.eq_ofNat_of_zero_le hp0
  have hk : k < ns.length := by
    have := hr.len
    omega
  obtain ⟨h', l', e, hrep, -, -, -, hlen, -⟩ := deleteItemAtIndex_spec hr k hk
  refine ⟨h', l', ns.map Prod.snd, e, elements_rep hr, ?_, hlen⟩
  rw [elements_rep hrep]
  simp [List.map_take, List.map_drop]

/-- C3: on every list reachable from `newList`, `getDataAtIndex` at a position
`0 ≤ p < length` returns the data of the node reached from `first` by `p` steps
along the `next` links, and at a position `p < 0` or `p ≥ length` it returns
`NULL`. -/
theorem getDataAtIndex_chain {h : Heap} {l : list} (hreach : Reachable h l) (p : Int) :
    (0 ≤ p → p < l.length →
      ∃ a c, walk h p.toNat l.first = .ok (some a) ∧ load h (some a) = .ok c ∧
        getDataAtIndex h l p = .ok c.data) ∧
    (p < 0 ∨ l.length ≤ p → getDataAtIndex h l p = .ok none) := by
  obtain ⟨ns, hr⟩ := reachable_rep hreach
  constructor
  · intro hp0 hp
    obtain ⟨k, rfl⟩ := Int.eq_ofNat_of_zero_le hp0
    have hk : k < ns.length := by
      have := hr.len
      omega
    have hget : ns[k]? = some ns[k] := List.getElem?_eq_getElem hk
    refine ⟨ns[k].1, _, ?_, load_of_cell (seg_get hr.chain hget), getDataAtIndex_rep hr hget⟩
    rw [hr.first]
    exact walk_seg ns none none k ns[k] hr.chain hget
  · rintro (hp | hp)
    · exact getDataAtIndex_neg h l hp
    · exact getDataAtIndex_ge h l hp

/-- C4: on every list reachable from `newList` and for every comparator that is
a total preorder by sign, `sortList` with enough fuel for the length succeeds,
and afterwards every adjacent pair read by `getDataAtIndex` satisfies
`cmp(at(i), at(i+1)) ≤ 0` when ascending and `≥ 0` when descending. -/
theorem sortList_sorted {h : Heap} {l : list} (hreach : Reachable h l)
    (cmp : compareTwoPointersFunction) (hc : TotalPreorder cmp) (ascending : Bool)
    (fuel : Nat) (hfuel : l.length < (fuel : Int)) :
    ∃ (h' : Heap) (l' : list), sortList fuel h l (some cmp) ascending = .ok (h', l') ∧
      ∀ i : Int, 0 ≤ i → i < l'.length - 1 →
        ∃ x y, getDataAtIndex h' l' i = .ok x ∧ getDataAtIndex h' l' (i + 1) = .ok y ∧
          (if ascending = true then cmp x y ≤ 0 else cmp x y ≥ 0) := by
  obtain ⟨ns, hr⟩ := reachable_rep hreach
  have hfuel' : ns.length < fuel := by
    have := hr.len
    omega
  obtain ⟨h', l', e, hrep, -, -⟩ := sortList_spec hr (some cmp) cmp rfl ascending fuel hfuel'
  refine ⟨h', l', e, ?_⟩
  intro i hi0 hi
  obtain ⟨k, rfl⟩ := Int.eq_ofNat_of_zero_le hi0
  have hpw := sorted_nodes_pairwise hc ascending h.length (ns.map Prod.snd)
  generalize (nodesFrom h.length (ns.map Prod.snd)).foldl
    (insertSorted (fun s e => sortStop cmp ascending s.2 e.2)) [] = T at hpw hrep
  have hk : k + 1 < T.length := by
    have := hrep.len
    omega
  have hrel := (List.pairwise_iff_getElem.1 hpw) k (k + 1) (by omega) hk (by omega)
  refine ⟨T[k].2, T[k + 1].2, getDataAtIndex_rep hrep (List.getElem?_eq_getElem (by omega)),
    ?_, ?_⟩
  · have : ((k : Int) + 1) = ((k + 1 : Nat) : Int) := by push_cast; ring
    rw [this]
    exact getDataAtIndex_rep hrep (List.getElem?_eq_getElem hk)
  · have h1 := hrel.1
    cases ascending with
    | true => simpa [dirCmp] using h1
    | false =>
      simp only [dirCmp, Bool.false_eq_true, if_false] at h1 ⊢
      omega

/-- C5: on every list reachable from `newList`, for every comparator and either
direction, `sortList` with enough fuel for the length succeeds, the element
sequence afterwards is a permutation of the element sequence before, and
`length` is unchanged. -/
theorem sortList_perm {h : Heap} {l : list} (hreach : Reachable h l)
    (cmp : compareTwoPointersFunction) (ascending : Bool)
    (fuel : Nat) (hfuel : l.length < (fuel : Int)) :
    ∃ (h' : Heap) (l' : list) (xs ys : List Ptr),
      sortList fuel h l (some cmp) ascending = .ok (h', l') ∧
      elements h l = xs.map Except.ok ∧ elements h' l' = ys.map Except.ok ∧
      ys.Perm xs ∧ l'.length = l.length := by
  obtain ⟨ns, hr⟩ := reachable_rep hreach
  have hfuel' : ns.length < fuel := by
    have := hr.len
    omega
  obtain ⟨h', l', e, hrep, -, -⟩ := sortList_spec hr (some cmp) cmp rfl ascending fuel hfuel'
  have hperm := foldl_insertSorted_perm (fun s e => sortStop cmp ascending s.2 e.2)
    (nodesFrom h.length (ns.map Prod.snd)) []
  refine ⟨h', l', ns.map Prod.snd, _, e, elements_rep hr, elements_rep hrep, ?_, ?_⟩
  · have := hperm.map Prod.snd
    simpa [nodesFrom_map_snd] using this
  · rw [hrep.len, hr.len, hperm.length_eq]
    simp [nodesFrom_length]

/-- C6: `sortList` is stable.  On every list reachable from `newList`, for
every comparator that is a total preorder by sign and either direction, there
is a map `pos` from old positions to new positions, one to one, such that the
element that was at `i` is at `pos i` afterwards, and whenever `i < j` and the
elements that were at `i` and `j` compare equal, `pos i < pos j`. -/
theorem sortList_stable {h : Heap} {l : list} (hreach : Reachable h l)
    (cmp : compareTwoPointersFunction) (hc : TotalPreorder cmp) (ascending : Bool)
    (fuel : Nat) (hfuel : l.length < (fuel : Int)) :
    ∃ (h' : Heap) (l' : list) (xs ys : List Ptr) (pos : Nat → Nat),
      sortList fuel h l (some cmp) ascending = .ok (h', l') ∧
      elements h l = xs.map Except.ok ∧ elements h' l' = ys.map Except.ok ∧
      (∀ i, i < xs.length → pos i < ys.length ∧ ys[pos i]? = xs[i]?) ∧
      (∀ i j, i < xs.length → j < xs.length → i ≠ j → pos i ≠ pos j) ∧
      (∀ i j x y, i < j → xs[i]? = some x → xs[j]? = some y → cmp x y = 0 →
        pos i < pos j) := by
  obtain ⟨ns, hr⟩ := reachable_rep hreach
  have hfuel' : ns.length < fuel := by
    have := hr.len
    omega
  obtain ⟨h', l', e, hrep, -, -⟩ := sortList_spec hr (some cmp) cmp rfl ascending fuel hfuel'
  have hperm := foldl_insertSorted_perm (fun s e => sortStop cmp ascending s.2 e.2)
    (nodesFrom h.length (ns.map Prod.snd)) []
  have hpw := sorted_nodes_pairwise hc ascending h.length (ns.map Prod.snd)
  rw [List.nil_append] at hperm
  generalize hT : (nodesFrom h.length (ns.map Prod.snd)).foldl
    (insertSorted (fun s e => sortStop cmp ascending s.2 e.2)) [] = T at hperm hpw hrep
  -- the position of the node allocated for the old position `i`
  have key : ∀ i x, (ns.map Prod.snd)[i]? = some x →
      ∃ k, T[k]? = some (h.length + i, x) ∧ (T.map Prod.fst).indexOf (h.length + i) = k := by
    intro i x hx
    have hmemN : (h.length + i, x) ∈ nodesFrom h.length (ns.map Prod.snd) :=
      nodesFrom_mem.2 ⟨i, hx, rfl⟩
    have hmemT : (h.length + i, x) ∈ T := hperm.mem_iff.2 hmemN
    have hmemF : h.length + i ∈ T.map Prod.fst := List.mem_map_of_mem Prod.fst hmemT
    have hlt : (T.map Prod.fst).indexOf (h.length + i) < T.length := by
      simpa using List.indexOf_lt_length.2 hmemF
    refine ⟨_, ?_, rfl⟩
    have hfst : (T[(T.map Prod.fst).indexOf (h.length + i)]).1 = h.length + i := by
      have hg := List.indexOf_get (l := T.map Prod.fst) (a := h.length + i)
        (by simpa using hlt)
      rw [List.get_eq_getElem, List.getElem_map] at hg
      exact hg
    have hTmem : T[(T.map Prod.fst).indexOf (h.length + i)] ∈ nodesFrom h.length
        (ns.map Prod.snd) := hperm.mem_iff.1 (List.getElem_mem hlt)
    obtain ⟨m, hm, hmtag⟩ := nodesFrom_mem.1 hTmem
    have hmi : m = i := by omega
    subst hmi
    rw [List.getElem?_eq_getElem hlt]
    congr 1
    exact Prod.ext hfst (by rw [hx] at hm; exact (Option.some.inj hm).symm)
  refine ⟨h', l', ns.map Prod.snd, T.map Prod.snd,
    fun i => (T.map Prod.fst).indexOf (h.length + i), e, elements_rep hr, elements_rep hrep,
    ?_, ?_, ?_⟩
  · intro i hi
    have hx : (ns.map Prod.snd)[i]? = some (ns.map Prod.snd)[i] := List.getElem?_eq_getElem hi
    obtain ⟨k, hk, hkeq⟩ := key i _ hx
    have hklt := (List.getElem?_eq_some_iff.1 hk).1
    refine ⟨by simpa [hkeq] using hklt, ?_⟩
    rw [hx]
    show (T.map Prod.snd)[(T.map Prod.fst).indexOf (h.length + i)]? = _
    rw [hkeq, List.getElem?_map, hk]
    rfl
  · intro i j hi hj hij heq
    have hxi : (ns.map Prod.snd)[i]? = some (ns.map Prod.snd)[i] := List.getElem?_eq_getElem hi
    have hxj : (ns.map Prod.snd)[j]? = some (ns.map Prod.snd)[j] := List.getElem?_eq_getElem hj
    obtain ⟨k1, hk1, hk1eq⟩ := key i _ hxi
    obtain ⟨k2, hk2, hk2eq⟩ := key j _ hxj
    have hkk : k1 = k2 := by rw [← hk1eq, ← hk2eq]; exact heq
    rw [hkk, hk2] at hk1
    have := congrArg Prod.fst (Option.some.inj hk1)
    simp only at this
    omega
  · intro i j x y hij hxi hxj hxy
    obtain ⟨k1, hk1, hk1eq⟩ := key i x hxi
    obtain ⟨k2, hk2, hk2eq⟩ := key j y hxj
    show (T.map Prod.fst).indexOf (h.length + i) < (T.map Prod.fst).indexOf (h.length + j)
    rw [hk1eq, hk2eq]
    obtain ⟨hk1lt, hk1v⟩ := List.getElem?_eq_some_iff.1 hk1
    obtain ⟨hk2lt, hk2v⟩ := List.getElem?_eq_some_iff.1 hk2
    rcases Nat.lt_trichotomy k1 k2 with hlt | heq | hgt
    · exact hlt
    · exfalso
      subst heq
      rw [hk1v] at hk2v
      have := congrArg Prod.fst hk2v
      simp only at this
      omega
    · exfalso
      have hrel := (List.pairwise_iff_getElem.1 hpw) k2 k1 hk2lt hk1lt hgt
      rw [hk1v, hk2v] at hrel
      have hyx : cmp y x = 0 := hc.zero_symm hxy
      have hd : dirCmp cmp ascending y x = 0 := by
        cases ascending <;> simp [dirCmp, hyx]
      have := hrel.2 hd
      simp only at this
      omega

theorem demo_reachable : Reachable demoHeap demoList :=
  Reachable.appendInList (some 2)
    (Reachable.appendInList (some 1)
      (Reachable.appendInList (some 3) (Reachable.newList [] (some cmpAddr)) rfl) rfl) rfl

theorem null_reachable : Reachable nullHeap nullList :=
  Reachable.appendInList none (Reachable.newList [] (some COMPARE_PTR)) rfl

theorem cmpAddr_totalPreorder : TotalPreorder cmpAddr :=
  ⟨fun a b => by simp only [cmpAddr]; omega, fun a b c => by simp only [cmpAddr]; omega⟩

/-- The two search functions of a well-formed list, in terms of the first node
whose data compares equal to the query. -/
theorem search_rep {h : Heap} {l : list} {ns : List (Nat × Ptr)} (hr : Rep h l ns)
    {f : compareTwoPointersFunction} (hc : l.comparator = some f) (q : Ptr)
    (fuel : Nat) (hfuel : ns.length < fuel) :
    (firstIndex (fun n => decide (f n.2 q = 0)) ns = none ∧
      searchIndexInList fuel h l q = .ok (-1) ∧ searchDataInList fuel h l q = .ok none ∧
      ∀ n ∈ ns, f n.2 q ≠ 0) ∨
    (∃ (k : Nat) (n : Nat × Ptr), ns[k]? = some n ∧ f n.2 q = 0 ∧
      searchIndexInList fuel h l q = .ok (k : Int) ∧
      searchDataInList fuel h l q = .ok n.2 ∧
      ∀ (j : Nat) (m : Nat × Ptr), j < k → ns[j]? = some m → f m.2 q ≠ 0) := by
  have hidx := searchIndexLoop_spec (h := h) hc q ns none fuel 0 hr.chain hfuel
  have hitem := searchItemLoop_spec (h := h) hc q ns none fuel hr.chain hfuel
  rw [← hr.first] at hidx hitem
  cases hfi : firstIndex (fun n => decide (f n.2 q = 0)) ns with
  | none =>
    left
    rw [hfi] at hidx hitem
    refine ⟨rfl, hidx, ?_, ?_⟩
    · simp [searchDataInList, searchItemInList, hitem, bind, Except.bind, pure, Except.pure]
    · intro n hn
      simpa using firstIndex_none hfi n hn
  | some k =>
    right
    rw [hfi] at hidx hitem
    obtain ⟨⟨n, hn, hpn⟩, hbefore⟩ := firstIndex_some hfi
    refine ⟨k, n, hn, by simpa using hpn, by simpa using hidx, ?_, ?_⟩
    · simp only [headAddr_drop hn] at hitem
      simp [searchDataInList, searchItemInList, hitem, bind, Except.bind, pure, Except.pure,
        load_of_cell (seg_get hr.chain hn)]
    · intro j m hj hm
      simpa using hbefore j m hj hm

/-- C7: on every list reachable from `newList` that has a comparator,
`searchIndexInList` with enough fuel for the length returns either `-1`, and
then no element compares equal to the query, or an index in `[0, length)` whose
element compares equal to the query while no element at a smaller index
does. -/
theorem searchIndexInList_first {h : Heap} {l : list} (hreach : Reachable h l)
    (f : compareTwoPointersFunction) (hc : l.comparator = some f) (q : Ptr)
    (fuel : Nat) (hfuel : l.length < (fuel : Int)) :
    ∃ r : Int, searchIndexInList fuel h l q = .ok r ∧
      ((r = -1 ∧ ∀ i : Int, 0 ≤ i → i < l.length →
          ∃ x, getDataAtIndex h l i = .ok x ∧ f x q ≠ 0) ∨
       (0 ≤ r ∧ r < l.length ∧ (∃ x, getDataAtIndex h l r = .ok x ∧ f x q = 0) ∧
          ∀ i : Int, 0 ≤ i → i < r → ∃ x, getDataAtIndex h l i = .ok x ∧ f x q ≠ 0)) := by
  obtain ⟨ns, hr⟩ := reachable_rep hreach
  have hfuel' : ns.length < fuel := by
    have := hr.len
    omega
  rcases search_rep hr hc q fuel hfuel' with ⟨-, hidx, -, hall⟩ | ⟨k, n, hn, hz, hidx, -, hbefore⟩
  · refine ⟨-1, hidx, Or.inl ⟨rfl, ?_⟩⟩
    intro i hi0 hi
    obtain ⟨j, rfl⟩ := Int.eq_ofNat_of_zero_le hi0
    have hj : j < ns.length := by
      have := hr.len
      omega
    exact ⟨ns[j].2, getDataAtIndex_rep hr (List.getElem?_eq_getElem hj),
      hall _ (List.getElem_mem hj)⟩
  · have hk := (List.getElem?_eq_some_iff.1 hn).1
    refine ⟨k, hidx, Or.inr ⟨by omega, by rw [hr.len]; omega,
      ⟨n.2, getDataAtIndex_rep hr hn, hz⟩, ?_⟩⟩
    intro i hi0 hi
    obtain ⟨j, rfl⟩ := Int.eq_ofNat_of_zero_le hi0
    have hj : j < ns.length := by omega
    exact ⟨ns[j].2, getDataAtIndex_rep hr (List.getElem?_eq_getElem hj),
      hbefore j _ (by omega) (List.getElem?_eq_getElem hj)⟩

/-- C8, as amended: on every list reachable from `newList` that has a
comparator, `searchDataInList` returns `NULL` when `searchIndexInList` returns
`-1`, and otherwise returns the data stored at the index that
`searchIndexInList` returns; so its result is `NULL` exactly when that index is
`-1` or the data stored there is itself `NULL`. -/
theorem searchDataInList_found {h : Heap} {l : list} (hreach : Reachable h l)
    (f : compareTwoPointersFunction) (hc : l.comparator = some f) (q : Ptr)
    (fuel : Nat) (hfuel : l.length < (fuel : Int)) :
    ∃ r : Int, searchIndexInList fuel h l q = .ok r ∧
      ((r = -1 ∧ searchDataInList fuel h l q = .ok none) ∨
       (0 ≤ r ∧ r < l.length ∧
          ∃ x, getDataAtIndex h l r = .ok x ∧ searchDataInList fuel h l q = .ok x)) ∧
      (searchDataInList fuel h l q = .ok none ↔
        (r = -1 ∨ getDataAtIndex h l r = .ok none)) := by
  obtain ⟨ns, hr⟩ := reachable_rep hreach
  have hfuel' : ns.length < fuel := by
    have := hr.len
    omega
  rcases search_rep hr hc q fuel hfuel' with ⟨-, hidx, hdata, -⟩ | ⟨k, n, hn, -, hidx, hdata, -⟩
  · exact ⟨-1, hidx, Or.inl ⟨rfl, hdata⟩, fun _ => Or.inl rfl, fun _ => hdata⟩
  · have hk := (List.getElem?_eq_some_iff.1 hn).1
    have hget := getDataAtIndex_rep hr hn
    refine ⟨k, hidx, Or.inr ⟨by omega, by rw [hr.len]; omega, n.2, hget, hdata⟩, ?_⟩
    rw [hdata, hget]
    constructor
    · intro h1; exact Or.inr h1
    · rintro (h1 | h1)
      · omega
      · exact h1

/-- C8, the claim as stated fails: in the list that holds the one element
`NULL`, with the default comparator, searching for `NULL` finds index `0`, yet
`searchDataInList` returns `NULL`. -/
theorem searchDataInList_null_match :
    Reachable nullHeap nullList ∧
    searchIndexInList 2 nullHeap nullList none = .ok 0 ∧
    searchDataInList 2 nullHeap nullList none = .ok none ∧
    ¬ (searchDataInList 2 nullHeap nullList none = .ok none ↔
        searchIndexInList 2 nullHeap nullList none = .ok (-1)) := by
  refine ⟨null_reachable, rfl, rfl, ?_⟩
  intro hiff
  have h1 : searchIndexInList 2 nullHeap nullList none = .ok (-1) := hiff.1 rfl
  have h2 : searchIndexInList 2 nullHeap nullList none = .ok 0 := rfl
  rw [h2] at h1
  cases h1

/-- C9: on every list reachable from `newList` that has a comparator,
`deleteInList` with enough fuel for the length either ends in
`exit(EXIT_FAILURE)` with the heap and the list as they were, and then no
element compares equal to the data, or, some element comparing equal, it is
the successful call of `deleteItemAtIndex` at the index `searchIndexInList`
returns, which removes that element. -/
theorem deleteInList_first {h : Heap} {l : list} (hreach : Reachable h l)
    (f : compareTwoPointersFunction) (hc : l.comparator = some f) (d : Ptr)
    (fuel : Nat) (hfuel : l.length < (fuel : Int)) :
    ∃ r : Int, searchIndexInList fuel h l d = .ok r ∧
      ((r = -1 ∧ deleteInList fuel h l d = .error (.exitFailure h l) ∧
          ∀ i : Int, 0 ≤ i → i < l.length →
            ∃ x, getDataAtIndex h l i = .ok x ∧ f x d ≠ 0) ∨
       (0 ≤ r ∧ r < l.length ∧ (∃ x, getDataAtIndex h l r = .ok x ∧ f x d = 0) ∧
          deleteInList fuel h l d = deleteItemAtIndex h l r ∧
          ∃ (h' : Heap) (l' : list) (xs : List Ptr),
            deleteInList fuel h l d = .ok (h', l') ∧
            elements h l = xs.map Except.ok ∧
            elements h' l' = (xs.take r.toNat ++ xs.drop (r.toNat + 1)).map Except.ok ∧
            l'.length = l.length - 1)) := by
  obtain ⟨ns, hr⟩ := reachable_rep hreach
  have hfuel' : ns.length < fuel := by
    have := hr.len
    omega
  rcases search_rep hr hc d fuel hfuel' with ⟨-, hidx, -, hall⟩ | ⟨k, n, hn, hz, hidx, -, -⟩
  · refine ⟨-1, hidx, Or.inl ⟨rfl, ?_, ?_⟩⟩
    · simp [deleteInList, hidx, bind, Except.bind]
    · intro i hi0 hi
      obtain ⟨j, rfl⟩ := Int.eq_ofNat_of_zero_le hi0
      have hj : j < ns.length := by
        have := hr.len
        omega
      exact ⟨ns[j].2, getDataAtIndex_rep hr (List.getElem?_eq_getElem hj),
        hall _ (List.getElem_mem hj)⟩
  · have hk := (List.getElem?_eq_some_iff.1 hn).1
    have hne : (k : Int) ≠ -1 := by omega
    have hdel : deleteInList fuel h l d = deleteItemAtIndex h l (k : Int) := by
      simp only [deleteInList, hidx, bind, Except.bind]
      rw [if_pos hne]
    obtain ⟨h', l', e, hrep, -, -, -, hlen, -⟩ := deleteItemAtIndex_spec hr k hk
    refine ⟨k, hidx, Or.inr ⟨by omega, by rw [hr.len]; omega,
      ⟨n.2, getDataAtIndex_rep hr hn, hz⟩, hdel, h', l', ns.map Prod.snd, by rw [hdel, e],
      elements_rep hr, ?_, hlen⟩⟩
    rw [elements_rep hrep]
    simp [List.map_take, List.map_drop]

/-- C10: for every heap, list and position `p < 0`, `putItemAtIndex`,
`appendAtInList` and `deleteItemAtIndex` end in `exit(EXIT_FAILURE)`; at that
moment the list is the one passed in and every cell of the heap is as it was
(`appendAtInList` has only allocated its new, unlinked node). -/
theorem negative_index_fatal (h : Heap) (l : list) (item : Ptr) (d : Ptr) (p : Int)
    (hp : p < 0) :
    putItemAtIndex h l item p = .error (.exitFailure h l) ∧
    appendAtInList h l d p =
      .error (.exitFailure (h ++ [some { data := d, previous := none, next := none }]) l) ∧
    (∀ b : Nat, b < h.length →
      (h ++ [some { data := d, previous := none, next := none }])[b]? = h[b]?) ∧
    deleteItemAtIndex h l p = .error (.exitFailure h l) := by
  refine ⟨by simp [putItemAtIndex, hp], appendAtInList_neg h l d hp, ?_,
    deleteItemAtIndex_neg h l hp⟩
  intro b hb
  exact heap_append_get _ hb

/-! ## The theorems at concrete lists

`demoList` holds the data `3`, `1`, `2` and compares by `cmpAddr`. -/

theorem appendAtInList_inserts_witness :
    Reachable demoHeap demoList ∧ (0 : Int) ≤ 1 ∧ (1 : Int) ≤ demoList.length ∧
    ∃ (h' : Heap) (l' : list) (xs : List Ptr),
      appendAtInList demoHeap demoList (some 9) 1 = .ok (h', l') ∧
      elements demoHeap demoList = xs.map Except.ok ∧
      elements h' l' =
        (xs.take (1 : Int).toNat ++ [some 9] ++ xs.drop (1 : Int).toNat).map Except.ok ∧
      l'.length = demoList.length + 1 :=
  ⟨demo_reachable, by decide, by decide,
    appendAtInList_inserts demo_reachable (some 9) 1 (by decide) (by decide)⟩

theorem deleteItemAtIndex_removes_witness :
    Reachable demoHeap demoList ∧ (0 : Int) ≤ 1 ∧ (1 : Int) < demoList.length ∧
    ∃ (h' : Heap) (l' : list) (xs : List Ptr),
      deleteItemAtIndex demoHeap demoList 1 = .ok (h', l') ∧
      elements demoHeap demoList = xs.map Except.ok ∧
      elements h' l' =
        (xs.take (1 : Int).toNat ++ xs.drop ((1 : Int).toNat + 1)).map Except.ok ∧
      l'.length = demoList.length - 1 :=
  ⟨demo_reachable, by decide, by decide,
    deleteItemAtIndex_removes demo_reachable 1 (by decide) (by decide)⟩

theorem getDataAtIndex_chain_witness :
    Reachable demoHeap demoList ∧ (0 : Int) ≤ 2 ∧ (2 : Int) < demoList.length ∧
    (∃ a c, walk demoHeap (2 : Int).toNat demoList.first = .ok (some a) ∧
      load demoHeap (some a) = .ok c ∧ getDataAtIndex demoHeap demoList 2 = .ok c.data) ∧
    demoList.length ≤ 3 ∧ getDataAtIndex demoHeap demoList 3 = .ok none :=
  ⟨demo_reachable, by decide, by decide,
    (getDataAtIndex_chain demo_reachable 2).1 (by decide) (by decide), by decide,
    (getDataAtIndex_chain demo_reachable 3).2 (Or.inr (by decide))⟩

theorem sortList_sorted_witness :
    Reachable demoHeap demoList ∧ TotalPreorder cmpAddr ∧ demoList.length < ((4 : Nat) : Int) ∧
    ∃ (h' : Heap) (l' : list), sortList 4 demoHeap demoList (some cmpAddr) true = .ok (h', l') ∧
      ∀ i : Int, 0 ≤ i → i < l'.length - 1 →
        ∃ x y, getDataAtIndex h' l' i = .ok x ∧ getDataAtIndex h' l' (i + 1) = .ok y ∧
          (if true = true then cmpAddr x y ≤ 0 else cmpAddr x y ≥ 0) :=
  ⟨demo_reachable, cmpAddr_totalPreorder, by decide,
    sortList_sorted demo_reachable cmpAddr cmpAddr_totalPreorder true 4 (by decide)⟩

theorem sortList_perm_witness :
    Reachable demoHeap demoList ∧ demoList.length < ((4 : Nat) : Int) ∧
    ∃ (h' : Heap) (l' : list) (xs ys : List Ptr),
      sortList 4 demoHeap demoList (some COMPARE_PTR) false = .ok (h', l') ∧
      elements demoHeap demoList = xs.map Except.ok ∧ elements h' l' = ys.map Except.ok ∧
      ys.Perm xs ∧ l'.length = demoList.length :=
  ⟨demo_reachable, by decide,
    sortList_perm demo_reachable COMPARE_PTR false 4 (by decide)⟩

theorem tie_reachable : Reachable tieHeap tieList :=
  Reachable.appendInList (some 25)
    (Reachable.appendInList (some 10)
      (Reachable.appendInList (some 21) (Reachable.newList [] (some cmpTens)) rfl) rfl) rfl

theorem cmpTens_totalPreorder : TotalPreorder cmpTens :=
  ⟨fun a b => by simp only [cmpTens]; omega, fun a b c => by simp only [cmpTens]; omega⟩

/-- The stability theorem at the list `21`, `10`, `25` compared by tens, where
`21` and `25` tie: sorted ascending the list reads `10`, `21`, `25`, and the
position map puts the old position 0 before the old position 2. -/
theorem sortList_stable_witness :
    Reachable tieHeap tieList ∧ TotalPreorder cmpTens ∧ tieList.length < ((4 : Nat) : Int) ∧
    elements tieHeap tieList = ([some 21, some 10, some 25] : List Ptr).map Except.ok ∧
    cmpTens (some 21) (some 25) = 0 ∧
    ∃ (h' : Heap) (l' : list) (ys : List Ptr) (pos : Nat → Nat),
      sortList 4 tieHeap tieList (some cmpTens) true = .ok (h', l') ∧
      elements h' l' = ys.map Except.ok ∧
      (∀ i, i < 3 → pos i < ys.length ∧
        ys[pos i]? = ([some 21, some 10, some 25] : List Ptr)[i]?) ∧
      (∀ i j, i < 3 → j < 3 → i ≠ j → pos i ≠ pos j) ∧
      (∀ i j x y, i < j → ([some 21, some 10, some 25] : List Ptr)[i]? = some x →
        ([some 21, some 10, some 25] : List Ptr)[j]? = some y → cmpTens x y = 0 →
        pos i < pos j) ∧
      pos 0 < pos 2 ∧
      ys = [some 10, some 21, some 25] := by
  refine ⟨tie_reachable, cmpTens_totalPreorder, by decide, rfl, by decide, ?_⟩
  obtain ⟨h', l', xs, ys, pos, e, hx, hy, hpos, hinj, hstable⟩ :=
    sortList_stable tie_reachable cmpTens cmpTens_totalPreorder true 4 (by decide)
  have hinjective : Function.Injective (Except.ok : Ptr → Except Fault Ptr) :=
    fun a b hab => Except.ok.inj hab
  have hxs : xs = [some 21, some 10, some 25] := by
    have h0 : elements tieHeap tieList =
        ([some 21, some 10, some 25] : List Ptr).map Except.ok := rfl
    rw [h0] at hx
    exact (List.map_injective_iff.2 hinjective hx).symm
  subst hxs
  have hrun : ∃ (h0 : Heap) (l0 : list),
      sortList 4 tieHeap tieList (some cmpTens) true = .ok (h0, l0) ∧
      elements h0 l0 = ([some 10, some 21, some 25] : List Ptr).map Except.ok :=
    ⟨_, _, rfl, rfl⟩
  obtain ⟨h0, l0, e0, hel0⟩ := hrun
  rw [e] at e0
  have hpair : (h', l') = (h0, l0) := Except.ok.inj e0
  have hh : h' = h0 := congrArg Prod.fst hpair
  have hl : l' = l0 := congrArg Prod.snd hpair
  subst hh
  subst hl
  have hys : ys = [some 10, some 21, some 25] := by
    rw [hel0] at hy
    exact (List.map_injective_iff.2 hinjective hy).symm
  exact ⟨h', l', ys, pos, e, hy, hpos, hinj, hstable,
    hstable 0 2 (some 21) (some 25) (by decide) rfl rfl (by decide), hys⟩

theorem searchIndexInList_first_witness :
    Reachable demoHeap demoList ∧ demoList.comparator = some cmpAddr ∧
    demoList.length < ((4 : Nat) : Int) ∧
    ∃ r : Int, searchIndexInList 4 demoHeap demoList (some 1) = .ok r ∧
      ((r = -1 ∧ ∀ i : Int, 0 ≤ i → i < demoList.length →
          ∃ x, getDataAtIndex demoHeap demoList i = .ok x ∧ cmpAddr x (some 1) ≠ 0) ∨
       (0 ≤ r ∧ r < demoList.length ∧
          (∃ x, getDataAtIndex demoHeap demoList r = .ok x ∧ cmpAddr x (some 1) = 0) ∧
          ∀ i : Int, 0 ≤ i → i < r →
            ∃ x, getDataAtIndex demoHeap demoList i = .ok x ∧ cmpAddr x (some 1) ≠ 0)) :=
  ⟨demo_reachable, rfl, by decide,
    searchIndexInList_first demo_reachable cmpAddr rfl (some 1) 4 (by decide)⟩

theorem searchDataInList_found_witness :
    Reachable nullHeap nullList ∧ nullList.comparator = some COMPARE_PTR ∧
    nullList.length < ((2 : Nat) : Int) ∧
    ∃ r : Int, searchIndexInList 2 nullHeap nullList none = .ok r ∧
      ((r = -1 ∧ searchDataInList 2 nullHeap nullList none = .ok none) ∨
       (0 ≤ r ∧ r < nullList.length ∧
          ∃ x, getDataAtIndex nullHeap nullList r = .ok x ∧
            searchDataInList 2 nullHeap nullList none = .ok x)) ∧
      (searchDataInList 2 nullHeap nullList none = .ok none ↔
        (r = -1 ∨ getDataAtIndex nullHeap nullList r = .ok none)) :=
  ⟨null_reachable, rfl, by decide,
    searchDataInList_found null_reachable COMPARE_PTR rfl none 2 (by decide)⟩

theorem deleteInList_first_witness :
    Reachable demoHeap demoList ∧ demoList.comparator = some cmpAddr ∧
    demoList.length < ((4 : Nat) : Int) ∧
    ∃ r : Int, searchIndexInList 4 demoHeap demoList (some 7) = .ok r ∧
      ((r = -1 ∧
          deleteInList 4 demoHeap demoList (some 7) = .error (.exitFailure demoHeap demoList) ∧
          ∀ i : Int, 0 ≤ i → i < demoList.length →
            ∃ x, getDataAtIndex demoHeap demoList i = .ok x ∧ cmpAddr x (some 7) ≠ 0) ∨
       (0 ≤ r ∧ r < demoList.length ∧
          (∃ x, getDataAtIndex demoHeap demoList r = .ok x ∧ cmpAddr x (some 7) = 0) ∧
          deleteInList 4 demoHeap demoList (some 7) = deleteItemAtIndex demoHeap demoList r ∧
          ∃ (h' : Heap) (l' : list) (xs : List Ptr),
            deleteInList 4 demoHeap demoList (some 7) = .ok (h', l') ∧
            elements demoHeap demoList = xs.map Except.ok ∧
            elements h' l' = (xs.take r.toNat ++ xs.drop (r.toNat + 1)).map Except.ok ∧
            l'.length = demoList.length - 1)) :=
  ⟨demo_reachable, rfl, by decide,
    deleteInList_first demo_reachable cmpAddr rfl (some 7) 4 (by decide)⟩

theorem negative_index_fatal_witness :
    (-1 : Int) < 0 ∧
    putItemAtIndex demoHeap demoList (some 0) (-1) = .error (.exitFailure demoHeap demoList) ∧
    appendAtInList demoHeap demoList (some 9) (-1) =
      .error (.exitFailure
        (demoHeap ++ [some { data := some 9, previous := none, next := none }]) demoList) ∧
    (∀ b : Nat, b < demoHeap.length →
      (demoHeap ++ [some { data := some 9, previous := none, next := none }])[b]? =
        demoHeap[b]?) ∧
    deleteItemAtIndex demoHeap demoList (-1) = .error (.exitFailure demoHeap demoList) :=
  ⟨by decide, negative_index_fatal demoHeap demoList (some 0) (some 9) (-1) (by decide)⟩

/-! ## No-ops, inverse, invariants and wrappers -/

/-- Two lists with the same nodes read the same data at every position. -/
theorem getDataAtIndex_congr {h h' : Heap} {l l' : list} {ns : List (Nat × Ptr)}
    (hr : Rep h l ns) (hr' : Rep h' l' ns) (i : Int) :
    getDataAtIndex h' l' i = getDataAtIndex h l i := by
  by_cases hneg : i < 0
  · rw [getDataAtIndex_neg h l hneg, getDataAtIndex_neg h' l' hneg]
  · obtain ⟨k, rfl⟩ := Int.eq_ofNat_of_zero_le (not_lt.1 hneg)
    by_cases hk : k < ns.length
    · have hget : ns[k]? = some ns[k] := List.getElem?_eq_getElem hk
      rw [getDataAtIndex_rep hr hget, getDataAtIndex_rep hr' hget]
    · rw [getDataAtIndex_ge h l (by rw [hr.len]; omega),
        getDataAtIndex_ge h' l' (by rw [hr'.len]; omega)]

theorem take_insert_drop {α : Type} (ns : List α) (x : α) {k : Nat} (hk : k ≤ ns.length) :
    (ns.take k ++ x :: ns.drop k).take k ++ (ns.take k ++ x :: ns.drop k).drop (k + 1) = ns := by
  have hlen : (ns.take k).length = k := by rw [List.length_take]; omega
  have h1 : (ns.take k ++ x :: ns.drop k).take k = ns.take k := List.take_left' hlen
  have h2 : (ns.take k ++ x :: ns.drop k).drop (k + 1) = ns.drop k := by
    have : ns.take k ++ x :: ns.drop k = (ns.take k ++ [x]) ++ ns.drop k := by simp
    rw [this]
    exact List.drop_left' (by simp [hlen])
  rw [h1, h2, List.take_append_drop]

/-- C11: on every list reachable from `newList`, `appendAtInList` at a position
`p > length` returns without failing and leaves the list structure (length,
first, last, cache contents, capacity) exactly as it was; every cell of the
heap allocated before is unchanged, and so is the element sequence. -/
theorem appendAtInList_beyond_noop {h : Heap} {l : list} (hreach : Reachable h l)
    (d : Ptr) (p : Int) (hp : l.length < p) :
    ∃ h' : Heap, appendAtInList h l d p = .ok (h', l) ∧
      (∀ b : Nat, b < h.length → h'[b]? = h[b]?) ∧
      elements h' l = elements h l := by
  obtain ⟨ns, hr⟩ := reachable_rep hreach
  have hfr : Rep (h ++ [some { data := d, previous := none, next := none }]) l ns :=
    rep_frame hr (fun b hb => heap_append_get _ (rep_addr_lt hr b hb))
  refine ⟨_, appendAtInList_beyond d hp (by rw [hr.len]; omega),
    fun b hb => heap_append_get _ hb, ?_⟩
  rw [elements_rep hfr, elements_rep hr]

/-- C13: on every list reachable from `newList`, `appendAtInList` at a position
`0 ≤ p ≤ length` followed by `deleteItemAtIndex` at the same position both
succeed, and afterwards the length is the one before the insertion and
`getDataAtIndex` returns at every position what it returned before. -/
theorem insert_then_delete {h : Heap} {l : list} (hreach : Reachable h l) (d : Ptr)
    (p : Int) (hp0 : 0 ≤ p) (hp : p ≤ l.length) :
    ∃ (h1 : Heap) (l1 : list) (h2 : Heap) (l2 : list),
      appendAtInList h l d p = .ok (h1, l1) ∧ deleteItemAtIndex h1 l1 p = .ok (h2, l2) ∧
      l2.length = l.length ∧ elements h2 l2 = elements h l ∧
      ∀ i : Int, getDataAtIndex h2 l2 i = getDataAtIndex h l i := by
  obtain ⟨ns, hr⟩ := reachable_rep hreach
  obtain ⟨k, rfl⟩ := Int.eq_ofNat_of_zero_le hp0
  have hk : k ≤ ns.length := by
    have := hr.len
    omega
  obtain ⟨h1, l1, e1, hrep1, -, -, -, hlen1, -⟩ := appendAtInList_spec hr d k hk
  have hk1 : k < (ns.take k ++ (h.length, d) :: ns.drop k).length := by
    simp only [List.length_append, List.length_cons, List.length_take, List.length_drop]
    omega
  obtain ⟨h2, l2, e2, hrep2, -, -, -, hlen2, -⟩ := deleteItemAtIndex_spec hrep1 k hk1
  rw [take_insert_drop ns _ hk] at hrep2
  refine ⟨h1, l1, h2, l2, e1, e2, by rw [hlen2, hlen1]; ring, ?_,
    fun i => getDataAtIndex_congr hr hrep2 i⟩
  rw [elements_rep hrep2, elements_rep hr]

/-- C14: in every state reachable from `newList`, for every `i` in
`[0, length)` the cache entry `indexMap[i]` is the node reached from `first` by
`i` steps along the `next` links; its `previous` link is `NULL` when `i == 0`
and `indexMap[i-1]` otherwise, and its `next` link is `NULL` when
`i == length-1` and `indexMap[i+1]` otherwise. -/
theorem cache_link_agreement {h : Heap} {l : list} (hreach : Reachable h l) (i : Nat)
    (hi : (i : Int) < l.length) :
    ∃ (a : Nat) (c : chainItem), readIndexMap l (i : Int) = .ok (some a) ∧
      walk h i l.first = .ok (some a) ∧ load h (some a) = .ok c ∧
      (i = 0 → c.previous = none) ∧
      (0 < i → readIndexMap l ((i : Int) - 1) = .ok c.previous ∧ c.previous ≠ none) ∧
      ((i : Int) = l.length - 1 → c.next = none) ∧
      ((i : Int) < l.length - 1 →
        readIndexMap l ((i : Int) + 1) = .ok c.next ∧ c.next ≠ none) := by
  obtain ⟨ns, hr⟩ := reachable_rep hreach
  have hk : i < ns.length := by
    have := hr.len
    omega
  have hget : ns[i]? = some ns[i] := List.getElem?_eq_getElem hk
  have hcell := seg_get hr.chain hget
  refine ⟨ns[i].1, _, readIndexMap_of_get (hr.cache i _ hget), ?_, load_of_cell hcell,
    ?_, ?_, ?_, ?_⟩
  · rw [hr.first]
    exact walk_seg ns none none i ns[i] hr.chain hget
  · intro h0
    subst h0
    rfl
  · intro hpos
    obtain ⟨j, rfl⟩ : ∃ j, i = j + 1 := ⟨i - 1, by omega⟩
    have hgetj : ns[j]? = some ns[j] := List.getElem?_eq_getElem (by omega)
    have hsub : ((j + 1 : Nat) : Int) - 1 = (j : Int) := by push_cast; ring
    show readIndexMap l (((j + 1 : Nat) : Int) - 1) = .ok (lastAddr (ns.take (j + 1)) none) ∧
      lastAddr (ns.take (j + 1)) none ≠ none
    rw [hsub, lastAddr_take_succ hgetj]
    exact ⟨readIndexMap_of_get (hr.cache j _ hgetj), by simp⟩
  · intro hlast
    show headAddr (ns.drop (i + 1)) none = none
    exact headAddr_drop_none (by have := hr.len; omega) none
  · intro hlt
    have hk1 : i + 1 < ns.length := by
      have := hr.len
      omega
    have hget1 : ns[i + 1]? = some ns[i + 1] := List.getElem?_eq_getElem hk1
    have hadd : ((i : Int) + 1) = ((i + 1 : Nat) : Int) := by push_cast; ring
    show readIndexMap l ((i : Int) + 1) = .ok (headAddr (ns.drop (i + 1)) none) ∧
      headAddr (ns.drop (i + 1)) none ≠ none
    rw [hadd, headAddr_drop hget1]
    exact ⟨readIndexMap_of_get (hr.cache (i + 1) _ hget1), by simp⟩

/-- A run of `appendInList` calls adds the data at the end, in order. -/
theorem appendAll_spec (xs : List Ptr) :
    ∀ (h : Heap) (l : list) (ns : List (Nat × Ptr)), Rep h l ns →
      ∃ (h' : Heap) (l' : list) (ns' : List (Nat × Ptr)),
        appendAll h l xs = .ok (h', l') ∧ Rep h' l' ns' ∧
        ns'.map Prod.snd = ns.map Prod.snd ++ xs := by
  induction xs with
  | nil =>
    intro h l ns hr
    exact ⟨h, l, ns, rfl, hr, by simp⟩
  | cons x xs ih =>
    intro h l ns hr
    obtain ⟨h1, l1, e1, hrep1, -⟩ := appendAtInList_spec hr x ns.length (le_refl _)
    rw [← hr.len, ← appendInList_eq] at e1
    rw [List.take_length, List.drop_length] at hrep1
    obtain ⟨h2, l2, ns2, e2, hrep2, hmap⟩ := ih h1 l1 _ hrep1
    refine ⟨h2, l2, ns2, ?_, hrep2, by simpa using hmap⟩
    simp only [appendAll, bind, Except.bind, e1]
    exact e2

/-- C15: calling `appendInList` with `x_0, ..., x_(n-1)` on the list made by
`newList` succeeds and gives a list of length `n` that holds `x_i` at position
`i`; and on every list reachable from `newList`, `pushInList` succeeds, puts
its data at position 0 and moves every old element one position to the back. -/
theorem append_order_push_front (h0 : Heap) (cmp : Option compareTwoPointersFunction)
    (xs : List Ptr) {h : Heap} {l : list} (hreach : Reachable h l) (d : Ptr) :
    (∃ (h' : Heap) (l' : list), appendAll h0 (newList cmp) xs = .ok (h', l') ∧
      l'.length = xs.length ∧ elements h' l' = xs.map Except.ok ∧
      ∀ (i : Nat) (x : Ptr), xs[i]? = some x → getDataAtIndex h' l' (i : Int) = .ok x) ∧
    (∃ (h' : Heap) (l' : list) (ys : List Ptr), pushInList h l d = .ok (h', l') ∧
      elements h l = ys.map Except.ok ∧ elements h' l' = (d :: ys).map Except.ok ∧
      l'.length = l.length + 1) := by
  constructor
  · obtain ⟨h', l', ns', e, hrep, hmap⟩ := appendAll_spec xs h0 (newList cmp) [] (rep_newList h0 cmp)
    simp only [List.map_nil, List.nil_append] at hmap
    refine ⟨h', l', e, ?_, ?_, ?_⟩
    · rw [hrep.len, ← hmap, List.length_map]
    · rw [elements_rep hrep, hmap]
    · intro i x hx
      rw [← hmap, List.getElem?_map] at hx
      cases hn : ns'[i]? with
      | none => rw [hn] at hx; cases hx
      | some n =>
        rw [hn] at hx
        simp only [Option.map_some', Option.some.injEq] at hx
        rw [getDataAtIndex_rep hrep hn, hx]
  · obtain ⟨ns, hr⟩ := reachable_rep hreach
    obtain ⟨h', l', e, hrep, -, -, -, hlen, -⟩ := appendAtInList_spec hr d 0 (Nat.zero_le _)
    refine ⟨h', l', ns.map Prod.snd, ?_, elements_rep hr, ?_, hlen⟩
    · rw [pushInList_eq]
      simpa using e
    · rw [elements_rep hrep]
      simp

/-! ## Where the code departs from its documentation -/

/-- C12, the code at `index == length`: on the list that holds `3`, `1`, `2`,
and on the empty list made by `newList`, `deleteItemAtIndex` at the position
`length` passes the guard `length < index`, gets `NULL` from `getItemAtIndex`
and dereferences it; at a position beyond `length` it returns with the heap and
the list as they were. -/
theorem deleteItemAtIndex_length_faults :
    Reachable demoHeap demoList ∧ demoList.length = 3 ∧
    getItemAtIndex demoList 3 = .ok none ∧
    deleteItemAtIndex demoHeap demoList 3 = .error .nullDeref ∧
    deleteItemAtIndex [] (newList none) 0 = .error .nullDeref ∧
    deleteItemAtIndex demoHeap demoList 4 = .ok (demoHeap, demoList) :=
  ⟨demo_reachable, rfl, rfl, rfl, rfl, rfl⟩

/-- C16, the claim as stated fails: on the list that holds `3`, `1`, `2`,
`pushInList` of `9` gives `9`, `3`, `1`, `2`; the element at the last position
is `2`, not `9`, and the element at position 0 is no longer the old one. -/
theorem pushInList_puts_first :
    Reachable demoHeap demoList ∧
    ∃ (h' : Heap) (l' : list), pushInList demoHeap demoList (some 9) = .ok (h', l') ∧
      elements demoHeap demoList = [some 3, some 1, some 2].map Except.ok ∧
      elements h' l' = [some 9, some 3, some 1, some 2].map Except.ok ∧
      getDataAtIndex h' l' (l'.length - 1) = .ok (some 2) ∧
      getDataAtIndex h' l' 0 = .ok (some 9) ∧
      ¬ (getDataAtIndex h' l' (l'.length - 1) = .ok (some 9) ∧
          getDataAtIndex h' l' 0 = getDataAtIndex demoHeap demoList 0) := by
  refine ⟨demo_reachable, _, _, rfl, rfl, rfl, rfl, rfl, ?_⟩
  rintro ⟨hlast, -⟩
  have h2 : getDataAtIndex
      (demoHeap ++ [some { data := some 9, previous := none, next := none }])
      { length := 4, memLength := 4, indexMap := [some 3, some 0, some 1, some 2],
        first := some 3, last := none, comparator := some cmpAddr } (4 - 1) =
      .ok (some 2) := rfl
  have h3 := hlast.symm.trans h2
  have h4 : (some 9 : Ptr) = some 2 := Except.ok.inj h3
  cases h4

/-- C16, as amended: on every list reachable from `newList`, `pushInList`
succeeds, the length grows by one, the element at position 0 is the new data,
and the element that was at position `i` is at position `i + 1`, for every `i`
in `[0, length)`. -/
theorem pushInList_front {h : Heap} {l : list} (hreach : Reachable h l) (d : Ptr) :
    ∃ (h' : Heap) (l' : list), pushInList h l d = .ok (h', l') ∧
      l'.length = l.length + 1 ∧ getDataAtIndex h' l' 0 = .ok d ∧
      ∀ i : Int, 0 ≤ i → i < l.length →
        ∃ x : Ptr, getDataAtIndex h l i = .ok x ∧ getDataAtIndex h' l' (i + 1) = .ok x := by
  obtain ⟨ns, hr⟩ := reachable_rep hreach
  obtain ⟨h', l', e, hrep, -, -, -, hlen, -⟩ := appendAtInList_spec hr d 0 (Nat.zero_le _)
  simp only [List.take_zero, List.nil_append, List.drop_zero] at hrep
  refine ⟨h', l', by rw [pushInList_eq]; simpa using e, hlen, ?_, ?_⟩
  · have h0 : ((h.length, d) :: ns)[0]? = some (h.length, d) := by simp
    have := getDataAtIndex_rep hrep h0
    simpa using this
  · intro i hi0 hi
    obtain ⟨k, rfl⟩ := Int.eq_ofNat_of_zero_le hi0
    have hk : k < ns.length := by
      have := hr.len
      omega
    have hget : ns[k]? = some ns[k] := List.getElem?_eq_getElem hk
    have hget' : ((h.length, d) :: ns)[k + 1]? = some ns[k] := by simp
    have hadd : ((k : Int) + 1) = ((k + 1 : Nat) : Int) := by push_cast; ring
    refine ⟨ns[k].2, getDataAtIndex_rep hr hget, ?_⟩
    rw [hadd]
    exact getDataAtIndex_rep hrep hget'

/-- C17, the code on `last`: after one `appendInList` on a new list the length
is 1 and `first` is the cache entry 0, but `last` is still `NULL`; after three
calls the length is 3 and `last` is still `NULL`, while the cache entry
`length - 1` is the third node. -/
theorem last_not_maintained :
    Reachable nullHeap nullList ∧ nullList.length = 1 ∧
    readIndexMap nullList 0 = .ok nullList.first ∧ nullList.first = some 0 ∧
    readIndexMap nullList (nullList.length - 1) = .ok (some 0) ∧ nullList.last = none ∧
    Reachable demoHeap demoList ∧ demoList.length = 3 ∧
    readIndexMap demoList (demoList.length - 1) = .ok (some 2) ∧ demoList.last = none :=
  ⟨null_reachable, rfl, rfl, rfl, rfl, rfl, demo_reachable, rfl, rfl, rfl⟩

/-! ## Sorting with the default comparator -/

theorem insertSorted_COMPARE_PTR_ascending (ys : List Ptr) (e : Ptr) :
    insertSorted (sortStop COMPARE_PTR true) ys e = e :: ys := by
  induction ys with
  | nil => rfl
  | cons y ys ih =>
    unfold insertSorted at ih ⊢
    by_cases hy : y = e
    · subst hy
      have hstop : sortStop COMPARE_PTR true y y = false := by simp [sortStop, COMPARE_PTR]
      simp only [insertPos, hstop, Bool.false_eq_true, if_false, List.take_succ_cons,
        List.drop_succ_cons, List.cons_append]
      rw [ih]
    · have hstop : sortStop COMPARE_PTR true y e = true := by simp [sortStop, COMPARE_PTR, hy]
      simp [insertPos, hstop]

theorem insertSorted_COMPARE_PTR_descending (ys : List Ptr) (e : Ptr) :
    insertSorted (sortStop COMPARE_PTR false) ys e = ys ++ [e] := by
  have hstop : ∀ s : Ptr, sortStop COMPARE_PTR false s e = false := by
    intro s
    simp only [sortStop, COMPARE_PTR, decide_eq_false_iff_not]
    split_ifs <;> simp
  induction ys with
  | nil => rfl
  | cons y ys ih =>
    unfold insertSorted at ih ⊢
    have hy := hstop y
    simp only [insertPos, hy, Bool.false_eq_true, if_false, List.take_succ_cons,
      List.drop_succ_cons, List.cons_append]
    rw [ih]

theorem foldl_insertSorted_ascending (xs acc : List Ptr) :
    xs.foldl (insertSorted (sortStop COMPARE_PTR true)) acc = xs.reverse ++ acc := by
  induction xs generalizing acc with
  | nil => rfl
  | cons x xs ih =>
    rw [List.foldl_cons, insertSorted_COMPARE_PTR_ascending, ih]
    simp

theorem foldl_insertSorted_descending (xs acc : List Ptr) :
    xs.foldl (insertSorted (sortStop COMPARE_PTR false)) acc = acc ++ xs := by
  induction xs generalizing acc with
  | nil => simp
  | cons x xs ih =>
    rw [List.foldl_cons, insertSorted_COMPARE_PTR_descending, ih]
    simp

/-- C20: on every list reachable from `newList` whose comparator is
`COMPARE_PTR`, `sortList` with no comparator given and enough fuel for the
length succeeds; ascending it leaves the element sequence reversed, descending
it leaves the element sequence as it was. -/
theorem sortList_default_comparator {h : Heap} {l : list} (hreach : Reachable h l)
    (hc : l.comparator = some COMPARE_PTR) (fuel : Nat) (hfuel : l.length < (fuel : Int)) :
    ∃ xs : List Ptr, elements h l = xs.map Except.ok ∧
      (∃ (h' : Heap) (l' : list), sortList fuel h l none true = .ok (h', l') ∧
        elements h' l' = xs.reverse.map Except.ok) ∧
      (∃ (h' : Heap) (l' : list), sortList fuel h l none false = .ok (h', l') ∧
        elements h' l' = xs.map Except.ok) := by
  obtain ⟨ns, hr⟩ := reachable_rep hreach
  have hfuel' : ns.length < fuel := by
    have := hr.len
    omega
  have heff : (if (none : Option compareTwoPointersFunction).isNone = true then l.comparator
      else none) = some COMPARE_PTR := by
    simp [hc]
  have hdata : ∀ ascending : Bool,
      (((nodesFrom h.length (ns.map Prod.snd)).foldl
        (insertSorted (fun s e => sortStop COMPARE_PTR ascending s.2 e.2)) []).map Prod.snd) =
      (ns.map Prod.snd).foldl (insertSorted (sortStop COMPARE_PTR ascending)) [] := by
    intro ascending
    rw [foldl_insertSorted_map Prod.snd _ (sortStop COMPARE_PTR ascending) (fun _ _ => rfl),
      nodesFrom_map_snd]
    rfl
  refine ⟨ns.map Prod.snd, elements_rep hr, ?_, ?_⟩
  · obtain ⟨h', l', e, hrep, -, -⟩ := sortList_spec hr none COMPARE_PTR heff true fuel hfuel'
    refine ⟨h', l', e, ?_⟩
    rw [elements_rep hrep, hdata true, foldl_insertSorted_ascending, List.append_nil]
  · obtain ⟨h', l', e, hrep, -, -⟩ := sortList_spec hr none COMPARE_PTR heff false fuel hfuel'
    refine ⟨h', l', e, ?_⟩
    rw [elements_rep hrep, hdata false, foldl_insertSorted_descending, List.nil_append]

/-! ## The capacity of the cache -/

theorem bind_ne_outOfBounds {α β : Type} {x : Except Fault α} {f : α → Except Fault β}
    (hx : x ≠ .error .outOfBounds) (hf : ∀ a, x = .ok a → f a ≠ .error .outOfBounds) :
    (x >>= f) ≠ .error .outOfBounds := by
  cases x with
  | error e =>
    intro hh
    have he : (Except.error e : Except Fault β) = .error .outOfBounds := hh
    cases he
    exact hx rfl
  | ok a => exact hf a rfl

theorem pure_ne_outOfBounds {α : Type} (a : α) :
    (pure a : Except Fault α) ≠ .error .outOfBounds := by
  intro hh
  cases hh

theorem load_ne_outOfBounds (h : Heap) (p : Ptr) : load h p ≠ .error .outOfBounds := by
  unfold load
  intro hh
  split at hh
  · cases hh
  · split at hh <;> cases hh

theorem call_ne_outOfBounds (f : Option compareTwoPointersFunction) (a b : Ptr) :
    call f a b ≠ .error .outOfBounds := by
  unfold call
  intro hh
  split at hh <;> cases hh

theorem searchIndexLoop_ne_outOfBounds (h : Heap) (l : list) (q : Ptr) :
    ∀ (fuel : Nat) (item : Ptr) (idx : Int),
      searchIndexLoop h l q fuel item idx ≠ .error .outOfBounds := by
  intro fuel
  induction fuel with
  | zero => intro item idx hh; simp [searchIndexLoop] at hh
  | succ g ih =>
    intro item idx
    rw [searchIndexLoop]
    split_ifs
    · refine bind_ne_outOfBounds (load_ne_outOfBounds _ _) (fun c _ => ?_)
      refine bind_ne_outOfBounds (call_ne_outOfBounds _ _ _) (fun r _ => ?_)
      split_ifs
      · exact pure_ne_outOfBounds _
      · exact bind_ne_outOfBounds (load_ne_outOfBounds _ _) (fun c1 _ => ih _ _)
    · exact pure_ne_outOfBounds _

theorem sortListScan_ne_outOfBounds (h : Heap) (cmp : Option compareTwoPointersFunction)
    (ascending : Bool) (item : Ptr) :
    ∀ (fuel : Nat) (sortItem : Ptr) (idx : Int),
      sortListScan h cmp ascending item fuel sortItem idx ≠ .error .outOfBounds := by
  intro fuel
  induction fuel with
  | zero => intro sortItem idx hh; simp [sortListScan] at hh
  | succ g ih =>
    intro sortItem idx
    rw [sortListScan]
    split_ifs
    · refine bind_ne_outOfBounds (load_ne_outOfBounds _ _) (fun s _ => ?_)
      refine bind_ne_outOfBounds (load_ne_outOfBounds _ _) (fun c _ => ?_)
      refine bind_ne_outOfBounds (call_ne_outOfBounds _ _ _) (fun r _ => ?_)
      refine bind_ne_outOfBounds ?_ (fun stop _ => ?_)
      · split_ifs
        · exact pure_ne_outOfBounds _
        · refine bind_ne_outOfBounds (load_ne_outOfBounds _ _) (fun s1 _ => ?_)
          refine bind_ne_outOfBounds (load_ne_outOfBounds _ _) (fun c1 _ => ?_)
          exact bind_ne_outOfBounds (call_ne_outOfBounds _ _ _)
            (fun r1 _ => pure_ne_outOfBounds _)
      · split_ifs
        · exact pure_ne_outOfBounds _
        · exact bind_ne_outOfBounds (load_ne_outOfBounds _ _) (fun s1 _ => ih _ _)
    · exact pure_ne_outOfBounds _

/-- On a well-formed list `appendAtInList` never leaves the allocated cache,
whatever the position. -/
theorem appendAtInList_ne_outOfBounds {h : Heap} {l : list} {ns : List (Nat × Ptr)}
    (hr : Rep h l ns) (d : Ptr) (index : Int) :
    appendAtInList h l d index ≠ .error .outOfBounds := by
  intro hh
  by_cases hneg : index < 0
  · rw [appendAtInList_neg h l d hneg] at hh
    cases hh
  · by_cases hbig : l.length < index
    · rw [appendAtInList_beyond d hbig (by rw [hr.len]; omega)] at hh
      cases hh
    · obtain ⟨p, rfl⟩ := Int.eq_ofNat_of_zero_le (not_lt.1 hneg)
      obtain ⟨h2, l2, e2, -⟩ := appendAtInList_spec hr d p (by have := hr.len; omega)
      rw [e2] at hh
      cases hh

/-- On a well-formed list `deleteItemAtIndex` never leaves the allocated cache,
whatever the position. -/
theorem deleteItemAtIndex_ne_outOfBounds {h : Heap} {l : list} {ns : List (Nat × Ptr)}
    (hr : Rep h l ns) (index : Int) :
    deleteItemAtIndex h l index ≠ .error .outOfBounds := by
  intro hh
  by_cases hneg : index < 0
  · rw [deleteItemAtIndex_neg h l hneg] at hh
    cases hh
  · by_cases hbig : l.length < index
    · rw [deleteItemAtIndex_beyond h l hbig (by rw [hr.len]; omega)] at hh
      cases hh
    · by_cases heq : index = l.length
      · rw [heq, deleteItemAtIndex_at_length h l (by rw [hr.len]; omega)] at hh
        cases hh
      · obtain ⟨p, rfl⟩ := Int.eq_ofNat_of_zero_le (not_lt.1 hneg)
        obtain ⟨h2, l2, e2, -⟩ := deleteItemAtIndex_spec hr p (by have := hr.len; omega)
        rw [e2] at hh
        cases hh

theorem emptyList_ne_outOfBounds :
    ∀ (fuel : Nat) (h : Heap) (l : list) (ns : List (Nat × Ptr)), Rep h l ns →
      emptyList fuel h l ≠ .error .outOfBounds := by
  intro fuel
  induction fuel with
  | zero => intro h l ns _ hh; simp [emptyList] at hh
  | succ g ih =>
    intro h l ns hr
    rw [emptyList]
    split_ifs
    · refine bind_ne_outOfBounds (deleteItemAtIndex_ne_outOfBounds hr 0) (fun r hr1 => ?_)
      obtain ⟨h1, l1⟩ := r
      obtain ⟨ns1, hrep1⟩ := deleteItemAtIndex_rep hr hr1
      exact ih h1 l1 ns1 hrep1
    · exact pure_ne_outOfBounds _

theorem deleteInList_ne_outOfBounds {h : Heap} {l : list} {ns : List (Nat × Ptr)}
    (hr : Rep h l ns) (fuel : Nat) (d : Ptr) :
    deleteInList fuel h l d ≠ .error .outOfBounds := by
  unfold deleteInList
  refine bind_ne_outOfBounds (searchIndexLoop_ne_outOfBounds _ _ _ _ _ _) (fun r _ => ?_)
  split_ifs
  · exact deleteItemAtIndex_ne_outOfBounds hr r
  · intro hh
    cases hh

theorem sortListLoop_ne_outOfBounds (cmp : Option compareTwoPointersFunction)
    (ascending : Bool) (scanFuel : Nat) :
    ∀ (fuel : Nat) (h : Heap) (sl : list) (item : Ptr) (ys : List (Nat × Ptr)),
      Rep h sl ys →
      sortListLoop cmp ascending scanFuel fuel h sl item ≠ .error .outOfBounds := by
  intro fuel
  induction fuel with
  | zero => intro h sl item ys _ hh; simp [sortListLoop] at hh
  | succ g ih =>
    intro h sl item ys hr
    rw [sortListLoop]
    split_ifs
    · refine bind_ne_outOfBounds (sortListScan_ne_outOfBounds _ _ _ _ _ _ _) (fun k _ => ?_)
      refine bind_ne_outOfBounds (load_ne_outOfBounds _ _) (fun c _ => ?_)
      show (appendAtInList h sl c.data k >>= _) ≠ _
      refine bind_ne_outOfBounds (appendAtInList_ne_outOfBounds hr _ _) (fun r hr1 => ?_)
      obtain ⟨h1, sl1⟩ := r
      obtain ⟨ys1, hrep1⟩ := appendAtInList_rep hr hr1
      exact bind_ne_outOfBounds (load_ne_outOfBounds _ _) (fun c1 _ => ih h1 sl1 _ ys1 hrep1)
    · exact pure_ne_outOfBounds _

theorem sortList_ne_outOfBounds {h : Heap} {l : list} {ns : List (Nat × Ptr)}
    (hr : Rep h l ns) (fuel : Nat) (cmp : Option compareTwoPointersFunction)
    (ascending : Bool) : sortList fuel h l cmp ascending ≠ .error .outOfBounds := by
  unfold sortList
  refine bind_ne_outOfBounds
    (sortListLoop_ne_outOfBounds _ _ _ _ _ _ _ _ (rep_newList h l.comparator)) (fun r hloop => ?_)
  obtain ⟨h1, sl1⟩ := r
  obtain ⟨ys1, hrep1, -, hf1, -⟩ := sortListLoop_rep _ ascending fuel (ns.map Prod.fst)
    fuel h (newList l.comparator) l.first [] h1 sl1 (rep_newList h _) (rep_addr_lt hr)
    (fun b hb => by simp at hb) hloop
  obtain ⟨sl2, e2, -⟩ := updateIndexMap_rep hrep1
  refine bind_ne_outOfBounds (by rw [e2]; intro hh; cases hh) (fun sl3 _ => ?_)
  refine bind_ne_outOfBounds (emptyList_ne_outOfBounds fuel h1 l ns (rep_frame hr hf1))
    (fun r2 _ => ?_)
  exact pure_ne_outOfBounds _

/-- C18: `newList` gives length 0 and capacity 2; in every state reachable
from it `0 ≤ length ≤ memLength`, with `memLength` the allocated size of the
cache; from such a state no public mutating call, with any arguments, reads or
writes the cache outside its allocated size; and the state after any
successful public mutating call satisfies `0 ≤ length ≤ memLength` again. -/
theorem capacity_invariant {h : Heap} {l : list} (hreach : Reachable h l) :
    (∀ cmp : Option compareTwoPointersFunction, (newList cmp).length = 0 ∧
      (newList cmp).memLength = 2 ∧ (newList cmp).indexMap.length = 2) ∧
    0 ≤ l.length ∧ l.length ≤ l.memLength ∧ l.memLength = (l.indexMap.length : Int) ∧
    (∀ (d : Ptr) (index : Int), appendAtInList h l d index ≠ .error .outOfBounds) ∧
    (∀ d : Ptr, pushInList h l d ≠ .error .outOfBounds) ∧
    (∀ d : Ptr, appendInList h l d ≠ .error .outOfBounds) ∧
    (∀ index : Int, deleteItemAtIndex h l index ≠ .error .outOfBounds) ∧
    (∀ (fuel : Nat) (d : Ptr), deleteInList fuel h l d ≠ .error .outOfBounds) ∧
    (∀ fuel : Nat, emptyList fuel h l ≠ .error .outOfBounds) ∧
    (∀ (fuel : Nat) (cmp : Option compareTwoPointersFunction) (ascending : Bool),
      sortList fuel h l cmp ascending ≠ .error .outOfBounds) ∧
    (∀ (h' : Heap) (l' : list),
      ((∃ (d : Ptr) (index : Int), appendAtInList h l d index = .ok (h', l')) ∨
       (∃ d : Ptr, pushInList h l d = .ok (h', l')) ∨
       (∃ d : Ptr, appendInList h l d = .ok (h', l')) ∨
       (∃ index : Int, deleteItemAtIndex h l index = .ok (h', l')) ∨
       (∃ (fuel : Nat) (d : Ptr), deleteInList fuel h l d = .ok (h', l')) ∨
       (∃ fuel : Nat, emptyList fuel h l = .ok (h', l')) ∨
       (∃ (fuel : Nat) (cmp : Option compareTwoPointersFunction) (ascending : Bool),
          sortList fuel h l cmp ascending = .ok (h', l'))) →
      0 ≤ l'.length ∧ l'.length ≤ l'.memLength ∧
        l'.memLength = (l'.indexMap.length : Int)) := by
  obtain ⟨ns, hr⟩ := reachable_rep hreach
  refine ⟨fun cmp => ⟨rfl, rfl, rfl⟩, by rw [hr.len]; omega, hr.cap, hr.mem,
    fun d index => appendAtInList_ne_outOfBounds hr d index,
    fun d => appendAtInList_ne_outOfBounds hr d 0,
    fun d => appendAtInList_ne_outOfBounds hr d l.length,
    fun index => deleteItemAtIndex_ne_outOfBounds hr index,
    fun fuel d => deleteInList_ne_outOfBounds hr fuel d,
    fun fuel => emptyList_ne_outOfBounds fuel h l ns hr,
    fun fuel cmp ascending => sortList_ne_outOfBounds hr fuel cmp ascending, ?_⟩
  intro h' l' hstep
  have hreach' : Reachable h' l' := by
    rcases hstep with ⟨d, index, e⟩ | ⟨d, e⟩ | ⟨d, e⟩ | ⟨index, e⟩ | ⟨fuel, d, e⟩ | ⟨fuel, e⟩ |
      ⟨fuel, cmp, ascending, e⟩
    · exact Reachable.appendAtInList d index hreach e
    · exact Reachable.pushInList d hreach e
    · exact Reachable.appendInList d hreach e
    · exact Reachable.deleteItemAtIndex index hreach e
    · exact Reachable.deleteInList fuel d hreach e
    · exact Reachable.emptyList fuel hreach e
    · exact Reachable.sortList fuel cmp ascending hreach e
  obtain ⟨ns', hr'⟩ := reachable_rep hreach'
  exact ⟨by rw [hr'.len]; omega, hr'.cap, hr'.mem⟩

/-- Any successful `appendAtInList` on a well-formed list: the length and the
capacity afterwards. -/
theorem appendAtInList_cap {h : Heap} {l : list} {ns : List (Nat × Ptr)} (hr : Rep h l ns)
    {d : Ptr} {index : Int} {h' : Heap} {l' : list}
    (e : appendAtInList h l d index = .ok (h', l')) :
    (l' = l) ∨ (l'.length = l.length + 1 ∧
      l'.memLength = (if l.length + 1 > l.memLength then l.memLength * 2 else l.memLength)) := by
  by_cases hneg : index < 0
  · rw [appendAtInList_neg h l d hneg] at e
    cases e
  · by_cases hbig : l.length < index
    · rw [appendAtInList_beyond d hbig (by rw [hr.len]; omega)] at e
      cases e
      exact Or.inl rfl
    · obtain ⟨p, rfl⟩ := Int.eq_ofNat_of_zero_le (not_lt.1 hneg)
      obtain ⟨h2, l2, e2, -, -, -, -, hlen, hmem, -⟩ :=
        appendAtInList_spec hr d p (by have := hr.len; omega)
      rw [e2] at e
      cases e
      exact Or.inr ⟨hlen, hmem⟩

theorem appendAtInList_capacityStep {h : Heap} {l : list} {ns : List (Nat × Ptr)}
    (hr : Rep h l ns) {d : Ptr} {index : Int} {h' : Heap} {l' : list}
    (e : appendAtInList h l d index = .ok (h', l')) : capacityStep l l' := by
  have hpos := hr.capPos
  rcases appendAtInList_cap hr e with rfl | ⟨-, hmem⟩
  · exact ⟨le_refl _, fun hne => absurd rfl hne⟩
  · rw [capacityStep, hmem]
    split_ifs
    · exact ⟨by omega, fun _ => rfl⟩
    · exact ⟨le_refl _, fun hne => absurd rfl hne⟩

theorem deleteItemAtIndex_capacity {h : Heap} {l : list} {ns : List (Nat × Ptr)}
    (hr : Rep h l ns) {index : Int} {h' : Heap} {l' : list}
    (e : deleteItemAtIndex h l index = .ok (h', l')) : l'.memLength = l.memLength := by
  by_cases hneg : index < 0
  · rw [deleteItemAtIndex_neg h l hneg] at e
    cases e
  · by_cases hbig : l.length < index
    · rw [deleteItemAtIndex_beyond h l hbig (by rw [hr.len]; omega)] at e
      cases e
      rfl
    · by_cases heq : index = l.length
      · rw [heq, deleteItemAtIndex_at_length h l (by rw [hr.len]; omega)] at e
        cases e
      · obtain ⟨p, rfl⟩ := Int.eq_ofNat_of_zero_le (not_lt.1 hneg)
        obtain ⟨h2, l2, e2, -, -, -, -, -, hmem, -⟩ :=
          deleteItemAtIndex_spec hr p (by have := hr.len; omega)
        rw [e2] at e
        cases e
        exact hmem

theorem capacityStep_of_eq {l l' : list} (he : l'.memLength = l.memLength) :
    capacityStep l l' :=
  ⟨by rw [he], fun hne => absurd he hne⟩

/-- The destination list of `sortList` is built by insertions only, so its
capacity stays 2 or below twice its length. -/
theorem sortListLoop_cap (cmp : Option compareTwoPointersFunction) (ascending : Bool)
    (scanFuel : Nat) :
    ∀ (fuel : Nat) (h : Heap) (sl : list) (item : Ptr) (ys : List (Nat × Ptr))
      (h' : Heap) (sl' : list),
      Rep h sl ys → (sl.memLength = 2 ∨ sl.memLength < 2 * sl.length) →
      sortListLoop cmp ascending scanFuel fuel h sl item = .ok (h', sl') →
      sl'.memLength = 2 ∨ sl'.memLength < 2 * sl'.length := by
  intro fuel
  induction fuel with
  | zero =>
    intro h sl item ys h' sl' _ _ e
    simp [sortListLoop] at e
  | succ g ih =>
    intro h sl item ys h' sl' hr hcap e
    rw [sortListLoop] at e
    by_cases hitem : item ≠ none
    · rw [if_pos hitem] at e
      simp only [bind, Except.bind] at e
      cases hscan : sortListScan h cmp ascending item scanFuel sl.first 0 with
      | error err => rw [hscan] at e; cases e
      | ok k =>
        rw [hscan] at e
        simp only at e
        cases hload : load h item with
        | error err => rw [hload] at e; cases e
        | ok c =>
          rw [hload] at e
          simp only at e
          cases hput : appendAtInList h sl c.data k with
          | error err =>
            have hput' : putItemAtIndex (newChainItem h c.data).1 sl (newChainItem h c.data).2 k
                = .error err := hput
            rw [hput'] at e; cases e
          | ok r =>
            obtain ⟨h1, sl1⟩ := r
            have hput' : putItemAtIndex (newChainItem h c.data).1 sl (newChainItem h c.data).2 k
                = .ok (h1, sl1) := hput
            rw [hput'] at e
            simp only at e
            obtain ⟨ys1, hrep1⟩ := appendAtInList_rep hr hput
            have hcap1 : sl1.memLength = 2 ∨ sl1.memLength < 2 * sl1.length := by
              rcases appendAtInList_cap hr hput with heq | ⟨hlen, hmem⟩
              · rw [heq]; exact hcap
              · rw [hlen, hmem]
                have := hr.cap
                split_ifs <;> omega
            cases hload1 : load h1 item with
            | error err => rw [hload1] at e; cases e
            | ok c1 =>
              rw [hload1] at e
              simp only at e
              exact ih h1 sl1 c1.next ys1 h' sl' hrep1 hcap1 e
    · rw [if_neg hitem] at e
      cases e
      exact hcap

theorem sortList_cap {fuel : Nat} {h : Heap} {l : list} {ns : List (Nat × Ptr)}
    (hr : Rep h l ns) {cmp : Option compareTwoPointersFunction} {ascending : Bool}
    {h' : Heap} {l' : list} (e : sortList fuel h l cmp ascending = .ok (h', l')) :
    l'.memLength = 2 ∨ l'.memLength < 2 * l'.length := by
  simp only [sortList, bind, Except.bind] at e
  cases hloop : sortListLoop (if cmp.isNone = true then l.comparator else cmp) ascending fuel
      fuel h (newList l.comparator) l.first with
  | error err => rw [hloop] at e; cases e
  | ok r =>
    obtain ⟨h1, sl1⟩ := r
    rw [hloop] at e
    simp only at e
    have hcap1 := sortListLoop_cap _ ascending fuel fuel h (newList l.comparator) l.first []
      h1 sl1 (rep_newList h _) (Or.inl rfl) hloop
    obtain ⟨ys1, hrep1, -⟩ := sortListLoop_rep _ ascending fuel (ns.map Prod.fst)
      fuel h (newList l.comparator) l.first [] h1 sl1 (rep_newList h _) (rep_addr_lt hr)
      (fun b hb => by simp at hb) hloop
    obtain ⟨sl2, e2, -, -, hmem2, hlen2, -⟩ := updateIndexMap_rep hrep1
    rw [e2] at e
    simp only at e
    cases hempty : emptyList fuel h1 l with
    | error err => rw [hempty] at e; cases e
    | ok r2 =>
      obtain ⟨h2, l2⟩ := r2
      rw [hempty] at e
      cases e
      rw [hmem2, hlen2]
      exact hcap1

/-- C19, as amended: on every list reachable from `newList`, after a successful
`appendAtInList`, `pushInList`, `appendInList`, `deleteItemAtIndex`,
`deleteInList` or `emptyList` the capacity `memLength` is not smaller than
before, and is exactly doubled when it is not the same; after a successful
`sortList` the capacity is that of the list built anew from capacity 2: it is 2
or less than twice the length, whatever it was before. -/
theorem capacity_kept_or_doubled {h : Heap} {l : list} (hreach : Reachable h l)
    (h' : Heap) (l' : list) :
    (∀ (d : Ptr) (index : Int), appendAtInList h l d index = .ok (h', l') → capacityStep l l') ∧
    (∀ d : Ptr, pushInList h l d = .ok (h', l') → capacityStep l l') ∧
    (∀ d : Ptr, appendInList h l d = .ok (h', l') → capacityStep l l') ∧
    (∀ index : Int, deleteItemAtIndex h l index = .ok (h', l') → capacityStep l l') ∧
    (∀ (fuel : Nat) (d : Ptr), deleteInList fuel h l d = .ok (h', l') → capacityStep l l') ∧
    (∀ fuel : Nat, emptyList fuel h l = .ok (h', l') → capacityStep l l') ∧
    (∀ (fuel : Nat) (cmp : Option compareTwoPointersFunction) (ascending : Bool),
      sortList fuel h l cmp ascending = .ok (h', l') →
      l'.memLength = 2 ∨ l'.memLength < 2 * l'.length) := by
  obtain ⟨ns, hr⟩ := reachable_rep hreach
  refine ⟨fun d index e => appendAtInList_capacityStep hr e,
    fun d e => appendAtInList_capacityStep hr e,
    fun d e => appendAtInList_capacityStep hr e,
    fun index e => capacityStep_of_eq (deleteItemAtIndex_capacity hr e), ?_,
    fun fuel e => capacityStep_of_eq (emptyList_rep fuel h l ns h' l' hr e).2.2.2,
    fun fuel cmp ascending e => sortList_cap hr e⟩
  intro fuel d e
  simp only [deleteInList, bind, Except.bind] at e
  cases hs : searchIndexInList fuel h l d with
  | error err => rw [hs] at e; cases e
  | ok k =>
    rw [hs] at e
    simp only at e
    by_cases hk : k ≠ -1
    · rw [if_pos hk] at e
      exact capacityStep_of_eq (deleteItemAtIndex_capacity hr e)
    · rw [if_neg hk] at e
      cases e

/-- C19, the claim as stated fails for `sortList`: the list that holds `1`,
`2` with capacity 4 (what `deleteItemAtIndex(list, 0)` leaves of `demoList`)
has capacity 2 after `sortList`. -/
theorem sortList_shrinks_capacity :
    Reachable pairHeap pairList ∧ pairList.memLength = 4 ∧
    ∃ (h' : Heap) (l' : list), sortList 3 pairHeap pairList (some cmpAddr) true = .ok (h', l') ∧
      l'.memLength = 2 ∧ ¬ (pairList.memLength ≤ l'.memLength) :=
  ⟨Reachable.deleteItemAtIndex 0 demo_reachable rfl, rfl, _, _, rfl, rfl, by decide⟩

/-! ## The later theorems at concrete lists -/

theorem ptr_reachable : Reachable demoHeap ptrList :=
  Reachable.appendInList (some 2)
    (Reachable.appendInList (some 1)
      (Reachable.appendInList (some 3) (Reachable.newList [] (some COMPARE_PTR)) rfl) rfl) rfl

theorem pair_reachable : Reachable pairHeap pairList :=
  Reachable.deleteItemAtIndex 0 demo_reachable rfl

theorem appendAtInList_beyond_noop_witness :
    Reachable demoHeap demoList ∧ demoList.length < (5 : Int) ∧
    ∃ h' : Heap, appendAtInList demoHeap demoList (some 9) 5 = .ok (h', demoList) ∧
      (∀ b : Nat, b < demoHeap.length → h'[b]? = demoHeap[b]?) ∧
      elements h' demoList = elements demoHeap demoList :=
  ⟨demo_reachable, by decide,
    appendAtInList_beyond_noop demo_reachable (some 9) 5 (by decide)⟩

theorem insert_then_delete_witness :
    Reachable demoHeap demoList ∧ (0 : Int) ≤ 1 ∧ (1 : Int) ≤ demoList.length ∧
    ∃ (h1 : Heap) (l1 : list) (h2 : Heap) (l2 : list),
      appendAtInList demoHeap demoList (some 9) 1 = .ok (h1, l1) ∧
      deleteItemAtIndex h1 l1 1 = .ok (h2, l2) ∧
      l2.length = demoList.length ∧ elements h2 l2 = elements demoHeap demoList ∧
      ∀ i : Int, getDataAtIndex h2 l2 i = getDataAtIndex demoHeap demoList i :=
  ⟨demo_reachable, by decide, by decide,
    insert_then_delete demo_reachable (some 9) 1 (by decide) (by decide)⟩

theorem cache_link_agreement_witness :
    Reachable demoHeap demoList ∧ ((1 : Nat) : Int) < demoList.length ∧
    ∃ (a : Nat) (c : chainItem), readIndexMap demoList ((1 : Nat) : Int) = .ok (some a) ∧
      walk demoHeap 1 demoList.first = .ok (some a) ∧ load demoHeap (some a) = .ok c ∧
      (1 = 0 → c.previous = none) ∧
      (0 < 1 → readIndexMap demoList (((1 : Nat) : Int) - 1) = .ok c.previous ∧
        c.previous ≠ none) ∧
      (((1 : Nat) : Int) = demoList.length - 1 → c.next = none) ∧
      (((1 : Nat) : Int) < demoList.length - 1 →
        readIndexMap demoList (((1 : Nat) : Int) + 1) = .ok c.next ∧ c.next ≠ none) :=
  ⟨demo_reachable, by decide, cache_link_agreement demo_reachable 1 (by decide)⟩

theorem append_order_push_front_witness :
    Reachable demoHeap demoList ∧
    (∃ (h' : Heap) (l' : list),
      appendAll [] (newList (some cmpAddr)) [some 3, some 1, some 2] = .ok (h', l') ∧
      l'.length = ([some 3, some 1, some 2] : List Ptr).length ∧
      elements h' l' = ([some 3, some 1, some 2] : List Ptr).map Except.ok ∧
      ∀ (i : Nat) (x : Ptr), ([some 3, some 1, some 2] : List Ptr)[i]? = some x →
        getDataAtIndex h' l' (i : Int) = .ok x) ∧
    (∃ (h' : Heap) (l' : list) (ys : List Ptr),
      pushInList demoHeap demoList (some 9) = .ok (h', l') ∧
      elements demoHeap demoList = ys.map Except.ok ∧
      elements h' l' = (some 9 :: ys).map Except.ok ∧
      l'.length = demoList.length + 1) :=
  ⟨demo_reachable,
    append_order_push_front [] (some cmpAddr) [some 3, some 1, some 2] demo_reachable (some 9)⟩

theorem pushInList_front_witness :
    Reachable demoHeap demoList ∧
    ∃ (h' : Heap) (l' : list), pushInList demoHeap demoList (some 9) = .ok (h', l') ∧
      l'.length = demoList.length + 1 ∧ getDataAtIndex h' l' 0 = .ok (some 9) ∧
      ∀ i : Int, 0 ≤ i → i < demoList.length →
        ∃ x : Ptr, getDataAtIndex demoHeap demoList i = .ok x ∧
          getDataAtIndex h' l' (i + 1) = .ok x :=
  ⟨demo_reachable, pushInList_front demo_reachable (some 9)⟩

theorem capacity_invariant_witness :
    Reachable demoHeap demoList ∧
    0 ≤ demoList.length ∧ demoList.length ≤ demoList.memLength ∧
    demoList.memLength = (demoList.indexMap.length : Int) ∧
    appendInList demoHeap demoList (some 9) ≠ .error .outOfBounds ∧
    sortList 4 demoHeap demoList none true ≠ .error .outOfBounds ∧
    deleteItemAtIndex demoHeap demoList 0 = .ok (pairHeap, pairList) ∧
    (0 ≤ pairList.length ∧ pairList.length ≤ pairList.memLength ∧
      pairList.memLength = (pairList.indexMap.length : Int)) :=
  ⟨demo_reachable, (capacity_invariant demo_reachable).2.1,
    (capacity_invariant demo_reachable).2.2.1, (capacity_invariant demo_reachable).2.2.2.1,
    (capacity_invariant demo_reachable).2.2.2.2.2.2.1 (some 9),
    (capacity_invariant demo_reachable).2.2.2.2.2.2.2.2.2.2.1 4 none true, rfl,
    (capacity_invariant demo_reachable).2.2.2.2.2.2.2.2.2.2.2 pairHeap pairList
      (Or.inr (Or.inr (Or.inr (Or.inl ⟨0, rfl⟩))))⟩

theorem capacity_kept_or_doubled_witness :
    Reachable demoHeap demoList ∧
    deleteItemAtIndex demoHeap demoList 0 = .ok (pairHeap, pairList) ∧
    capacityStep demoList pairList ∧
    Reachable pairHeap pairList ∧
    (∃ (h' : Heap) (l' : list),
      sortList 3 pairHeap pairList (some cmpAddr) true = .ok (h', l') ∧
      (l'.memLength = 2 ∨ l'.memLength < 2 * l'.length)) ∧
    (∃ (h1 : Heap) (l1 : list) (h2 : Heap) (l2 : list), Reachable h1 l1 ∧
      appendInList h1 l1 (some 2) = .ok (h2, l2) ∧ l1.memLength = 2 ∧ l2.memLength = 4 ∧
      capacityStep l1 l2) :=
  ⟨demo_reachable, rfl,
    (capacity_kept_or_doubled demo_reachable pairHeap pairList).2.2.2.1 0 rfl,
    pair_reachable,
    ⟨_, _, rfl, (capacity_kept_or_doubled pair_reachable _ _).2.2.2.2.2.2 3 (some cmpAddr) true
      rfl⟩,
    ⟨_, _, _, _, Reachable.appendInList (some 1) null_reachable rfl, rfl, rfl, rfl,
      (capacity_kept_or_doubled (Reachable.appendInList (some 1) null_reachable rfl) _ _).2.2.1
        (some 2) rfl⟩⟩

theorem sortList_default_comparator_witness :
    Reachable demoHeap ptrList ∧ ptrList.comparator = some COMPARE_PTR ∧
    ptrList.length < ((4 : Nat) : Int) ∧
    ∃ xs : List Ptr, elements demoHeap ptrList = xs.map Except.ok ∧
      (∃ (h' : Heap) (l' : list), sortList 4 demoHeap ptrList none true = .ok (h', l') ∧
        elements h' l' = xs.reverse.map Except.ok) ∧
      (∃ (h' : Heap) (l' : list), sortList 4 demoHeap ptrList none false = .ok (h', l') ∧
        elements h' l' = xs.map Except.ok) :=
  ⟨ptr_reachable, rfl, by decide,
    sortList_default_comparator ptr_reachable rfl 4 (by decide)⟩

end SmartList
